import Mathlib

/-!
Formal model of the pmaze generator (`src/__main__.py`).

The generator `gen_maze(width, height, branch_dist, min_length, seed)` grows a
maze over a `width × height` grid of cells, tracking for each cell a 4-bit
wall-opening mask, a distance from the start, and a count of not-yet-visited
neighbours.  The model below is a shallow embedding:

* Python lists become `List` values; reads and writes go through `pyGet` /
  `pySet`, which reproduce Python indexing (negative indices wrap once, out of
  range raises, modelled as `none`).
* The module-level random generator is abstracted by an oracle `Orc` supplying
  the outcome of every draw.  `random.randint(a, b)` outcomes are encoded by
  reducing the oracle value into `[a, b]`, the documented range of the call;
  `random.random()` outcomes are reduced into `[0, 1)` by `fracNorm`.
  Float weights are idealized as exact fractions (`Frac`).
* `heapq` is modelled at its observable interface: `heap[0]` is the minimum
  entry and `heappop` removes it, so the heap contents are kept as a list
  sorted in ascending tuple order (entries are distinct tuples, hence the
  model has the same observable behaviour as the binary heap).
* Exceptions (`IndexError`, `ValueError` from `randint`/`sample`/`choices`,
  `exit()` on an unsatisfiable exit constraint) are modelled by `Except`.
-/

namespace Pmaze

/-- Errors a run can produce.  `exitUnsat` models the `IndexError` caught at
the exit-selection step, reported by `print` + `exit()` in the source; the
others model uncaught exceptions, and `fuel` is the artificial recursion
bound of the model (proved unreachable under the stated hypotheses). -/
inductive GenErr where
  | indexError
  | emptyRange
  | sampleLarger
  | badWeights
  | noneCell
  | fuel
  | exitUnsat
  deriving DecidableEq, Repr

instance {ε α : Type} [DecidableEq ε] [DecidableEq α] : DecidableEq (Except ε α)
  | .error e, .error f =>
    if h : e = f then .isTrue (by rw [h]) else .isFalse (fun hh => h (Except.error.inj hh))
  | .error _, .ok _ => .isFalse (fun hh => Except.noConfusion hh)
  | .ok _, .error _ => .isFalse (fun hh => Except.noConfusion hh)
  | .ok a, .ok b =>
    if h : a = b then .isTrue (by rw [h]) else .isFalse (fun hh => h (Except.ok.inj hh))

/-- `INF = 2 ** 62`, the sentinel distance of an unvisited cell. -/
def INF : ℤ := 2 ^ 62

/-- Python list read `l[i]`: a negative index wraps once, out of range raises. -/
def pyGet {α : Type} (l : List α) (i : ℤ) : Option α :=
  if 0 ≤ i ∧ i < l.length then l.get? i.toNat
  else if -(l.length : ℤ) ≤ i ∧ i < 0 then l.get? (i + l.length).toNat
  else none

/-- Python list write `l[i] = v`. -/
def pySet {α : Type} (l : List α) (i : ℤ) (v : α) : Option (List α) :=
  if 0 ≤ i ∧ i < l.length then some (l.set i.toNat v)
  else if -(l.length : ℤ) ≤ i ∧ i < 0 then some (l.set (i + l.length).toNat v)
  else none

/-- Turn a failed list access into the matching exception. -/
def oe {α : Type} (o : Option α) (e : GenErr) : Except GenErr α :=
  match o with
  | some a => .ok a
  | none => .error e

/-- `t = lambda x, y: width * y + x`. -/
def t (width : ℕ) (x y : ℤ) : ℤ := width * y + x

/-- `in_bounds = lambda x, y: 0 <= x < width and 0 <= y < height`. -/
def in_bounds (width height : ℕ) (x y : ℤ) : Bool :=
  decide (0 ≤ x ∧ x < (width : ℤ) ∧ 0 ≤ y ∧ y < (height : ℤ))

/-- `is_border = lambda x, y: x == 0 or y == 0 or x == last_x or y == last_y`. -/
def is_border (width height : ℕ) (x y : ℤ) : Bool :=
  decide (x = 0 ∨ y = 0 ∨ x = (width : ℤ) - 1 ∨ y = (height : ℤ) - 1)

/-- `c_l = lambda x, y: (x - 1, y)`. -/
def c_l (x y : ℤ) : ℤ × ℤ := (x - 1, y)

/-- `c_r = lambda x, y: (x + 1, y)`. -/
def c_r (x y : ℤ) : ℤ × ℤ := (x + 1, y)

/-- `c_t = lambda x, y: (x, y - 1)`. -/
def c_t (x y : ℤ) : ℤ × ℤ := (x, y - 1)

/-- `c_b = lambda x, y: (x, y + 1)`. -/
def c_b (x y : ℤ) : ℤ × ℤ := (x, y + 1)

/-- The mutable state of a generation run: `cells_visited`,
`cell_remaining_sides`, `cell_distance`, `cell_state` (wall masks),
`cell_by_distance` (the restart heap) and the frontier deque `q`.
`tick` records how far the random stream has been consumed. -/
structure St where
  cells_visited : ℕ
  rem : List ℤ
  dist : List ℤ
  walls : List ℕ
  heap : List (ℤ × ℤ × ℤ)
  q : List (ℤ × ℤ)
  tick : ℕ
  deriving DecidableEq, Repr

/-- Exact fractions `num / den`, idealizing Python floats (every float is an
exact dyadic rational).  Arithmetic on the pairs is exact fraction
arithmetic, and comparisons cross-multiply — faithful whenever the
denominators are positive, which holds for every fraction the model builds
from reduced `random()` draws and positive-denominator weights. -/
abbrev Frac := ℤ × ℤ

/-- The fraction `0`. -/
def fzero : Frac := (0, 1)

/-- Exact fraction addition. -/
def fadd (p q : Frac) : Frac := (p.1 * q.2 + q.1 * p.2, p.2 * q.2)

/-- Exact fraction multiplication. -/
def fmul (p q : Frac) : Frac := (p.1 * q.1, p.2 * q.2)

/-- `p < q` by cross-multiplication. -/
def fltB (p q : Frac) : Bool := decide (p.1 * q.2 < q.1 * p.2)

/-- `p ≤ q` by cross-multiplication. -/
def fleB (p q : Frac) : Bool := decide (p.1 * q.2 ≤ q.1 * p.2)

/-- The rational value of a fraction, for specification lemmas. -/
def fval (p : Frac) : ℚ := (p.1 : ℚ) / (p.2 : ℚ)

/-- Reduce a `random()` oracle draw into `[0, 1)`: force the denominator
positive and take the numerator modulo it. -/
def fracNorm (p : Frac) : Frac :=
  let b := if p.2 ≤ 0 then 1 else p.2
  (p.1 % b, b)

/-- Oracle for the seeded random generator: one field per kind of draw the
source makes (`random.choice([True, False])` twice while picking the start,
`randint` for the start coordinate, `random()` inside `random.choices`,
index draws inside `random.sample`, and the `random.choice` of the exit). -/
structure Orc where
  coin1 : Bool
  coin2 : Bool
  xDraw : ℕ
  yDraw : ℕ
  u : ℕ → Frac
  sel : ℕ → ℕ → ℕ
  exitPick : ℕ

/-- Comparison of two heap entries `(-d, (x, y))`, i.e. Python tuple order. -/
def keyLe (a b : ℤ × ℤ × ℤ) : Prop :=
  a.1 < b.1 ∨ (a.1 = b.1 ∧ (a.2.1 < b.2.1 ∨ (a.2.1 = b.2.1 ∧ a.2.2 ≤ b.2.2)))

instance : DecidableRel keyLe := by
  intro a b
  unfold keyLe
  infer_instance

/-- `heappush`, modelled at the heap's observable interface: the contents are
kept sorted in ascending tuple order, so index `0` is the minimum exactly as
for the binary heap of `heapq` (all pushed entries are distinct tuples). -/
def heapPush (heap : List (ℤ × ℤ × ℤ)) (k : ℤ × ℤ × ℤ) : List (ℤ × ℤ × ℤ) :=
  match heap with
  | [] => [k]
  | e :: rest => if keyLe k e then k :: e :: rest else e :: heapPush rest k

/-- `fallback_cell()`: inspect the heap root `cell_by_distance[0]`; keep and
return its cell if `remaining_sides > 1`, pop and return it if
`remaining_sides == 1`, otherwise pop it and continue.  Returns the cell
together with the heap left behind; `none` when the heap runs dry (Python
falls off the loop and returns `None`). -/
def fallback_cell (width : ℕ) (rem : List ℤ) :
    List (ℤ × ℤ × ℤ) → Except GenErr (Option ((ℤ × ℤ) × List (ℤ × ℤ × ℤ)))
  | [] => .ok none
  | e :: rest =>
    match pyGet rem (t width e.2.1 e.2.2) with
    | none => .error .indexError
    | some remaining_sides =>
      if 1 < remaining_sides then .ok (some ((e.2.1, e.2.2), e :: rest))
      else if remaining_sides = 1 then .ok (some ((e.2.1, e.2.2), rest))
      else fallback_cell width rem rest

/-- Decrement `cell_remaining_sides[t(*c)]`. -/
def dec_side (width : ℕ) (rem : List ℤ) (c : ℤ × ℤ) : Option (List ℤ) := do
  let v ← pyGet rem (t width c.1 c.2)
  pySet rem (t width c.1 c.2) (v - 1)

/-- `if in_bounds(*c): cell_remaining_sides[t(*c)] -= 1`. -/
def dec_if (width height : ℕ) (rem : List ℤ) (c : ℤ × ℤ) : Option (List ℤ) :=
  if in_bounds width height c.1 c.2 then dec_side width rem c else some rem

/-- `set_visited(x, y, d)`: bump `cells_visited`, record the distance, push
`(-d, (x, y))` on the heap, and decrement `remaining_sides` of every
in-bounds neighbour (left, right, top, bottom). -/
def set_visited (width height : ℕ) (s : St) (x y d : ℤ) : Except GenErr St :=
  oe (do
    let dist ← pySet s.dist (t width x y) d
    let rem ← dec_if width height s.rem (c_l x y)
    let rem ← dec_if width height rem (c_r x y)
    let rem ← dec_if width height rem (c_t x y)
    let rem ← dec_if width height rem (c_b x y)
    pure { s with cells_visited := s.cells_visited + 1, dist := dist,
                  heap := heapPush s.heap (-d, x, y), rem := rem }) .indexError

/-- `cell_state[t(x, y)] |= bit`. -/
def open_wall (width : ℕ) (walls : List ℕ) (x y : ℤ) (bit : ℕ) : Option (List ℕ) := do
  let v ← pyGet walls (t width x y)
  pySet walls (t width x y) (v ||| bit)

/-- `open_left`: bit `0b0001`. -/
def open_left (width : ℕ) (walls : List ℕ) (x y : ℤ) : Option (List ℕ) :=
  open_wall width walls x y 1

/-- `open_top`: bit `0b0010`. -/
def open_top (width : ℕ) (walls : List ℕ) (x y : ℤ) : Option (List ℕ) :=
  open_wall width walls x y 2

/-- `open_right`: bit `0b0100`. -/
def open_right (width : ℕ) (walls : List ℕ) (x y : ℤ) : Option (List ℕ) :=
  open_wall width walls x y 4

/-- `open_bottom`: bit `0b1000`. -/
def open_bottom (width : ℕ) (walls : List ℕ) (x y : ℤ) : Option (List ℕ) :=
  open_wall width walls x y 8

/-- `connect(x1, y1, x2, y2)`: open the facing walls of two adjacent cells. -/
def connect (width : ℕ) (walls : List ℕ) (x1 y1 x2 y2 : ℤ) : Option (List ℕ) :=
  if x1 < x2 then do
    let w1 ← open_right width walls x1 y1
    open_left width w1 x2 y2
  else if x2 < x1 then do
    let w1 ← open_left width walls x1 y1
    open_right width w1 x2 y2
  else if y1 < y2 then do
    let w1 ← open_bottom width walls x1 y1
    open_top width w1 x2 y2
  else if y2 < y1 then do
    let w1 ← open_top width walls x1 y1
    open_bottom width w1 x2 y2
  else pure walls

/-- `is_visited = lambda x, y: cell_distance[t(x, y)] != INF`.  Every call in
the source is guarded by `in_bounds`, which keeps the read in range. -/
def is_visited (width : ℕ) (dist : List ℤ) (x y : ℤ) : Bool :=
  decide (pyGet dist (t width x y) ≠ some INF)

/-- The unvisited in-bounds neighbours of the current cell, enumerated in the
source order left, right, top, bottom. -/
def possible_branches (width height : ℕ) (dist : List ℤ) (x y : ℤ) : List (ℤ × ℤ) :=
  (if in_bounds width height (c_l x y).1 (c_l x y).2 &&
      !is_visited width dist (c_l x y).1 (c_l x y).2 then [c_l x y] else [])
  ++ (if in_bounds width height (c_r x y).1 (c_r x y).2 &&
      !is_visited width dist (c_r x y).1 (c_r x y).2 then [c_r x y] else [])
  ++ (if in_bounds width height (c_t x y).1 (c_t x y).2 &&
      !is_visited width dist (c_t x y).1 (c_t x y).2 then [c_t x y] else [])
  ++ (if in_bounds width height (c_b x y).1 (c_b x y).2 &&
      !is_visited width dist (c_b x y).1 (c_b x y).2 then [c_b x y] else [])

/-- `cumulative_brach_dist = list(accumulate(branch_dist))` (float weights
idealized as exact fractions). -/
def cumulative_brach_dist (bd : Frac × Frac × Frac × Frac) : List Frac :=
  let c1 := bd.1
  let c2 := fadd c1 bd.2.1
  let c3 := fadd c2 bd.2.2.1
  let c4 := fadd c3 bd.2.2.2
  [c1, c2, c3, c4]

/-- The loop of `bisect.bisect_right(a, x, lo, hi)`; the fuel argument only
bounds the recursion and exceeds the real iteration count. -/
def bisect_go (a : List Frac) (x : Frac) : ℕ → ℕ → ℕ → ℕ
  | 0, lo, _ => lo
  | fuel + 1, lo, hi =>
    if lo < hi then
      if fltB x (a.getD ((lo + hi) / 2) fzero) then bisect_go a x fuel lo ((lo + hi) / 2)
      else bisect_go a x fuel ((lo + hi) / 2 + 1) hi
    else lo

/-- `bisect.bisect_right(a, x, lo, hi)`. -/
def bisect (a : List Frac) (x : Frac) (lo hi : ℕ) : ℕ := bisect_go a x (hi - lo) lo hi

/-- `random.choices(range(n), cum_weights=cum)[0]` for a single draw, given
the output `u` of `random()`: validate the weight list, then return
`bisect(cum, u * total, 0, n - 1)`. -/
def py_choices (cum : List Frac) (n : ℕ) (u : Frac) : Except GenErr ℕ :=
  if cum.length ≠ n then .error .badWeights
  else
    match cum.getLast? with
    | none => .error .badWeights
    | some total =>
      if fleB total fzero then .error .badWeights
      else .ok (bisect cum (fmul u total) 0 (n - 1))

/-- The branch-count draw of the growth loop:
`random.choices(list(range(len(possible_branches) + 1)),
cum_weights=cumulative_brach_dist[: len(possible_branches) + 1])[0]`. -/
def branch_sample (bd : Frac × Frac × Frac × Frac) (nb : ℕ) (u : Frac) :
    Except GenErr ℕ :=
  py_choices ((cumulative_brach_dist bd).take (nb + 1)) (nb + 1) u

/-- Selection loop behind `random.sample`: repeatedly draw a position among
the remaining elements (oracle value reduced by the remaining size) and
remove it.  Every length-`k` sequence of distinct elements is a possible
outcome, matching the observable behaviour of `random.sample`. -/
def sample_go (pop : List (ℤ × ℤ)) (k : ℕ) (draw : ℕ → ℕ) (j : ℕ) : List (ℤ × ℤ) :=
  match k with
  | 0 => []
  | k' + 1 =>
    let i := draw j % pop.length
    pop.getD i (0, 0) :: sample_go (pop.eraseIdx i) k' draw (j + 1)

/-- `random.sample(pop, k)`: raises `ValueError` when `k` exceeds the
population size. -/
def py_sample (pop : List (ℤ × ℤ)) (k : ℕ) (draw : ℕ → ℕ) :
    Except GenErr (List (ℤ × ℤ)) :=
  if k ≤ pop.length then .ok (sample_go pop k draw 0) else .error .sampleLarger

/-- One growth iteration after the current cell `cc` has been obtained
(`can_terminate` is false exactly when `cc` came from `fallback_cell`):
read `d`, enumerate `possible_branches`, draw the branch count, force it to
`1` on a restart, `random.sample` the branches, and for each one `connect`
and `q_up` it with distance `d + 1`. -/
def step_grow (width height : ℕ) (bd : Frac × Frac × Frac × Frac) (o : Orc)
    (can_terminate : Bool) (cc : ℤ × ℤ) (s : St) : Except GenErr St := do
  let d ← oe (pyGet s.dist (t width cc.1 cc.2)) .indexError
  let pb := possible_branches width height s.dist cc.1 cc.2
  let bc0 ← branch_sample bd pb.length (fracNorm (o.u s.tick))
  let bc := if can_terminate = false ∧ bc0 = 0 then 1 else bc0
  let sel ← py_sample pb bc (o.sel s.tick)
  let s := { s with tick := s.tick + 1 }
  sel.foldlM (fun st nb => do
      let walls ← oe (connect width st.walls cc.1 cc.2 nb.1 nb.2) .indexError
      let st := { st with walls := walls, q := st.q ++ [nb] }
      set_visited width height st nb.1 nb.2 (d + 1)) s

/-- Obtain the current cell: pop the frontier head, or, when the frontier is
empty, seed from `fallback_cell` (the appended seed is popped right back, so
the queue is passed on unchanged); the boolean is `can_terminate`. -/
def current_cell (width : ℕ) (s : St) : Except GenErr ((ℤ × ℤ) × Bool × St) :=
  match s.q with
  | [] => do
    match ← fallback_cell width s.rem s.heap with
    | none => .error .noneCell
    | some (c, heap) => .ok (c, false, { s with heap := heap })
  | cc :: rest => .ok (cc, true, { s with q := rest })

/-- One iteration of `while cells_visited < cell_count`. -/
def step (width height : ℕ) (bd : Frac × Frac × Frac × Frac) (o : Orc) (s : St) :
    Except GenErr St := do
  let (cc, ct, s1) ← current_cell width s
  step_grow width height bd o ct cc s1

/-- The growth loop.  The fuel only bounds the recursion of the model; the
loop is proved to finish within `2 * cell_count` iterations, so the `fuel`
error is unreachable under the stated hypotheses. -/
def grow_loop (width height : ℕ) (bd : Frac × Frac × Frac × Frac) (o : Orc) :
    ℕ → St → Except GenErr St
  | 0, s => if s.cells_visited < width * height then .error .fuel else .ok s
  | fuel + 1, s =>
    if s.cells_visited < width * height then do
      grow_loop width height bd o fuel (← step width height bd o s)
    else .ok s

/-- One indexed write of the `cell_remaining_sides` initialization. -/
def write_list (l : List ℤ) (ws : List (ℤ × ℤ)) : Option (List ℤ) :=
  ws.foldlM (fun acc p => pySet acc p.1 p.2) l

/-- The initialization writes of `cell_remaining_sides`: every cell starts at
4; both horizontal border rows are set to 3, then both vertical border
columns, then the four corners to 2 (for a degenerate strip these writes
overlap). -/
def init_rem_writes (width height : ℕ) : List (ℤ × ℤ) :=
  ((List.range width).flatMap fun x =>
    [(t width x 0, 3), (t width x ((height : ℤ) - 1), 3)])
  ++ ((List.range height).flatMap fun y =>
    [(t width 0 y, 3), (t width ((width : ℤ) - 1) y, 3)])
  ++ [(t width 0 0, 2), (t width ((width : ℤ) - 1) 0, 2),
      (t width 0 ((height : ℤ) - 1), 2),
      (t width ((width : ℤ) - 1) ((height : ℤ) - 1), 2)]

/-- `cell_remaining_sides` after its initialization. -/
def init_rem (width height : ℕ) : Option (List ℤ) :=
  write_list (List.replicate (width * height) 4) (init_rem_writes width height)

/-- The state before the start cell is picked: `cells_visited = 0`,
`cell_distance = [INF] * cell_count`, `cell_state = [0] * cell_count`, an
empty heap and an empty frontier. -/
def init_state (width height : ℕ) : Option St := do
  let rem ← init_rem width height
  pure { cells_visited := 0, rem := rem,
         dist := List.replicate (width * height) INF,
         walls := List.replicate (width * height) 0,
         heap := [], q := [], tick := 0 }

/-- `q_up(cell, d)`: append to the frontier, then `set_visited`. -/
def q_up (width height : ℕ) (s : St) (c : ℤ × ℤ) (d : ℤ) : Except GenErr St :=
  set_visited width height { s with q := s.q ++ [c] } c.1 c.2 d

/-- Picking the start cell.  A first coin chooses between the horizontal and
vertical borders.  Horizontal: `x = randint(0, width)` — the upper bound is
`width` itself, one past the last column — then a second coin picks the top
(open its top wall) or bottom row.  Vertical: `y = randint(1, height - 1)`,
which raises `ValueError` when `height < 2`, then the second coin picks the
left or right column.  The chosen cell is `q_up`'d with distance 0. -/
def pick_start (width height : ℕ) (o : Orc) (s : St) :
    Except GenErr ((ℤ × ℤ) × St) := do
  if o.coin1 then
    let x : ℤ := (o.xDraw % (width + 1) : ℕ)
    if o.coin2 then
      let start : ℤ × ℤ := (x, 0)
      let walls ← oe (open_top width s.walls start.1 start.2) .indexError
      let s2 ← q_up width height { s with walls := walls } start 0
      pure (start, s2)
    else
      let start : ℤ × ℤ := (x, (height : ℤ) - 1)
      let walls ← oe (open_bottom width s.walls start.1 start.2) .indexError
      let s2 ← q_up width height { s with walls := walls } start 0
      pure (start, s2)
  else
    if (height : ℤ) - 1 < 1 then .error .emptyRange
    else
      let y : ℤ := 1 + ((o.yDraw % (height - 1) : ℕ) : ℤ)
      if o.coin2 then
        let start : ℤ × ℤ := (0, y)
        let walls ← oe (open_left width s.walls start.1 start.2) .indexError
        let s2 ← q_up width height { s with walls := walls } start 0
        pure (start, s2)
      else
        let start : ℤ × ℤ := ((width : ℤ) - 1, y)
        let walls ← oe (open_right width s.walls start.1 start.2) .indexError
        let s2 ← q_up width height { s with walls := walls } start 0
        pure (start, s2)

/-- Initialization, start pick and growth loop of `gen_maze`, returning the
start cell and the state after every cell has been visited. -/
def grow_maze (width height : ℕ) (bd : Frac × Frac × Frac × Frac) (o : Orc) :
    Except GenErr ((ℤ × ℤ) × St) := do
  let s0 ← oe (init_state width height) .indexError
  let (start, s1) ← pick_start width height o s0
  let s2 ← grow_loop width height bd o (2 * (width * height)) s1
  pure (start, s2)

/-- The list comprehension of the exit pass: border cells whose distance
strictly exceeds `min_exit_distance`, enumerated with `x` as the outer
loop. -/
def exit_candidates (width height : ℕ) (dist : List ℤ) (med : ℤ) : List (ℤ × ℤ) :=
  (List.range width).flatMap fun x =>
    (List.range height).filterMap fun y =>
      if is_border width height (x : ℤ) (y : ℤ) &&
          (match pyGet dist (t width (x : ℤ) (y : ℤ)) with
           | some dv => decide (med < dv)
           | none => false) then
        some ((x : ℤ), (y : ℤ))
      else none

/-- Open the outward wall of the chosen exit cell, testing left, top, right,
bottom edge membership in that order. -/
def exit_open (width height : ℕ) (walls : List ℕ) (c : ℤ × ℤ) : Option (List ℕ) :=
  if c.1 = 0 then open_left width walls c.1 c.2
  else if c.2 = 0 then open_top width walls c.1 c.2
  else if c.1 = (width : ℤ) - 1 then open_right width walls c.1 c.2
  else if c.2 = (height : ℤ) - 1 then open_bottom width walls c.1 c.2
  else pure walls

/-- The exit pass: `min_exit_distance = min_length if min_length > 0 else
min(width, height)`; `random.choice` over the qualifying border cells (the
`IndexError` on an empty list is reported and aborts the run), then the
outward wall of the chosen cell is opened. -/
def exit_pass (width height : ℕ) (min_length : ℤ) (o : Orc)
    (dist : List ℤ) (walls : List ℕ) :
    Except GenErr ((ℤ × ℤ) × List ℕ) := do
  let min_exit_distance : ℤ :=
    if 0 < min_length then min_length else min (width : ℤ) (height : ℤ)
  let cands := exit_candidates width height dist min_exit_distance
  match cands with
  | [] => .error .exitUnsat
  | _ :: _ =>
    let c := cands.getD (o.exitPick % cands.length) (0, 0)
    let walls2 ← oe (exit_open width height walls c) .indexError
    pure (c, walls2)

/-- The full result of a successful run, keeping the internal distance field
and start/exit cells next to the returned wall-mask array. -/
structure Full where
  width : ℕ
  height : ℕ
  start : ℤ × ℤ
  exitCell : ℤ × ℤ
  dist : List ℤ
  walls : List ℕ
  deriving DecidableEq, Repr

/-- `gen_maze`, kept whole: growth followed by the exit pass. -/
def gen_maze_full (width height : ℕ) (bd : Frac × Frac × Frac × Frac) (min_length : ℤ)
    (o : Orc) : Except GenErr Full := do
  let (start, s) ← grow_maze width height bd o
  let (ec, walls) ← exit_pass width height min_length o s.dist s.walls
  pure ⟨width, height, start, ec, s.dist, walls⟩

/-- The `Maze` dataclass: the wall-mask array with the dimensions. -/
structure Maze where
  maze : List ℕ
  width : ℕ
  height : ℕ
  deriving DecidableEq, Repr

/-- `gen_maze(width, height, branch_dist, min_length, seed)`'s return value. -/
def gen_maze (width height : ℕ) (bd : Frac × Frac × Frac × Frac) (min_length : ℤ)
    (o : Orc) : Except GenErr Maze :=
  (gen_maze_full width height bd min_length o).map fun f =>
    ⟨f.walls, width, height⟩

/-- The default `--branch-factors (0.3, 0.45, 0.2, 0.05)`. -/
def defaultBranchDist : Frac × Frac × Frac × Frac := ((3, 10), (45, 100), (2, 10), (5, 100))

/-! ## The graph of open interior walls

A maze's wall masks induce a graph on the `width * height` cells (linear
indices): two horizontally or vertically adjacent cells are joined when the
wall between them is opened on **both** sides, i.e. both matching bits are
set — exactly the pairs produced by `connect`. -/

/-- The wall mask of linear cell `i` (0 out of range). -/
def wallsAt (walls : List ℕ) (i : ℕ) : ℕ := walls.getD i 0

/-- Bit `b` of cell `i`'s wall mask is set. -/
def bit_open (walls : List ℕ) (i b : ℕ) : Bool := (wallsAt walls i) &&& b != 0

/-- The wall between `i` and the cell on its right is open on both sides. -/
def edge_right (width : ℕ) (walls : List ℕ) (i : ℕ) : Bool :=
  decide (i % width + 1 < width) && bit_open walls i 4 && bit_open walls (i + 1) 1

/-- The wall between `i` and the cell below it is open on both sides. -/
def edge_down (width height : ℕ) (walls : List ℕ) (i : ℕ) : Bool :=
  decide (i + width < width * height) && bit_open walls i 8 &&
    bit_open walls (i + width) 2

/-- Adjacency of cells `i` and `j` through an interior open wall. -/
def maze_adj (width height : ℕ) (walls : List ℕ) (i j : ℕ) : Bool :=
  (decide (j = i + 1) && edge_right width walls i) ||
  (decide (i = j + 1) && edge_right width walls j) ||
  (decide (j = i + width) && edge_down width height walls i) ||
  (decide (i = j + width) && edge_down width height walls j)

/-- The graph of open interior walls over all cells. -/
def maze_graph (width height : ℕ) (walls : List ℕ) :
    SimpleGraph (Fin (width * height)) where
  Adj a b := maze_adj width height walls a.val b.val = true
  symm := by
    intro a b h
    simp only [maze_adj, Bool.or_eq_true, Bool.and_eq_true, decide_eq_true_eq] at h ⊢
    tauto
  loopless := by
    intro a h
    simp only [maze_adj, Bool.or_eq_true, Bool.and_eq_true, decide_eq_true_eq,
      edge_right, edge_down] at h
    rcases h with ((h | h) | h) | h
    · have h1 := h.1
      omega
    · have h1 := h.1
      omega
    · have h1 := h.1
      have hw : width = 0 := by omega
      subst hw
      have h2 := h.2.1.1
      omega
    · have h1 := h.1
      have hw : width = 0 := by omega
      subst hw
      have h2 := h.2.1.1
      omega

instance maze_adj_decidable (width height : ℕ) (walls : List ℕ) :
    DecidableRel (maze_graph width height walls).Adj := fun a b =>
  inferInstanceAs (Decidable (maze_adj width height walls a.val b.val = true))

/-! ## Concrete runs used as counterexamples and witnesses -/

instance mazeAdjDecidable {width height : ℕ} {walls : List ℕ} :
    DecidableRel (maze_graph width height walls).Adj :=
  fun a b => inferInstanceAs (Decidable (maze_adj width height walls a.val b.val = true))

/-- A 2×2 run whose horizontal-border coordinate draw is `x = 2 = width`
(a legal outcome of `randint(0, width)`): the "start" is the out-of-grid
cell `(2, 0)`, whose linear index `2` aliases the in-grid cell `(0, 1)`.
The run completes and returns a maze in which cell `(0, 1)` was never
actually reached. -/
def cexOrc : Orc :=
  { coin1 := true, coin2 := true, xDraw := 2, yDraw := 0,
    u := fun i => if i = 0 then (1, 2) else if i = 1 then (9, 10) else (0, 1),
    sel := fun _ _ => 0, exitPick := 0 }

/-- A 1×3 strip run with an in-grid start `(0, 1)`: the strip
initialization leaves `cell_remaining_sides` one too high, so after branch
draws 0, 1 (to `(0, 0)`), 0 the restart hands out `(0, 0)` (remaining
sides 1, but no unvisited neighbour) and `random.sample([], 1)` raises. -/
def stripOrc : Orc :=
  { coin1 := false, coin2 := true, xDraw := 0, yDraw := 0,
    u := fun i => if i = 1 then (1, 2) else (0, 1),
    sel := fun _ _ => 0, exitPick := 0 }

/-- A 2×2 run with the off-by-one start `(2, 0)` (aliasing cell `(0, 1)`):
branch to `(1, 0)`, then once to `(1, 1)`; the restart then seeds from
`(1, 1)`, which has `remaining_sides = 1` but no unvisited neighbour, and
`random.sample` is called with `k = 1` on an empty population. -/
def orc10 : Orc :=
  { coin1 := true, coin2 := true, xDraw := 2, yDraw := 0,
    u := fun i => if i ≤ 1 then (1, 2) else (0, 1),
    sel := fun i _ => if i = 1 then 1 else 0, exitPick := 0 }

/-- Like `orc10` but the second branch goes to `(0, 0)`; the restart then
seeds from `(0, 0)` and the growth loop aborts in `random.sample`. -/
def orc3 : Orc :=
  { coin1 := true, coin2 := true, xDraw := 2, yDraw := 0,
    u := fun i => if i ≤ 1 then (1, 2) else (0, 1),
    sel := fun _ _ => 0, exitPick := 0 }

/-- An ordinary 2×2 run: in-grid start `(0, 0)` (top border, `x = 0`),
branch count 1 at every step; the run returns a perfect 2×2 maze. -/
def okOrc : Orc :=
  { coin1 := true, coin2 := true, xDraw := 0, yDraw := 0,
    u := fun _ => (2, 5), sel := fun _ _ => 0, exitPick := 0 }

/-! ## Basic lemmas about the Python list model -/

theorem pyGet_nonneg {α : Type} (l : List α) (i : ℤ) (h0 : 0 ≤ i) :
    pyGet l i = l.get? i.toNat := by
  unfold pyGet
  rcases lt_or_le i l.length with h1 | h1
  · rw [if_pos ⟨h0, h1⟩]
  · rw [if_neg (by omega), if_neg (by omega)]
    symm
    rw [List.get?_eq_none]
    omega

theorem pySet_nonneg {α : Type} (l : List α) (i : ℤ) (v : α) (h0 : 0 ≤ i)
    (h1 : i < l.length) : pySet l i v = some (l.set i.toNat v) := by
  unfold pySet
  rw [if_pos ⟨h0, h1⟩]

theorem pySet_ge {α : Type} (l : List α) (i : ℤ) (v : α) (h1 : (l.length : ℤ) ≤ i) :
    pySet l i v = none := by
  unfold pySet
  rw [if_neg (by omega), if_neg (by omega)]

theorem pyGet_some_iff {α : Type} (l : List α) (i : ℤ) (h0 : 0 ≤ i) :
    (pyGet l i).isSome = true ↔ i < l.length := by
  rw [pyGet_nonneg l i h0, Option.isSome_iff_ne_none, ne_eq, List.get?_eq_none]
  omega

/-! ## Lemmas about `bisect` -/

theorem bisect_go_bounds (a : List Frac) (x : Frac) :
    ∀ fuel lo hi, lo ≤ hi → lo ≤ bisect_go a x fuel lo hi ∧ bisect_go a x fuel lo hi ≤ hi := by
  intro fuel
  induction fuel with
  | zero => intro lo hi h; exact ⟨le_refl _, h⟩
  | succ f ih =>
    intro lo hi h
    unfold bisect_go
    by_cases hlt : lo < hi
    · rw [if_pos hlt]
      by_cases hc : fltB x (a.getD ((lo + hi) / 2) fzero) = true
      · rw [if_pos hc]
        have := ih lo ((lo + hi) / 2) (by omega)
        omega
      · rw [if_neg hc]
        have := ih ((lo + hi) / 2 + 1) hi (by omega)
        omega
    · rw [if_neg hlt]
      exact ⟨le_refl _, h⟩

theorem bisect_le (a : List Frac) (x : Frac) (hi : ℕ) : bisect a x 0 hi ≤ hi :=
  (bisect_go_bounds a x (hi - 0) 0 hi (Nat.zero_le hi)).2

/-- `bisect` only looks at the comparison of `x` against the entries, so two
searches whose comparisons agree pointwise take the same path. -/
theorem bisect_go_congr (a a' : List Frac) (x x' : Frac)
    (h : ∀ m, fltB x (a.getD m fzero) = fltB x' (a'.getD m fzero)) :
    ∀ fuel lo hi, bisect_go a x fuel lo hi = bisect_go a' x' fuel lo hi := by
  intro fuel
  induction fuel with
  | zero => intro lo hi; rfl
  | succ f ih =>
    intro lo hi
    unfold bisect_go
    rw [h ((lo + hi) / 2)]
    by_cases hlt : lo < hi
    · rw [if_pos hlt, if_pos hlt]
      by_cases hc : fltB x' (a'.getD ((lo + hi) / 2) fzero) = true
      · rw [if_pos hc, if_pos hc, ih]
      · rw [if_neg hc, if_neg hc, ih]
    · rw [if_neg hlt, if_neg hlt]

/-! ## Lemmas about exact fractions -/

theorem fval_fzero : fval fzero = 0 := by
  simp [fval, fzero]

theorem fden_fadd_pos {p q : Frac} (hp : 0 < p.2) (hq : 0 < q.2) : 0 < (fadd p q).2 :=
  mul_pos hp hq

theorem fden_fmul_pos {p q : Frac} (hp : 0 < p.2) (hq : 0 < q.2) : 0 < (fmul p q).2 :=
  mul_pos hp hq

theorem fval_fadd {p q : Frac} (hp : p.2 ≠ 0) (hq : q.2 ≠ 0) :
    fval (fadd p q) = fval p + fval q := by
  unfold fval fadd
  have hp' : (p.2 : ℚ) ≠ 0 := by exact_mod_cast hp
  have hq' : (q.2 : ℚ) ≠ 0 := by exact_mod_cast hq
  push_cast
  field_simp

theorem fval_fmul (p q : Frac) : fval (fmul p q) = fval p * fval q := by
  unfold fval fmul
  push_cast
  rw [div_mul_div_comm]

theorem fltB_iff {p q : Frac} (hp : 0 < p.2) (hq : 0 < q.2) :
    fltB p q = true ↔ fval p < fval q := by
  unfold fltB fval
  rw [decide_eq_true_iff]
  rw [div_lt_div_iff₀ (by exact_mod_cast hp) (by exact_mod_cast hq)]
  constructor <;> intro h <;> exact_mod_cast h

theorem fleB_fzero_iff {p : Frac} (hp : 0 < p.2) :
    fleB p fzero = true ↔ fval p ≤ 0 := by
  unfold fleB fval fzero
  rw [decide_eq_true_iff]
  simp only [mul_one, zero_mul]
  have h2 : (0 : ℚ) < (p.2 : ℚ) := by exact_mod_cast hp
  constructor
  · intro h
    apply div_nonpos_of_nonpos_of_nonneg _ (le_of_lt h2)
    exact_mod_cast h
  · intro h
    by_contra hc
    push_neg at hc
    have h1 : (0 : ℚ) < (p.1 : ℚ) := by exact_mod_cast hc
    have := div_pos h1 h2
    linarith

theorem fltB_fzero_iff {p : Frac} (hp : 0 < p.2) :
    fltB p fzero = true ↔ fval p < 0 := by
  unfold fltB fval fzero
  rw [decide_eq_true_iff]
  simp only [mul_one, zero_mul]
  have h2 : (0 : ℚ) < (p.2 : ℚ) := by exact_mod_cast hp
  constructor
  · intro h
    apply div_neg_of_neg_of_pos _ h2
    exact_mod_cast h
  · intro h
    by_contra hc
    push_neg at hc
    have h1 : (0 : ℚ) ≤ (p.1 : ℚ) := by exact_mod_cast hc
    have := div_nonneg h1 (le_of_lt h2)
    linarith

theorem fracNorm_den_pos (p : Frac) : 0 < (fracNorm p).2 := by
  unfold fracNorm
  by_cases h : p.2 ≤ 0
  · simp only [if_pos h]
    omega
  · simp only [if_neg h]
    omega

theorem fracNorm_val_nonneg (p : Frac) : 0 ≤ fval (fracNorm p) := by
  unfold fracNorm fval
  by_cases h : p.2 ≤ 0
  · simp only [if_pos h, Int.emod_one]
    norm_num
  · simp only [if_neg h]
    apply div_nonneg
    · have hnn : 0 ≤ p.1 % p.2 := Int.emod_nonneg p.1 (by omega)
      exact_mod_cast hnn
    · have hlt : (0:ℤ) < p.2 := by omega
      have hlt' : (0:ℚ) < (p.2 : ℚ) := by exact_mod_cast hlt
      linarith

/-! ## Monadic inversion helpers -/

theorem bind_ok_iff {ε α β : Type} (x : Except ε α) (f : α → Except ε β) (b : β) :
    (x >>= f) = .ok b ↔ ∃ a, x = .ok a ∧ f a = .ok b := by
  cases x with
  | error e =>
    constructor
    · intro h
      exact absurd h (by simp [Bind.bind, Except.bind])
    · rintro ⟨a, ha, _⟩
      exact absurd ha (by simp)
  | ok a =>
    constructor
    · intro h
      exact ⟨a, rfl, h⟩
    · rintro ⟨a', ha, hf⟩
      cases ha
      exact hf

theorem bind_error_iff {ε α β : Type} (x : Except ε α) (f : α → Except ε β) (e : ε) :
    (x >>= f) = .error e ↔ x = .error e ∨ ∃ a, x = .ok a ∧ f a = .error e := by
  cases x with
  | error e' =>
    constructor
    · intro h
      left
      simpa [Bind.bind, Except.bind] using h
    · rintro (h | ⟨a, ha, _⟩)
      · simpa [Bind.bind, Except.bind] using h
      · exact absurd ha (by simp)
  | ok a =>
    constructor
    · intro h
      exact Or.inr ⟨a, rfl, h⟩
    · rintro (h | ⟨a', ha, hf⟩)
      · exact absurd h (by simp)
      · cases ha
        exact hf

theorem oe_ok_iff {α : Type} (o : Option α) (e : GenErr) (a : α) :
    oe o e = .ok a ↔ o = some a := by
  cases o <;> simp [oe]

theorem oe_error_iff {α : Type} (o : Option α) (e e' : GenErr) :
    oe o e = .error e' ↔ o = none ∧ e = e' := by
  cases o <;> simp [oe]

/-! ## Heap order lemmas -/

theorem keyLe_total (a b : ℤ × ℤ × ℤ) : keyLe a b ∨ keyLe b a := by
  unfold keyLe
  omega

theorem keyLe_trans {a b c : ℤ × ℤ × ℤ} (h1 : keyLe a b) (h2 : keyLe b c) : keyLe a c := by
  unfold keyLe at h1 h2 ⊢
  omega

theorem heapPush_perm (heap : List (ℤ × ℤ × ℤ)) (k : ℤ × ℤ × ℤ) :
    List.Perm (heapPush heap k) (k :: heap) := by
  induction heap with
  | nil => simp [heapPush]
  | cons e rest ih =>
    unfold heapPush
    by_cases h : keyLe k e
    · rw [if_pos h]
    · rw [if_neg h]
      exact (List.Perm.cons e ih).trans (List.Perm.swap k e rest)

theorem mem_heapPush {heap : List (ℤ × ℤ × ℤ)} {k e : ℤ × ℤ × ℤ} :
    e ∈ heapPush heap k ↔ e = k ∨ e ∈ heap := by
  rw [(heapPush_perm heap k).mem_iff]
  simp

theorem heapPush_sorted {heap : List (ℤ × ℤ × ℤ)} (k : ℤ × ℤ × ℤ)
    (h : List.Pairwise keyLe heap) : List.Pairwise keyLe (heapPush heap k) := by
  induction heap with
  | nil => simp [heapPush]
  | cons e rest ih =>
    unfold heapPush
    rcases List.pairwise_cons.mp h with ⟨he, hrest⟩
    by_cases hk : keyLe k e
    · rw [if_pos hk]
      refine List.pairwise_cons.mpr ⟨?_, h⟩
      intro b hb
      rcases List.mem_cons.mp hb with rfl | hb
      · exact hk
      · exact keyLe_trans hk (he _ hb)
    · rw [if_neg hk]
      refine List.pairwise_cons.mpr ⟨?_, ih hrest⟩
      intro b hb
      rcases mem_heapPush.mp hb with rfl | hb
      · rcases keyLe_total b e with h' | h'
        · exact absurd h' hk
        · exact h'
      · exact he _ hb

/-- In a sorted heap the root minimizes the key, i.e. (keys being `(-d, x, y)`)
it carries a largest distance. -/
theorem sorted_head_min {e : ℤ × ℤ × ℤ} {rest : List (ℤ × ℤ × ℤ)}
    (h : List.Pairwise keyLe (e :: rest)) :
    ∀ e' ∈ e :: rest, e.1 ≤ e'.1 := by
  intro e' he'
  rcases List.mem_cons.mp he' with rfl | he'
  · exact le_refl _
  · have := (List.pairwise_cons.mp h).1 e' he'
    unfold keyLe at this
    omega

/-! ## Grid arithmetic -/

theorem in_bounds_iff {width height : ℕ} {x y : ℤ} :
    in_bounds width height x y = true ↔
      0 ≤ x ∧ x < (width : ℤ) ∧ 0 ≤ y ∧ y < (height : ℤ) := by
  unfold in_bounds
  exact decide_eq_true_iff

theorem is_border_iff {width height : ℕ} {x y : ℤ} :
    is_border width height x y = true ↔
      x = 0 ∨ y = 0 ∨ x = (width : ℤ) - 1 ∨ y = (height : ℤ) - 1 := by
  unfold is_border
  exact decide_eq_true_iff

theorem t_bounds {width height : ℕ} {x y : ℤ}
    (h : in_bounds width height x y = true) :
    0 ≤ t width x y ∧ t width x y < (width : ℤ) * height := by
  rcases in_bounds_iff.mp h with ⟨hx0, hxw, hy0, hyh⟩
  unfold t
  constructor
  · positivity
  · have h1 : (width : ℤ) * y + x < (width : ℤ) * y + width := by omega
    have h2 : (width : ℤ) * y + width = (width : ℤ) * (y + 1) := by ring
    have h3 : (width : ℤ) * (y + 1) ≤ (width : ℤ) * height := by
      apply mul_le_mul_of_nonneg_left (by omega) (by positivity)
    omega

theorem t_inj {width height : ℕ} {x y x' y' : ℤ}
    (h : in_bounds width height x y = true) (h' : in_bounds width height x' y' = true)
    (heq : t width x y = t width x' y') : x = x' ∧ y = y' := by
  rcases in_bounds_iff.mp h with ⟨hx0, hxw, hy0, hyh⟩
  rcases in_bounds_iff.mp h' with ⟨hx0', hxw', hy0', hyh'⟩
  unfold t at heq
  have hy : y = y' := by
    by_contra hne
    rcases lt_or_gt_of_ne hne with hlt | hlt
    · have h1 : (width : ℤ) * (y + 1) ≤ (width : ℤ) * y' := by
        apply mul_le_mul_of_nonneg_left (by omega) (by positivity)
      have h2 : (width : ℤ) * (y + 1) = width * y + width := by ring
      omega
    · have h1 : (width : ℤ) * (y' + 1) ≤ (width : ℤ) * y := by
        apply mul_le_mul_of_nonneg_left (by omega) (by positivity)
      have h2 : (width : ℤ) * (y' + 1) = width * y' + width := by ring
      omega
  subst hy
  omega

/-- The linear index of an in-grid cell, as a natural number. -/
def cellIdx (width : ℕ) (c : ℤ × ℤ) : ℕ := (t width c.1 c.2).toNat

theorem cellIdx_lt {width height : ℕ} {c : ℤ × ℤ}
    (h : in_bounds width height c.1 c.2 = true) : cellIdx width c < width * height := by
  rcases @t_bounds width height _ _ h with ⟨h0, h1⟩
  unfold cellIdx
  omega

theorem cellIdx_cast {width height : ℕ} {c : ℤ × ℤ}
    (h : in_bounds width height c.1 c.2 = true) :
    ((cellIdx width c : ℕ) : ℤ) = t width c.1 c.2 := by
  rcases @t_bounds width height _ _ h with ⟨h0, _⟩
  unfold cellIdx
  omega

theorem cellIdx_inj {width height : ℕ} {c c' : ℤ × ℤ}
    (h : in_bounds width height c.1 c.2 = true)
    (h' : in_bounds width height c'.1 c'.2 = true)
    (heq : cellIdx width c = cellIdx width c') : c = c' := by
  have : t width c.1 c.2 = t width c'.1 c'.2 := by
    rw [← @cellIdx_cast width height _ h, ← @cellIdx_cast width height _ h', heq]
  rcases t_inj h h' this with ⟨h1, h2⟩
  exact Prod.ext h1 h2

/-! ## List getD helpers -/

theorem getD_eq_getElem {α : Type} (l : List α) (n : ℕ) (d : α) (h : n < l.length) :
    l.getD n d = l[n] := by
  rw [List.getD_eq_getElem?_getD, List.getElem?_eq_getElem h]
  rfl

theorem getD_set_self {α : Type} (l : List α) (n : ℕ) (v d : α) (h : n < l.length) :
    (l.set n v).getD n d = v := by
  rw [List.getD_eq_getElem?_getD, List.getElem?_set_self h]
  rfl

theorem getD_set_ne {α : Type} (l : List α) (m n : ℕ) (v d : α) (h : m ≠ n) :
    (l.set m v).getD n d = l.getD n d := by
  rw [List.getD_eq_getElem?_getD, List.getElem?_set_ne h, List.getD_eq_getElem?_getD]

theorem pyGet_eq_getD {α : Type} (l : List α) (i : ℤ) (d : α) (h0 : 0 ≤ i)
    (h1 : i < l.length) : pyGet l i = some (l.getD i.toNat d) := by
  rw [pyGet_nonneg l i h0, List.get?_eq_getElem?]
  have hn : i.toNat < l.length := by omega
  rw [List.getElem?_eq_getElem hn, getD_eq_getElem l i.toNat d hn]

/-! ## Lemmas about `py_sample` -/

theorem sample_go_length (draw : ℕ → ℕ) :
    ∀ (k : ℕ) (pop : List (ℤ × ℤ)) (j : ℕ), k ≤ pop.length →
      (sample_go pop k draw j).length = k := by
  intro k
  induction k with
  | zero => intro pop j _; rfl
  | succ k' ih =>
    intro pop j h
    have hpos : 0 < pop.length := by omega
    have hi : draw j % pop.length < pop.length := Nat.mod_lt _ hpos
    unfold sample_go
    simp only [List.length_cons]
    rw [ih (pop.eraseIdx (draw j % pop.length)) (j + 1) ?_]
    rw [List.length_eraseIdx, if_pos hi]
    omega

theorem sample_go_subset (draw : ℕ → ℕ) :
    ∀ (k : ℕ) (pop : List (ℤ × ℤ)) (j : ℕ), k ≤ pop.length →
      ∀ c ∈ sample_go pop k draw j, c ∈ pop := by
  intro k
  induction k with
  | zero => intro pop j _ c hc; exact absurd hc (by simp [sample_go])
  | succ k' ih =>
    intro pop j h c hc
    have hpos : 0 < pop.length := by omega
    have hi : draw j % pop.length < pop.length := Nat.mod_lt _ hpos
    unfold sample_go at hc
    rcases List.mem_cons.mp hc with rfl | hc
    · rw [getD_eq_getElem _ _ _ hi]
      exact List.getElem_mem hi
    · have hlen : k' ≤ (pop.eraseIdx (draw j % pop.length)).length := by
        rw [List.length_eraseIdx, if_pos hi]
        omega
      exact List.eraseIdx_subset _ _ (ih _ (j + 1) hlen c hc)

theorem sample_go_nodup (draw : ℕ → ℕ) :
    ∀ (k : ℕ) (pop : List (ℤ × ℤ)) (j : ℕ), k ≤ pop.length → pop.Nodup →
      (sample_go pop k draw j).Nodup := by
  intro k
  induction k with
  | zero => intro pop j _ _; simp [sample_go]
  | succ k' ih =>
    intro pop j h hnd
    have hpos : 0 < pop.length := by omega
    have hi : draw j % pop.length < pop.length := Nat.mod_lt _ hpos
    have hlen : k' ≤ (pop.eraseIdx (draw j % pop.length)).length := by
      rw [List.length_eraseIdx, if_pos hi]
      omega
    have hnd' : (pop.eraseIdx (draw j % pop.length)).Nodup :=
      (List.eraseIdx_sublist pop _).nodup hnd
    unfold sample_go
    rw [List.nodup_cons]
    refine ⟨?_, ih _ (j + 1) hlen hnd'⟩
    intro hmem
    have hmem2 : pop.getD (draw j % pop.length) (0, 0) ∈
        pop.eraseIdx (draw j % pop.length) :=
      sample_go_subset draw k' _ (j + 1) hlen _ hmem
    rw [getD_eq_getElem _ _ _ hi] at hmem2
    rw [List.eraseIdx_eq_take_drop_succ] at hmem2
    have hsplit : pop = List.take (draw j % pop.length) pop ++
        pop[draw j % pop.length] :: List.drop (draw j % pop.length + 1) pop := by
      rw [List.getElem_cons_drop pop _ hi, List.take_append_drop]
    have hnd2 := hnd
    rw [hsplit, List.nodup_append] at hnd2
    rcases hnd2 with ⟨hnd_take, hnd_cons, hdisj⟩
    rcases List.mem_append.mp hmem2 with hmem3 | hmem3
    · exact hdisj hmem3 (List.mem_cons_self _ _)
    · exact (List.nodup_cons.mp hnd_cons).1 hmem3

theorem py_sample_ok {pop : List (ℤ × ℤ)} {k : ℕ} {draw : ℕ → ℕ} {sel : List (ℤ × ℤ)}
    (h : py_sample pop k draw = .ok sel) :
    k ≤ pop.length ∧ sel = sample_go pop k draw 0 ∧ sel.length = k ∧
      (∀ c ∈ sel, c ∈ pop) ∧ (pop.Nodup → sel.Nodup) := by
  unfold py_sample at h
  by_cases hk : k ≤ pop.length
  · rw [if_pos hk] at h
    have hsel : sel = sample_go pop k draw 0 := (Except.ok.inj h).symm
    subst hsel
    exact ⟨hk, rfl, sample_go_length draw k pop 0 hk,
      sample_go_subset draw k pop 0 hk,
      fun hnd => sample_go_nodup draw k pop 0 hk hnd⟩
  · rw [if_neg hk] at h
    exact absurd h (by simp)

/-! ## `possible_branches` and neighbour bookkeeping -/

/-- The four neighbours of a cell, in the source's enumeration order
(left, right, top, bottom). -/
def nbrs (x y : ℤ) : List (ℤ × ℤ) := [c_l x y, c_r x y, c_t x y, c_b x y]

theorem possible_branches_eq_filter (width height : ℕ) (dist : List ℤ) (x y : ℤ) :
    possible_branches width height dist x y =
      (nbrs x y).filter
        (fun c => in_bounds width height c.1 c.2 && !is_visited width dist c.1 c.2) := by
  unfold possible_branches nbrs
  simp only [List.filter_cons, List.filter_nil]
  by_cases h1 : in_bounds width height (c_l x y).1 (c_l x y).2 &&
    !is_visited width dist (c_l x y).1 (c_l x y).2 <;>
  by_cases h2 : in_bounds width height (c_r x y).1 (c_r x y).2 &&
    !is_visited width dist (c_r x y).1 (c_r x y).2 <;>
  by_cases h3 : in_bounds width height (c_t x y).1 (c_t x y).2 &&
    !is_visited width dist (c_t x y).1 (c_t x y).2 <;>
  by_cases h4 : in_bounds width height (c_b x y).1 (c_b x y).2 &&
    !is_visited width dist (c_b x y).1 (c_b x y).2 <;>
  simp [h1, h2, h3, h4]

theorem nbrs_nodup (x y : ℤ) : (nbrs x y).Nodup := by
  have d1 : c_l x y ≠ c_r x y := by
    show (x - 1, y) ≠ (x + 1, y)
    intro h
    rw [Prod.mk.injEq] at h
    omega
  have d2 : c_l x y ≠ c_t x y := by
    show (x - 1, y) ≠ (x, y - 1)
    intro h
    rw [Prod.mk.injEq] at h
    omega
  have d3 : c_l x y ≠ c_b x y := by
    show (x - 1, y) ≠ (x, y + 1)
    intro h
    rw [Prod.mk.injEq] at h
    omega
  have d4 : c_r x y ≠ c_t x y := by
    show (x + 1, y) ≠ (x, y - 1)
    intro h
    rw [Prod.mk.injEq] at h
    omega
  have d5 : c_r x y ≠ c_b x y := by
    show (x + 1, y) ≠ (x, y + 1)
    intro h
    rw [Prod.mk.injEq] at h
    omega
  have d6 : c_t x y ≠ c_b x y := by
    show (x, y - 1) ≠ (x, y + 1)
    intro h
    rw [Prod.mk.injEq] at h
    omega
  simp [nbrs, List.nodup_cons, d1, d2, d3, d4, d5, d6]

theorem possible_branches_nodup (width height : ℕ) (dist : List ℤ) (x y : ℤ) :
    (possible_branches width height dist x y).Nodup := by
  rw [possible_branches_eq_filter]
  exact (nbrs_nodup x y).filter _

theorem mem_possible_branches {width height : ℕ} {dist : List ℤ} {x y : ℤ} {c : ℤ × ℤ} :
    c ∈ possible_branches width height dist x y ↔
      c ∈ nbrs x y ∧ in_bounds width height c.1 c.2 = true ∧
        is_visited width dist c.1 c.2 = false := by
  rw [possible_branches_eq_filter, List.mem_filter]
  simp [Bool.and_eq_true, Bool.not_eq_true']

/-- The number of unvisited in-bounds neighbours of a cell. -/
def unvisited_count (width height : ℕ) (dist : List ℤ) (x y : ℤ) : ℕ :=
  ((nbrs x y).filter
    (fun c => in_bounds width height c.1 c.2 && !is_visited width dist c.1 c.2)).length

theorem possible_branches_length (width height : ℕ) (dist : List ℤ) (x y : ℤ) :
    (possible_branches width height dist x y).length =
      unvisited_count width height dist x y := by
  rw [possible_branches_eq_filter]
  rfl

/-- The grid degree of a cell: its number of in-bounds neighbours. -/
def grid_degree (width height : ℕ) (x y : ℤ) : ℕ :=
  ((nbrs x y).filter (fun c => in_bounds width height c.1 c.2)).length

theorem unvisited_count_le_degree (width height : ℕ) (dist : List ℤ) (x y : ℤ) :
    unvisited_count width height dist x y ≤ grid_degree width height x y := by
  unfold unvisited_count grid_degree
  apply List.Sublist.length_le
  apply List.monotone_filter_right
  intro c hc
  exact (Bool.and_eq_true _ _).mp hc |>.1

theorem is_visited_iff_getD {width height : ℕ} {dist : List ℤ} {x y : ℤ}
    (hin : in_bounds width height x y = true) (hlen : dist.length = width * height) :
    is_visited width dist x y = true ↔ dist.getD (cellIdx width (x, y)) INF ≠ INF := by
  unfold is_visited
  have hb := @t_bounds width height _ _ hin
  have hlt : t width x y < (dist.length : ℤ) := by
    rw [hlen]
    exact_mod_cast hb.2
  rw [pyGet_eq_getD dist _ INF hb.1 hlt]
  simp [cellIdx]

/-! ## `dec_if` and `set_visited` -/

theorem dec_if_spec (width height : ℕ) (rem : List ℤ) (c : ℤ × ℤ)
    (hlen : rem.length = width * height) :
    ∃ rem', dec_if width height rem c = some rem' ∧ rem'.length = width * height ∧
      ∀ c' : ℤ × ℤ, in_bounds width height c'.1 c'.2 = true →
        rem'.getD (cellIdx width c') 0 =
          rem.getD (cellIdx width c') 0 -
            (if c' = c ∧ in_bounds width height c.1 c.2 = true then 1 else 0) := by
  unfold dec_if
  by_cases hc : in_bounds width height c.1 c.2 = true
  · rw [if_pos hc]
    unfold dec_side
    have hb := @t_bounds width height _ _ hc
    have hlt : t width c.1 c.2 < (rem.length : ℤ) := by
      rw [hlen]
      exact_mod_cast hb.2
    rw [pyGet_eq_getD rem _ 0 hb.1 hlt]
    simp only [Option.bind_eq_bind, Option.some_bind]
    rw [pySet_nonneg rem _ _ hb.1 hlt]
    refine ⟨_, rfl, by rw [List.length_set]; exact hlen, ?_⟩
    intro c' hc'
    by_cases he : c' = c
    · subst he
      rw [if_pos ⟨rfl, hc⟩]
      exact getD_set_self rem (cellIdx width c') _ 0
        (by show (t width c'.1 c'.2).toNat < rem.length; omega)
    · rw [if_neg (by tauto)]
      simp only [sub_zero]
      apply getD_set_ne
      intro heq
      have heq' : cellIdx width c = cellIdx width c' := heq
      exact he (cellIdx_inj hc hc' heq').symm
  · rw [if_neg hc]
    refine ⟨rem, rfl, hlen, ?_⟩
    intro c' hc'
    rw [if_neg (by tauto)]
    simp

theorem nbr_indicator (x y : ℤ) (c' : ℤ × ℤ) :
    (if c' = c_l x y then (1:ℤ) else 0) + (if c' = c_r x y then 1 else 0) +
      (if c' = c_t x y then 1 else 0) + (if c' = c_b x y then 1 else 0) =
    if c' ∈ nbrs x y then 1 else 0 := by
  have hnd := nbrs_nodup x y
  simp only [nbrs, List.nodup_cons, List.mem_cons, List.mem_singleton,
    List.not_mem_nil, or_false] at hnd
  by_cases hm : c' ∈ nbrs x y
  · rw [if_pos hm]
    simp only [nbrs, List.mem_cons, List.mem_singleton, List.not_mem_nil,
      or_false] at hm
    rcases hm with h | h | h | h
    · subst h
      rw [if_pos rfl, if_neg (by tauto), if_neg (by tauto), if_neg (by tauto)]
      ring
    · subst h
      rw [if_neg (by tauto), if_pos rfl, if_neg (by tauto), if_neg (by tauto)]
      ring
    · subst h
      rw [if_neg (by tauto), if_neg (by tauto), if_pos rfl, if_neg (by tauto)]
      ring
    · subst h
      rw [if_neg (by tauto), if_neg (by tauto), if_neg (by tauto), if_pos rfl]
      ring
  · rw [if_neg hm]
    simp only [nbrs, List.mem_cons, List.mem_singleton, List.not_mem_nil,
      or_false] at hm
    push_neg at hm
    rw [if_neg hm.1, if_neg hm.2.1, if_neg hm.2.2.1, if_neg hm.2.2.2]
    ring

theorem set_visited_spec (width height : ℕ) (s : St) (x y d : ℤ)
    (hx : in_bounds width height x y = true)
    (hld : s.dist.length = width * height) (hlr : s.rem.length = width * height) :
    ∃ s', set_visited width height s x y d = .ok s' ∧
      s'.cells_visited = s.cells_visited + 1 ∧
      s'.walls = s.walls ∧ s'.q = s.q ∧ s'.tick = s.tick ∧
      s'.heap = heapPush s.heap (-d, x, y) ∧
      s'.dist = s.dist.set (cellIdx width (x, y)) d ∧
      s'.dist.length = width * height ∧ s'.rem.length = width * height ∧
      (∀ c' : ℤ × ℤ, in_bounds width height c'.1 c'.2 = true →
        s'.dist.getD (cellIdx width c') INF =
          if c' = (x, y) then d else s.dist.getD (cellIdx width c') INF) ∧
      (∀ c' : ℤ × ℤ, in_bounds width height c'.1 c'.2 = true →
        s'.rem.getD (cellIdx width c') 0 =
          s.rem.getD (cellIdx width c') 0 - (if c' ∈ nbrs x y then 1 else 0)) := by
  unfold set_visited
  have hb := @t_bounds width height _ _ hx
  have hlt : t width x y < (s.dist.length : ℤ) := by
    rw [hld]
    exact_mod_cast hb.2
  obtain ⟨r1, hr1, hr1len, hr1val⟩ := dec_if_spec width height s.rem (c_l x y) hlr
  obtain ⟨r2, hr2, hr2len, hr2val⟩ := dec_if_spec width height r1 (c_r x y) hr1len
  obtain ⟨r3, hr3, hr3len, hr3val⟩ := dec_if_spec width height r2 (c_t x y) hr2len
  obtain ⟨r4, hr4, hr4len, hr4val⟩ := dec_if_spec width height r3 (c_b x y) hr3len
  rw [pySet_nonneg s.dist _ _ hb.1 hlt]
  simp only [Option.bind_eq_bind, Option.some_bind]
  rw [hr1]
  simp only [Option.some_bind]
  rw [hr2]
  simp only [Option.some_bind]
  rw [hr3]
  simp only [Option.some_bind]
  rw [hr4]
  simp only [Option.some_bind]
  refine ⟨_, rfl, rfl, rfl, rfl, rfl, rfl, rfl,
    by rw [List.length_set]; exact hld, hr4len, ?_, ?_⟩
  · intro c' hc'
    by_cases he : c' = (x, y)
    · subst he
      rw [if_pos rfl]
      exact getD_set_self s.dist (cellIdx width (x, y)) _ INF
        (by show (t width x y).toNat < s.dist.length; omega)
    · rw [if_neg he]
      apply getD_set_ne
      intro heq
      apply he
      have hx' : in_bounds width height (x, y).1 (x, y).2 = true := hx
      have heq' : cellIdx width (x, y) = cellIdx width c' := heq
      exact (cellIdx_inj hx' hc' heq').symm
  · intro c' hc'
    rw [hr4val c' hc', hr3val c' hc', hr2val c' hc', hr1val c' hc']
    have hind := nbr_indicator x y c'
    have hsplit : ∀ cc : ℤ × ℤ,
        (if c' = cc ∧ in_bounds width height cc.1 cc.2 = true then (1:ℤ) else 0) =
          (if c' = cc then (1:ℤ) else 0) := by
      intro cc
      by_cases hcc : c' = cc
      · rw [if_pos ⟨hcc, by rw [← hcc]; exact hc'⟩, if_pos hcc]
      · rw [if_neg (fun hh => hcc hh.1), if_neg hcc]
    rw [hsplit, hsplit, hsplit, hsplit]
    omega

/-! ## The branch sampler -/

theorem fval_pos {p : Frac} (h1 : 0 < p.1) (h2 : 0 < p.2) : 0 < fval p :=
  div_pos (by exact_mod_cast h1) (by exact_mod_cast h2)

theorem fval_nonneg {p : Frac} (h1 : 0 ≤ p.1) (h2 : 0 < p.2) : 0 ≤ fval p :=
  div_nonneg (by exact_mod_cast h1) (by positivity)

/-- The branch weights as configured: positive total weight for branch count
0 and non-negative weights, all with positive denominators (the idealization
of valid float weights accepted by `random.choices`). -/
def valid_weights (bd : Frac × Frac × Frac × Frac) : Prop :=
  0 < bd.1.1 ∧ 0 < bd.1.2 ∧ 0 ≤ bd.2.1.1 ∧ 0 < bd.2.1.2 ∧
  0 ≤ bd.2.2.1.1 ∧ 0 < bd.2.2.1.2 ∧ 0 ≤ bd.2.2.2.1 ∧ 0 < bd.2.2.2.2

/-- All weight denominators are positive. -/
def pos_dens (bd : Frac × Frac × Frac × Frac) : Prop :=
  0 < bd.1.2 ∧ 0 < bd.2.1.2 ∧ 0 < bd.2.2.1.2 ∧ 0 < bd.2.2.2.2

theorem valid_weights_pos_dens {bd : Frac × Frac × Frac × Frac}
    (hv : valid_weights bd) : pos_dens bd :=
  ⟨hv.2.1, hv.2.2.2.1, hv.2.2.2.2.2.1, hv.2.2.2.2.2.2.2⟩

theorem cum_den_pos {bd : Frac × Frac × Frac × Frac} (hv : valid_weights bd) :
    ∀ e ∈ cumulative_brach_dist bd, 0 < e.2 := by
  obtain ⟨h1, h2, h3, h4, h5, h6, h7, h8⟩ := hv
  intro e he
  simp only [cumulative_brach_dist, List.mem_cons, List.mem_singleton,
    List.not_mem_nil, or_false] at he
  rcases he with rfl | rfl | rfl | rfl
  · exact h2
  · exact fden_fadd_pos h2 h4
  · exact fden_fadd_pos (fden_fadd_pos h2 h4) h6
  · exact fden_fadd_pos (fden_fadd_pos (fden_fadd_pos h2 h4) h6) h8

theorem cum_val_pos {bd : Frac × Frac × Frac × Frac} (hv : valid_weights bd) :
    ∀ e ∈ cumulative_brach_dist bd, 0 < fval e := by
  obtain ⟨h1, h2, h3, h4, h5, h6, h7, h8⟩ := hv
  have v0 : 0 < fval bd.1 := fval_pos h1 h2
  have v1 : 0 ≤ fval bd.2.1 := fval_nonneg h3 h4
  have v2 : 0 ≤ fval bd.2.2.1 := fval_nonneg h5 h6
  have v3 : 0 ≤ fval bd.2.2.2 := fval_nonneg h7 h8
  have e1 : fval (fadd bd.1 bd.2.1) = fval bd.1 + fval bd.2.1 :=
    fval_fadd (by omega) (by omega)
  have e2 : fval (fadd (fadd bd.1 bd.2.1) bd.2.2.1) =
      fval (fadd bd.1 bd.2.1) + fval bd.2.2.1 :=
    fval_fadd (by have := fden_fadd_pos h2 h4; omega) (by omega)
  have e3 : fval (fadd (fadd (fadd bd.1 bd.2.1) bd.2.2.1) bd.2.2.2) =
      fval (fadd (fadd bd.1 bd.2.1) bd.2.2.1) + fval bd.2.2.2 :=
    fval_fadd (by have := fden_fadd_pos (fden_fadd_pos h2 h4) h6; omega) (by omega)
  intro e he
  simp only [cumulative_brach_dist, List.mem_cons, List.mem_singleton,
    List.not_mem_nil, or_false] at he
  rcases he with rfl | rfl | rfl | rfl
  · exact v0
  · rw [e1]; linarith
  · rw [e2, e1]; linarith
  · rw [e3, e2, e1]; linarith

theorem branch_sample_le {bd : Frac × Frac × Frac × Frac} {nb : ℕ} {u : Frac} {k : ℕ}
    (h : branch_sample bd nb u = .ok k) : k ≤ nb := by
  unfold branch_sample py_choices at h
  by_cases hl : ((cumulative_brach_dist bd).take (nb + 1)).length ≠ nb + 1
  · rw [if_pos hl] at h
    exact absurd h (by simp)
  · rw [if_neg hl] at h
    cases hg : ((cumulative_brach_dist bd).take (nb + 1)).getLast? with
    | none =>
      rw [hg] at h
      exact absurd h (by simp)
    | some total =>
      rw [hg] at h
      dsimp only at h
      by_cases hle : fleB total fzero = true
      · rw [if_pos hle] at h
        exact absurd h (by simp)
      · rw [if_neg hle] at h
        have : bisect ((cumulative_brach_dist bd).take (nb + 1))
            (fmul u total) 0 (nb + 1 - 1) = k := Except.ok.inj h
        have hb := bisect_le ((cumulative_brach_dist bd).take (nb + 1))
          (fmul u total) (nb + 1 - 1)
        omega

/-- Success of the branch draw: with valid weights and at most 3 unvisited
neighbours the `random.choices` call cannot fail and yields a count in
`[0, nb]`. -/
theorem branch_sample_ok {bd : Frac × Frac × Frac × Frac} (hv : valid_weights bd)
    {nb : ℕ} (hnb : nb ≤ 3) (u : Frac) :
    ∃ k, branch_sample bd nb u = .ok k ∧ k ≤ nb := by
  unfold branch_sample py_choices
  have hlen4 : (cumulative_brach_dist bd).length = 4 := rfl
  have hlen : ((cumulative_brach_dist bd).take (nb + 1)).length = nb + 1 := by
    rw [List.length_take, hlen4]
    omega
  rw [if_neg (by rw [hlen]; exact fun hne => hne rfl)]
  have hnb4 : nb < 4 := by omega
  have hgm : ((cumulative_brach_dist bd).take (nb + 1))[nb]? =
      some ((cumulative_brach_dist bd).getD nb fzero) := by
    rw [List.getElem?_take, if_pos (by omega), List.getD_eq_getElem?_getD,
      List.getElem?_eq_getElem (by omega)]
    rfl
  have hlast : ((cumulative_brach_dist bd).take (nb + 1)).getLast? =
      some ((cumulative_brach_dist bd).getD nb fzero) := by
    rw [List.getLast?_eq_getElem?, hlen]
    simpa using hgm
  rw [hlast]
  dsimp only
  have hmem : (cumulative_brach_dist bd).getD nb fzero ∈ cumulative_brach_dist bd := by
    rw [getD_eq_getElem _ _ _ (by omega)]
    exact List.getElem_mem _
  have hpos := cum_val_pos hv _ hmem
  have hden := cum_den_pos hv _ hmem
  rw [if_neg (fun hle => by
    have := (fleB_fzero_iff hden).mp hle
    linarith)]
  refine ⟨_, rfl, ?_⟩
  have hb := bisect_le ((cumulative_brach_dist bd).take (nb + 1))
    (fmul u ((cumulative_brach_dist bd).getD nb fzero)) (nb + 1 - 1)
  omega

/-- The weights as a list, mirroring the tuple order. -/
def branch_weights (bd : Frac × Frac × Frac × Frac) : List Frac :=
  [bd.1, bd.2.1, bd.2.2.1, bd.2.2.2]

/-- The branch draw for a cell with `nb` unvisited neighbours only consults
the first `nb + 1` configured weights. -/
theorem branch_sample_truncation {bd bd' : Frac × Frac × Frac × Frac} {nb : ℕ}
    (h : (branch_weights bd).take (nb + 1) = (branch_weights bd').take (nb + 1))
    (u : Frac) : branch_sample bd nb u = branch_sample bd' nb u := by
  have hget : ∀ i : ℕ, ((branch_weights bd).take (nb + 1)).getD i fzero =
      ((branch_weights bd').take (nb + 1)).getD i fzero := fun i => by rw [h]
  suffices hc : (cumulative_brach_dist bd).take (nb + 1) =
      (cumulative_brach_dist bd').take (nb + 1) by
    unfold branch_sample
    rw [hc]
  rcases nb with _ | (_ | (_ | (_ | nb)))
  · have h1 := hget 0
    simp [branch_weights, List.take] at h1
    simp [cumulative_brach_dist, List.take, h1]
  · have h1 := hget 0
    have h2 := hget 1
    simp [branch_weights, List.take] at h1 h2
    simp [cumulative_brach_dist, List.take, h1, h2]
  · have h1 := hget 0
    have h2 := hget 1
    have h3 := hget 2
    simp [branch_weights, List.take] at h1 h2 h3
    simp [cumulative_brach_dist, List.take, h1, h2, h3]
  · have h1 := hget 0
    have h2 := hget 1
    have h3 := hget 2
    have h4 := hget 3
    simp [branch_weights, List.take] at h1 h2 h3 h4
    simp [cumulative_brach_dist, List.take, h1, h2, h3, h4]
  · have h1 := hget 0
    have h2 := hget 1
    have h3 := hget 2
    have h4 := hget 3
    simp [branch_weights, List.take] at h1 h2 h3 h4
    simp [cumulative_brach_dist, List.take, h1, h2, h3, h4]

theorem getD_take {α : Type} (l : List α) (k m : ℕ) (d : α) :
    (List.take k l).getD m d = if m < k then l.getD m d else d := by
  rw [List.getD_eq_getElem?_getD, List.getElem?_take]
  by_cases h : m < k
  · rw [if_pos h, if_pos h, List.getD_eq_getElem?_getD]
  · rw [if_neg h, if_neg h]
    rfl

/-- Scaling every weight by the same fraction. -/
def fscale (c : Frac) (bd : Frac × Frac × Frac × Frac) : Frac × Frac × Frac × Frac :=
  (fmul c bd.1, fmul c bd.2.1, fmul c bd.2.2.1, fmul c bd.2.2.2)

/-- Only the relative magnitudes of the truncated weights matter: scaling all
weights by one positive factor leaves every branch draw unchanged. -/
theorem branch_sample_scale {c : Frac} (hc1 : 0 < c.1) (hc2 : 0 < c.2)
    {bd : Frac × Frac × Frac × Frac} (hd : pos_dens bd) {u : Frac} (hu : 0 < u.2)
    (nb : ℕ) : branch_sample (fscale c bd) nb u = branch_sample bd nb u := by
  obtain ⟨d1, d2, d3, d4⟩ := hd
  have hcv : 0 < fval c := fval_pos hc1 hc2
  have hden : ∀ m : ℕ, 0 < ((cumulative_brach_dist bd).getD m fzero).2 ∧
      0 < ((cumulative_brach_dist (fscale c bd)).getD m fzero).2 := by
    intro m
    rcases m with _ | (_ | (_ | (_ | m))) <;>
      simp [cumulative_brach_dist, fscale, fadd, fmul, fzero, List.getD] <;>
      constructor <;> positivity
  have hval : ∀ m : ℕ, fval ((cumulative_brach_dist (fscale c bd)).getD m fzero) =
      fval c * fval ((cumulative_brach_dist bd).getD m fzero) := by
    have w0 : ((fmul c bd.1).2 : ℤ) ≠ 0 := by
      unfold fmul
      simp only []
      positivity
    have w1 : ((fmul c bd.2.1).2 : ℤ) ≠ 0 := by
      unfold fmul
      simp only []
      positivity
    have w2 : ((fmul c bd.2.2.1).2 : ℤ) ≠ 0 := by
      unfold fmul
      simp only []
      positivity
    have w3 : ((fmul c bd.2.2.2).2 : ℤ) ≠ 0 := by
      unfold fmul
      simp only []
      positivity
    have a1 : ((fadd (fmul c bd.1) (fmul c bd.2.1)).2 : ℤ) ≠ 0 := by
      unfold fadd fmul
      simp only []
      positivity
    have a2 : ((fadd (fadd (fmul c bd.1) (fmul c bd.2.1)) (fmul c bd.2.2.1)).2 : ℤ) ≠ 0 := by
      unfold fadd fmul
      simp only []
      positivity
    have b0 : (bd.1.2 : ℤ) ≠ 0 := by omega
    have b1 : (bd.2.1.2 : ℤ) ≠ 0 := by omega
    have b2 : (bd.2.2.1.2 : ℤ) ≠ 0 := by omega
    have b3 : (bd.2.2.2.2 : ℤ) ≠ 0 := by omega
    have c1 : ((fadd bd.1 bd.2.1).2 : ℤ) ≠ 0 := by
      unfold fadd
      simp only []
      positivity
    have c2 : ((fadd (fadd bd.1 bd.2.1) bd.2.2.1).2 : ℤ) ≠ 0 := by
      unfold fadd
      simp only []
      positivity
    intro m
    rcases m with _ | (_ | (_ | (_ | m)))
    · simp only [cumulative_brach_dist, fscale, List.getD_cons_zero]
      exact fval_fmul c bd.1
    · simp only [cumulative_brach_dist, fscale, List.getD_cons_succ,
        List.getD_cons_zero]
      rw [fval_fadd w0 w1, fval_fadd b0 b1, fval_fmul, fval_fmul]
      ring
    · simp only [cumulative_brach_dist, fscale, List.getD_cons_succ,
        List.getD_cons_zero]
      rw [fval_fadd a1 w2, fval_fadd w0 w1, fval_fadd c1 b2, fval_fadd b0 b1,
        fval_fmul, fval_fmul, fval_fmul]
      ring
    · simp only [cumulative_brach_dist, fscale, List.getD_cons_succ,
        List.getD_cons_zero]
      rw [fval_fadd a2 w3, fval_fadd a1 w2, fval_fadd w0 w1,
        fval_fadd c2 b3, fval_fadd c1 b2, fval_fadd b0 b1,
        fval_fmul, fval_fmul, fval_fmul, fval_fmul]
      ring
    · simp [cumulative_brach_dist, fscale, List.getD, fval, fzero]
  unfold branch_sample py_choices
  have hlen4 : (cumulative_brach_dist bd).length = 4 := rfl
  have hlen4' : (cumulative_brach_dist (fscale c bd)).length = 4 := rfl
  by_cases hlen : ((cumulative_brach_dist bd).take (nb + 1)).length ≠ nb + 1
  · have hlen' : ((cumulative_brach_dist (fscale c bd)).take (nb + 1)).length ≠ nb + 1 := by
      rw [List.length_take, hlen4']
      rw [List.length_take, hlen4] at hlen
      exact hlen
    rw [if_pos hlen, if_pos hlen']
  · have hlen' : ¬ ((cumulative_brach_dist (fscale c bd)).take (nb + 1)).length ≠ nb + 1 := by
      rw [List.length_take, hlen4']
      rw [List.length_take, hlen4] at hlen
      exact hlen
    rw [if_neg hlen, if_neg hlen']
    rw [List.length_take, hlen4] at hlen
    have hnb : nb ≤ 3 := by omega
    have hlast : ∀ (L : List Frac), L.length = 4 →
        (L.take (nb + 1)).getLast? = some (L.getD nb fzero) := by
      intro L hL
      rw [List.getLast?_eq_getElem?, List.length_take, hL]
      have : (nb + 1) ⊓ 4 - 1 = nb := by omega
      rw [this, List.getElem?_take, if_pos (by omega), List.getD_eq_getElem?_getD,
        List.getElem?_eq_getElem (by omega)]
      rfl
    rw [hlast _ hlen4, hlast _ hlen4']
    dsimp only
    set T := (cumulative_brach_dist bd).getD nb fzero with hT
    set T' := (cumulative_brach_dist (fscale c bd)).getD nb fzero with hT'
    have hTd := (hden nb).1
    have hTd' := (hden nb).2
    have hTv := hval nb
    have hcond : fleB T' fzero = fleB T fzero := by
      by_cases hb : fleB T fzero = true
      · rw [hb]
        rw [fleB_fzero_iff hTd']
        rw [hTv]
        have := (fleB_fzero_iff hTd).mp hb
        nlinarith
      · rw [Bool.not_eq_true] at hb
        rw [hb]
        rw [← Bool.not_eq_true] at hb ⊢
        intro hb'
        apply hb
        rw [fleB_fzero_iff hTd]
        have := (fleB_fzero_iff hTd').mp hb'
        rw [hTv] at this
        nlinarith
    rw [hcond]
    by_cases hb : fleB T fzero = true
    · rw [if_pos hb, if_pos hb]
    · rw [if_neg hb, if_neg hb]
      have hbis : bisect ((cumulative_brach_dist (fscale c bd)).take (nb + 1))
          (fmul u T') 0 (nb + 1 - 1) =
          bisect ((cumulative_brach_dist bd).take (nb + 1))
          (fmul u T) 0 (nb + 1 - 1) := by
        unfold bisect
        apply bisect_go_congr
        intro m
        rw [getD_take, getD_take]
        by_cases hm : m < nb + 1
        · rw [if_pos hm, if_pos hm]
          have hmd := (hden m).1
          have hmd' := (hden m).2
          have hud : 0 < (fmul u T').2 := fden_fmul_pos hu hTd'
          have hud' : 0 < (fmul u T).2 := fden_fmul_pos hu hTd
          by_cases hcmp : fltB (fmul u T)
              ((cumulative_brach_dist bd).getD m fzero) = true
          · rw [hcmp]
            rw [fltB_iff hud hmd']
            rw [fval_fmul, hTv, hval m]
            have := (fltB_iff hud' hmd).mp hcmp
            rw [fval_fmul] at this
            nlinarith
          · rw [Bool.not_eq_true] at hcmp
            rw [hcmp, ← Bool.not_eq_true]
            intro hb'
            rw [fltB_iff hud hmd', fval_fmul, hTv, hval m] at hb'
            have : ¬ (fval (fmul u T) <
                fval ((cumulative_brach_dist bd).getD m fzero)) := by
              intro hx
              have := (fltB_iff hud' hmd).mpr hx
              rw [this] at hcmp
              exact absurd hcmp (by simp)
            apply this
            rw [fval_fmul]
            nlinarith
        · rw [if_neg hm, if_neg hm]
          have hud : 0 < (fmul u T').2 := fden_fmul_pos hu hTd'
          have hud' : 0 < (fmul u T).2 := fden_fmul_pos hu hTd
          by_cases hcmp : fltB (fmul u T) fzero = true
          · rw [hcmp]
            rw [fltB_fzero_iff hud]
            rw [fval_fmul, hTv]
            have := (fltB_fzero_iff hud').mp hcmp
            rw [fval_fmul] at this
            nlinarith
          · rw [Bool.not_eq_true] at hcmp
            rw [hcmp, ← Bool.not_eq_true]
            intro hb'
            rw [fltB_fzero_iff hud, fval_fmul, hTv] at hb'
            have : ¬ (fval (fmul u T) < 0) := by
              intro hx
              have := (fltB_fzero_iff hud').mpr hx
              rw [this] at hcmp
              exact absurd hcmp (by simp)
            apply this
            rw [fval_fmul]
            nlinarith
      rw [hbis]

/-! ## The `cell_remaining_sides` initialization -/

theorem in_bounds_true {width height : ℕ} {x y : ℤ}
    (hcond : 0 ≤ x ∧ x < (width : ℤ) ∧ 0 ≤ y ∧ y < (height : ℤ)) :
    in_bounds width height x y = true := decide_eq_true hcond

theorem in_bounds_false {width height : ℕ} {x y : ℤ}
    (hcond : ¬(0 ≤ x ∧ x < (width : ℤ) ∧ 0 ≤ y ∧ y < (height : ℤ))) :
    in_bounds width height x y = false := decide_eq_false hcond

/-- The value left at position `j` by a sequence of writes: the last write to
`j`, if any. -/
def lastWrite (ws : List (ℤ × ℤ)) (j : ℕ) : Option ℤ :=
  (ws.reverse.find? (fun p => decide (p.1 = (j : ℤ)))).map Prod.snd

theorem write_list_spec : ∀ (ws : List (ℤ × ℤ)) (l : List ℤ),
    (∀ p ∈ ws, 0 ≤ p.1 ∧ p.1 < l.length) →
    ∃ r, write_list l ws = some r ∧ r.length = l.length ∧
      ∀ j : ℕ, r.getD j 0 = (lastWrite ws j).getD (l.getD j 0) := by
  intro ws
  induction ws with
  | nil =>
    intro l _
    exact ⟨l, rfl, rfl, fun j => by simp [lastWrite]⟩
  | cons p ws ih =>
    intro l h
    have hp := h p (List.mem_cons_self p ws)
    have hset := pySet_nonneg l p.1 p.2 hp.1 hp.2
    have h' : ∀ q ∈ ws, 0 ≤ q.1 ∧ q.1 < (l.set p.1.toNat p.2).length := by
      intro q hq
      rw [List.length_set]
      exact h q (List.mem_cons_of_mem p hq)
    obtain ⟨r, hr, hrlen, hrval⟩ := ih (l.set p.1.toNat p.2) h'
    refine ⟨r, ?_, by rw [hrlen, List.length_set], ?_⟩
    · unfold write_list at hr ⊢
      rw [List.foldlM_cons, hset]
      simpa using hr
    · intro j
      rw [hrval j]
      unfold lastWrite
      rw [List.reverse_cons, List.find?_append]
      cases hf : ws.reverse.find? (fun q => decide (q.1 = (j : ℤ))) with
      | some q => simp
      | none =>
        simp only [Option.none_or]
        rw [List.find?_cons]
        by_cases hj : p.1 = (j : ℤ)
        · rw [decide_eq_true hj]
          show (l.set p.1.toNat p.2).getD j 0 = p.2
          have hjn : p.1.toNat = j := by omega
          rw [hjn]
          exact getD_set_self l j p.2 0 (by omega)
        · rw [decide_eq_false hj]
          show (l.set p.1.toNat p.2).getD j 0 = l.getD j 0
          exact getD_set_ne l p.1.toNat j p.2 0 (by omega)

theorem getD_replicate {α : Type} (n j : ℕ) (v d : α) (h : j < n) :
    (List.replicate n v).getD j d = v := by
  rw [List.getD_eq_getElem?_getD, List.getElem?_replicate, if_pos h]
  rfl

/-- The grid degree as a sum of neighbour indicators. -/
theorem grid_degree_eval (width height : ℕ) (x y : ℤ) :
    grid_degree width height x y =
      (if in_bounds width height (x-1) y = true then 1 else 0) +
      (if in_bounds width height (x+1) y = true then 1 else 0) +
      (if in_bounds width height x (y-1) = true then 1 else 0) +
      (if in_bounds width height x (y+1) = true then 1 else 0) := by
  unfold grid_degree nbrs c_l c_r c_t c_b
  rcases Bool.eq_false_or_eq_true (in_bounds width height (x-1) y) with b1 | b1 <;>
  rcases Bool.eq_false_or_eq_true (in_bounds width height (x+1) y) with b2 | b2 <;>
  rcases Bool.eq_false_or_eq_true (in_bounds width height x (y-1)) with b3 | b3 <;>
  rcases Bool.eq_false_or_eq_true (in_bounds width height x (y+1)) with b4 | b4 <;>
  simp [List.filter, b1, b2, b3, b4]

/-- Likewise for the unvisited-neighbour count. -/
theorem unvisited_count_eval (width height : ℕ) (dist : List ℤ) (x y : ℤ) :
    unvisited_count width height dist x y =
      (if (in_bounds width height (x-1) y && !is_visited width dist (x-1) y) = true
        then 1 else 0) +
      (if (in_bounds width height (x+1) y && !is_visited width dist (x+1) y) = true
        then 1 else 0) +
      (if (in_bounds width height x (y-1) && !is_visited width dist x (y-1)) = true
        then 1 else 0) +
      (if (in_bounds width height x (y+1) && !is_visited width dist x (y+1)) = true
        then 1 else 0) := by
  unfold unvisited_count nbrs c_l c_r c_t c_b
  rcases Bool.eq_false_or_eq_true
    (in_bounds width height (x-1) y && !is_visited width dist (x-1) y) with b1 | b1 <;>
  rcases Bool.eq_false_or_eq_true
    (in_bounds width height (x+1) y && !is_visited width dist (x+1) y) with b2 | b2 <;>
  rcases Bool.eq_false_or_eq_true
    (in_bounds width height x (y-1) && !is_visited width dist x (y-1)) with b3 | b3 <;>
  rcases Bool.eq_false_or_eq_true
    (in_bounds width height x (y+1) && !is_visited width dist x (y+1)) with b4 | b4 <;>
  simp [List.filter, b1, b2, b3, b4]

/-- The initialization of `cell_remaining_sides` assigns every cell its grid
degree, provided both dimensions are at least 2 (for a degenerate strip the
overlapping writes leave too large values behind — see the `C9` analysis). -/
theorem init_rem_spec {width height : ℕ} (hw : 2 ≤ width) (hh : 2 ≤ height) :
    ∃ r, init_rem width height = some r ∧ r.length = width * height ∧
      ∀ c : ℤ × ℤ, in_bounds width height c.1 c.2 = true →
        r.getD (cellIdx width c) 0 = (grid_degree width height c.1 c.2 : ℤ) := by
  have hws : ∀ p ∈ init_rem_writes width height,
      0 ≤ p.1 ∧ p.1 < (List.replicate (width * height) (4:ℤ)).length := by
    intro p hp
    rw [List.length_replicate]
    simp only [init_rem_writes, List.mem_append, List.mem_flatMap, List.mem_range,
      List.mem_cons, List.not_mem_nil, or_false] at hp
    have hb : ∀ (a b : ℤ), in_bounds width height a b = true →
        0 ≤ t width a b ∧ t width a b < ((width * height : ℕ) : ℤ) := by
      intro a b hab
      have := @t_bounds width height _ _ hab
      push_cast
      exact this
    rcases hp with (⟨x', hx', hp | hp⟩ | ⟨y', hy', hp | hp⟩) | hp | hp | hp | hp <;>
      subst hp <;>
      exact hb _ _ (in_bounds_true (by constructor <;> omega))
  obtain ⟨r, hr, hrlen, hrval⟩ := write_list_spec (init_rem_writes width height)
    (List.replicate (width * height) 4) hws
  refine ⟨r, hr, by rw [hrlen, List.length_replicate], ?_⟩
  rintro ⟨x, y⟩ hc
  have hc' : in_bounds width height x y = true := hc
  rcases in_bounds_iff.mp hc' with ⟨hx0, hxw, hy0, hyh⟩
  have hjlt : cellIdx width (x, y) < width * height := cellIdx_lt hc
  have hjc : ((cellIdx width (x, y) : ℕ) : ℤ) = t width x y := cellIdx_cast hc
  rw [hrval (cellIdx width (x, y)), getD_replicate _ _ _ _ hjlt]
  have hpredT : ∀ a b : ℤ, a = x → b = y →
      (fun p : ℤ × ℤ => decide (p.1 = ((cellIdx width (x, y) : ℕ) : ℤ)))
        ((t width a b, (0:ℤ)).1, (t width a b, (0:ℤ)).2).1 = true → True := fun _ _ _ _ _ => trivial
  -- matching and non-matching entry predicates
  have hT : ∀ a b : ℤ, a = x → b = y →
      decide (t width a b = ((cellIdx width (x, y) : ℕ) : ℤ)) = true := by
    intro a b ha hb
    subst ha
    subst hb
    exact decide_eq_true (by rw [hjc])
  have hF : ∀ a b : ℤ, in_bounds width height a b = true → (a, b) ≠ (x, y) →
      decide (t width a b = ((cellIdx width (x, y) : ℕ) : ℤ)) = false := by
    intro a b hab hne
    apply decide_eq_false
    intro he
    rw [hjc] at he
    rcases t_inj hab hc' he with ⟨h1, h2⟩
    exact hne (by rw [h1, h2])
  have hall : ∀ (L : List (ℤ × ℤ)) (v : ℤ), (∀ p ∈ L, p.2 = v) →
      (∃ p ∈ L, (fun p : ℤ × ℤ =>
        decide (p.1 = ((cellIdx width (x, y) : ℕ) : ℤ))) p = true) →
      ∃ q, L.find? (fun p : ℤ × ℤ =>
        decide (p.1 = ((cellIdx width (x, y) : ℕ) : ℤ))) = some q ∧ q.2 = v := by
    intro L v hv hex
    have hs : (L.find? _).isSome = true := List.find?_isSome.mpr hex
    cases hq : L.find? (fun p : ℤ × ℤ =>
        decide (p.1 = ((cellIdx width (x, y) : ℕ) : ℤ))) with
    | none => rw [hq] at hs; exact absurd hs (by simp)
    | some q => exact ⟨q, rfl, hv q (List.mem_of_find?_eq_some hq)⟩
  unfold lastWrite
  have hsplit : init_rem_writes width height =
      ((List.range width).flatMap fun x' =>
        [(t width (x' : ℤ) 0, (3:ℤ)), (t width (x' : ℤ) ((height : ℤ) - 1), 3)]) ++
      (((List.range height).flatMap fun y' =>
        [(t width 0 (y' : ℤ), (3:ℤ)), (t width ((width : ℤ) - 1) (y' : ℤ), 3)]) ++
      [(t width 0 0, (2:ℤ)), (t width ((width : ℤ) - 1) 0, 2),
        (t width 0 ((height : ℤ) - 1), 2),
        (t width ((width : ℤ) - 1) ((height : ℤ) - 1), 2)]) := by
    simp [init_rem_writes, List.append_assoc]
  rw [hsplit, List.reverse_append, List.reverse_append, List.find?_append,
    List.find?_append]
  set rowR := ((List.range width).flatMap fun x' =>
    [(t width (x' : ℤ) 0, (3:ℤ)), (t width (x' : ℤ) ((height : ℤ) - 1), 3)]).reverse
    with hrowR
  set colR := (((List.range height).flatMap fun y' =>
    [(t width 0 (y' : ℤ), (3:ℤ)), (t width ((width : ℤ) - 1) (y' : ℤ), 3)])).reverse
    with hcolR
  set corR := ([(t width 0 0, (2:ℤ)), (t width ((width : ℤ) - 1) 0, 2),
    (t width 0 ((height : ℤ) - 1), 2),
    (t width ((width : ℤ) - 1) ((height : ℤ) - 1), 2)]).reverse with hcorR
  have hrowM : ∀ p, p ∈ rowR ↔ ∃ x' : ℕ, x' < width ∧
      (p = (t width (x' : ℤ) 0, (3:ℤ)) ∨ p = (t width (x' : ℤ) ((height : ℤ) - 1), 3)) := by
    intro p
    rw [hrowR, List.mem_reverse]
    simp [List.mem_flatMap, List.mem_range]
  have hcolM : ∀ p, p ∈ colR ↔ ∃ y' : ℕ, y' < height ∧
      (p = (t width 0 (y' : ℤ), (3:ℤ)) ∨ p = (t width ((width : ℤ) - 1) (y' : ℤ), 3)) := by
    intro p
    rw [hcolR, List.mem_reverse]
    simp [List.mem_flatMap, List.mem_range]
  have hcorM : ∀ p, p ∈ corR ↔ p = (t width 0 0, (2:ℤ)) ∨
      p = (t width ((width : ℤ) - 1) 0, 2) ∨ p = (t width 0 ((height : ℤ) - 1), 2) ∨
      p = (t width ((width : ℤ) - 1) ((height : ℤ) - 1), 2) := by
    intro p
    rw [hcorR, List.mem_reverse]
    simp
  have hrowV : ∀ p ∈ rowR, (p : ℤ × ℤ).2 = 3 := by
    intro p hp
    rcases (hrowM p).mp hp with ⟨x', _, rfl | rfl⟩ <;> rfl
  have hcolV : ∀ p ∈ colR, (p : ℤ × ℤ).2 = 3 := by
    intro p hp
    rcases (hcolM p).mp hp with ⟨y', _, rfl | rfl⟩ <;> rfl
  have hcorV : ∀ p ∈ corR, (p : ℤ × ℤ).2 = 2 := by
    intro p hp
    rcases (hcorM p).mp hp with rfl | rfl | rfl | rfl <;> rfl
  have hdeg := grid_degree_eval width height x y
  by_cases hxb : x = 0 ∨ x = (width : ℤ) - 1
  · by_cases hyb : y = 0 ∨ y = (height : ℤ) - 1
    · -- corner: the last write was one of the corner writes, value 2
      have hex : ∃ p ∈ corR, (fun p : ℤ × ℤ =>
          decide (p.1 = ((cellIdx width (x, y) : ℕ) : ℤ))) p = true := by
        rcases hxb with hx | hx <;> rcases hyb with hy | hy
        · exact ⟨(t width 0 0, 2), (hcorM _).mpr (Or.inl rfl), hT _ _ hx.symm hy.symm⟩
        · exact ⟨(t width 0 ((height : ℤ) - 1), 2),
            (hcorM _).mpr (Or.inr (Or.inr (Or.inl rfl))), hT _ _ hx.symm hy.symm⟩
        · exact ⟨(t width ((width : ℤ) - 1) 0, 2),
            (hcorM _).mpr (Or.inr (Or.inl rfl)), hT _ _ hx.symm hy.symm⟩
        · exact ⟨(t width ((width : ℤ) - 1) ((height : ℤ) - 1), 2),
            (hcorM _).mpr (Or.inr (Or.inr (Or.inr rfl))), hT _ _ hx.symm hy.symm⟩
      obtain ⟨q, hq, hqv⟩ := hall corR 2 hcorV hex
      rw [hq]
      simp only [Option.or_some, Option.map_some, Option.getD_some, hqv]
      rw [hdeg]
      rcases hxb with hx | hx <;> rcases hyb with hy | hy
      · have b1 : in_bounds width height (x-1) y = false := in_bounds_false (by omega)
        have b2 : in_bounds width height (x+1) y = true := in_bounds_true (by omega)
        have b3 : in_bounds width height x (y-1) = false := in_bounds_false (by omega)
        have b4 : in_bounds width height x (y+1) = true := in_bounds_true (by omega)
        rw [b1, b2, b3, b4]
        norm_num
        exact hqv
      · have b1 : in_bounds width height (x-1) y = false := in_bounds_false (by omega)
        have b2 : in_bounds width height (x+1) y = true := in_bounds_true (by omega)
        have b3 : in_bounds width height x (y-1) = true := in_bounds_true (by omega)
        have b4 : in_bounds width height x (y+1) = false := in_bounds_false (by omega)
        rw [b1, b2, b3, b4]
        norm_num
        exact hqv
      · have b1 : in_bounds width height (x-1) y = true := in_bounds_true (by omega)
        have b2 : in_bounds width height (x+1) y = false := in_bounds_false (by omega)
        have b3 : in_bounds width height x (y-1) = false := in_bounds_false (by omega)
        have b4 : in_bounds width height x (y+1) = true := in_bounds_true (by omega)
        rw [b1, b2, b3, b4]
        norm_num
        exact hqv
      · have b1 : in_bounds width height (x-1) y = true := in_bounds_true (by omega)
        have b2 : in_bounds width height (x+1) y = false := in_bounds_false (by omega)
        have b3 : in_bounds width height x (y-1) = true := in_bounds_true (by omega)
        have b4 : in_bounds width height x (y+1) = false := in_bounds_false (by omega)
        rw [b1, b2, b3, b4]
        norm_num
        exact hqv
    · -- vertical border, interior row: the column pass wrote 3 last
      push_neg at hyb
      have hcornone : corR.find? (fun p : ℤ × ℤ =>
          decide (p.1 = ((cellIdx width (x, y) : ℕ) : ℤ))) = none := by
        rw [List.find?_eq_none]
        intro p hp
        rcases (hcorM p).mp hp with rfl | rfl | rfl | rfl <;>
          simp only [] <;>
          rw [hF _ _ (in_bounds_true (by constructor <;> omega))
            (by intro he; rw [Prod.mk.injEq] at he; omega)] <;>
          simp
      have hex : ∃ p ∈ colR, (fun p : ℤ × ℤ =>
          decide (p.1 = ((cellIdx width (x, y) : ℕ) : ℤ))) p = true := by
        rcases hxb with hx | hx
        · refine ⟨(t width 0 (y.toNat : ℤ), 3), (hcolM _).mpr
            ⟨y.toNat, by omega, Or.inl rfl⟩, hT _ _ hx.symm (by omega)⟩
        · refine ⟨(t width ((width : ℤ) - 1) (y.toNat : ℤ), 3), (hcolM _).mpr
            ⟨y.toNat, by omega, Or.inr rfl⟩, hT _ _ hx.symm (by omega)⟩
      obtain ⟨q, hq, hqv⟩ := hall colR 3 hcolV hex
      rw [hcornone, hq]
      simp only [Option.none_or, Option.or_some, Option.map_some, Option.getD_some, hqv]
      rw [hdeg]
      have b3 : in_bounds width height x (y-1) = true := in_bounds_true (by omega)
      have b4 : in_bounds width height x (y+1) = true := in_bounds_true (by omega)
      rcases hxb with hx | hx
      · have b1 : in_bounds width height (x-1) y = false := in_bounds_false (by omega)
        have b2 : in_bounds width height (x+1) y = true := in_bounds_true (by omega)
        rw [b1, b2, b3, b4]
        norm_num
        exact hqv
      · have b1 : in_bounds width height (x-1) y = true := in_bounds_true (by omega)
        have b2 : in_bounds width height (x+1) y = false := in_bounds_false (by omega)
        rw [b1, b2, b3, b4]
        norm_num
        exact hqv
  · push_neg at hxb
    by_cases hyb : y = 0 ∨ y = (height : ℤ) - 1
    · -- horizontal border, interior column: the row pass wrote 3 last
      have hcornone : corR.find? (fun p : ℤ × ℤ =>
          decide (p.1 = ((cellIdx width (x, y) : ℕ) : ℤ))) = none := by
        rw [List.find?_eq_none]
        intro p hp
        rcases (hcorM p).mp hp with rfl | rfl | rfl | rfl <;>
          simp only [] <;>
          rw [hF _ _ (in_bounds_true (by constructor <;> omega))
            (by intro he; rw [Prod.mk.injEq] at he; omega)] <;>
          simp
      have hcolnone : colR.find? (fun p : ℤ × ℤ =>
          decide (p.1 = ((cellIdx width (x, y) : ℕ) : ℤ))) = none := by
        rw [List.find?_eq_none]
        intro p hp
        rcases (hcolM p).mp hp with ⟨y', hy', rfl | rfl⟩ <;>
          simp only [] <;>
          rw [hF _ _ (in_bounds_true (by constructor <;> omega))
            (by intro he; rw [Prod.mk.injEq] at he; omega)] <;>
          simp
      have hex : ∃ p ∈ rowR, (fun p : ℤ × ℤ =>
          decide (p.1 = ((cellIdx width (x, y) : ℕ) : ℤ))) p = true := by
        rcases hyb with hy | hy
        · refine ⟨(t width (x.toNat : ℤ) 0, 3), (hrowM _).mpr
            ⟨x.toNat, by omega, Or.inl rfl⟩, hT _ _ (by omega) hy.symm⟩
        · refine ⟨(t width (x.toNat : ℤ) ((height : ℤ) - 1), 3), (hrowM _).mpr
            ⟨x.toNat, by omega, Or.inr rfl⟩, hT _ _ (by omega) hy.symm⟩
      obtain ⟨q, hq, hqv⟩ := hall rowR 3 hrowV hex
      rw [hcornone, hcolnone, hq]
      simp only [Option.none_or, Option.map_some, Option.getD_some, hqv]
      rw [hdeg]
      have b1 : in_bounds width height (x-1) y = true := in_bounds_true (by omega)
      have b2 : in_bounds width height (x+1) y = true := in_bounds_true (by omega)
      rcases hyb with hy | hy
      · have b3 : in_bounds width height x (y-1) = false := in_bounds_false (by omega)
        have b4 : in_bounds width height x (y+1) = true := in_bounds_true (by omega)
        rw [b1, b2, b3, b4]
        norm_num
        exact hqv
      · have b3 : in_bounds width height x (y-1) = true := in_bounds_true (by omega)
        have b4 : in_bounds width height x (y+1) = false := in_bounds_false (by omega)
        rw [b1, b2, b3, b4]
        norm_num
        exact hqv
    · -- interior cell: never written, value 4
      push_neg at hyb
      have hcornone : corR.find? (fun p : ℤ × ℤ =>
          decide (p.1 = ((cellIdx width (x, y) : ℕ) : ℤ))) = none := by
        rw [List.find?_eq_none]
        intro p hp
        rcases (hcorM p).mp hp with rfl | rfl | rfl | rfl <;>
          simp only [] <;>
          rw [hF _ _ (in_bounds_true (by constructor <;> omega))
            (by intro he; rw [Prod.mk.injEq] at he; omega)] <;>
          simp
      have hcolnone : colR.find? (fun p : ℤ × ℤ =>
          decide (p.1 = ((cellIdx width (x, y) : ℕ) : ℤ))) = none := by
        rw [List.find?_eq_none]
        intro p hp
        rcases (hcolM p).mp hp with ⟨y', hy', rfl | rfl⟩ <;>
          simp only [] <;>
          rw [hF _ _ (in_bounds_true (by constructor <;> omega))
            (by intro he; rw [Prod.mk.injEq] at he; omega)] <;>
          simp
      have hrownone : rowR.find? (fun p : ℤ × ℤ =>
          decide (p.1 = ((cellIdx width (x, y) : ℕ) : ℤ))) = none := by
        rw [List.find?_eq_none]
        intro p hp
        rcases (hrowM p).mp hp with ⟨x', hx', rfl | rfl⟩ <;>
          simp only [] <;>
          rw [hF _ _ (in_bounds_true (by constructor <;> omega))
            (by intro he; rw [Prod.mk.injEq] at he; omega)] <;>
          simp
      rw [hcornone, hcolnone, hrownone]
      simp only [Option.none_or, Option.map_none, Option.getD_none]
      rw [hdeg]
      have b1 : in_bounds width height (x-1) y = true := in_bounds_true (by omega)
      have b2 : in_bounds width height (x+1) y = true := in_bounds_true (by omega)
      have b3 : in_bounds width height x (y-1) = true := in_bounds_true (by omega)
      have b4 : in_bounds width height x (y+1) = true := in_bounds_true (by omega)
      rw [b1, b2, b3, b4]
      norm_num

theorem fracNorm_val_lt_one (p : Frac) : fval (fracNorm p) < 1 := by
  unfold fracNorm fval
  by_cases h : p.2 ≤ 0
  · simp only [if_pos h]
    have h1 : p.1 % 1 = 0 := Int.emod_one p.1
    rw [h1]
    norm_num
  · simp only [if_neg h]
    rw [div_lt_one (by exact_mod_cast (by omega : (0:ℤ) < p.2))]
    have : p.1 % p.2 < p.2 := Int.emod_lt_of_pos p.1 (by omega)
    exact_mod_cast this

/-! ## The exit pass -/

theorem mem_exit_candidates {width height : ℕ} {dist : List ℤ} {med : ℤ}
    (hlen : dist.length = width * height) (c : ℤ × ℤ) :
    c ∈ exit_candidates width height dist med ↔
      in_bounds width height c.1 c.2 = true ∧ is_border width height c.1 c.2 = true ∧
        med < dist.getD (cellIdx width c) 0 := by
  unfold exit_candidates
  rw [List.mem_flatMap]
  constructor
  · rintro ⟨x, hx, hy⟩
    rw [List.mem_range] at hx
    rw [List.mem_filterMap] at hy
    obtain ⟨y, hy, hif⟩ := hy
    simp only [List.pure_def, List.bind_eq_flatMap, List.mem_flatMap, List.mem_range,
      List.mem_singleton] at hy
    obtain ⟨b, hb0, rfl⟩ := hy
    by_cases hcond : (is_border width height (x : ℤ) (b : ℤ) &&
        (match pyGet dist (t width (x : ℤ) (b : ℤ)) with
         | some dv => decide (med < dv)
         | none => false)) = true
    swap
    · rw [if_neg hcond] at hif
      exact absurd hif (by simp)
    rw [if_pos hcond] at hif
    have hcc : c = ((x : ℤ), (b : ℤ)) := (Option.some.inj hif).symm
    subst hcc
    have hin : in_bounds width height (x : ℤ) (b : ℤ) = true :=
      in_bounds_true ⟨by positivity, by exact_mod_cast hx, by positivity, by exact_mod_cast hb0⟩
    have hbd := @t_bounds width height _ _ hin
    have h1 : t width (x : ℤ) (b : ℤ) < (dist.length : ℤ) := by
      rw [hlen]; push_cast; exact hbd.2
    rw [pyGet_eq_getD dist _ 0 hbd.1 h1] at hcond
    dsimp only at hcond
    rw [Bool.and_eq_true] at hcond
    exact ⟨hin, hcond.1, by exact_mod_cast decide_eq_true_iff.mp hcond.2⟩
  · rintro ⟨hin, hbord, hmed⟩
    rcases in_bounds_iff.mp hin with ⟨hx0, hxw, hy0, hyh⟩
    refine ⟨c.1.toNat, by rw [List.mem_range]; omega, ?_⟩
    rw [List.mem_filterMap]
    refine ⟨c.2, ?_, ?_⟩
    · simp only [List.pure_def, List.bind_eq_flatMap, List.mem_flatMap, List.mem_range,
        List.mem_singleton]
      exact ⟨c.2.toNat, by omega, by omega⟩
    · have e1 : ((c.1.toNat : ℕ) : ℤ) = c.1 := Int.toNat_of_nonneg hx0
      rw [e1]
      have hbd := @t_bounds width height _ _ hin
      have h1 : t width c.1 c.2 < (dist.length : ℤ) := by
        rw [hlen]; push_cast; exact hbd.2
      have hcond : (is_border width height c.1 c.2 &&
          (match pyGet dist (t width c.1 c.2) with
           | some dv => decide (med < dv)
           | none => false)) = true := by
        rw [pyGet_eq_getD dist _ 0 hbd.1 h1]
        dsimp only
        rw [hbord]
        simp only [Bool.true_and]
        exact decide_eq_true hmed
      rw [if_pos hcond, Prod.mk.eta]

/-- The single outward bit the exit pass opens: left, top, right, bottom edge
membership tested in that priority order. -/
def exitBit (width height : ℕ) (c : ℤ × ℤ) : ℕ :=
  if c.1 = 0 then 1 else if c.2 = 0 then 2
  else if c.1 = (width : ℤ) - 1 then 4
  else if c.2 = (height : ℤ) - 1 then 8 else 0

theorem open_wall_spec {width height : ℕ} {walls : List ℕ} {x y : ℤ} (bit : ℕ)
    (hlen : walls.length = width * height) (hc : in_bounds width height x y = true) :
    open_wall width walls x y bit =
      some (walls.set (cellIdx width (x, y))
        (walls.getD (cellIdx width (x, y)) 0 ||| bit)) := by
  have hb := @t_bounds width height _ _ hc
  have h1 : t width x y < (walls.length : ℤ) := by
    rw [hlen]; push_cast; exact hb.2
  unfold open_wall
  rw [pyGet_eq_getD walls _ 0 hb.1 h1]
  simp only [Option.bind_eq_bind, Option.some_bind]
  rw [pySet_nonneg walls _ _ hb.1 h1]
  rfl

theorem exit_open_spec {width height : ℕ} {walls : List ℕ} {c : ℤ × ℤ}
    (hlen : walls.length = width * height) (hc : in_bounds width height c.1 c.2 = true)
    (hbord : is_border width height c.1 c.2 = true) :
    exit_open width height walls c =
      some (walls.set (cellIdx width c)
        (walls.getD (cellIdx width c) 0 ||| exitBit width height c)) := by
  unfold exit_open exitBit
  by_cases h1 : c.1 = 0
  · rw [if_pos h1, if_pos h1]
    exact open_wall_spec 1 hlen hc
  rw [if_neg h1, if_neg h1]
  by_cases h2 : c.2 = 0
  · rw [if_pos h2, if_pos h2]
    exact open_wall_spec 2 hlen hc
  rw [if_neg h2, if_neg h2]
  by_cases h3 : c.1 = (width : ℤ) - 1
  · rw [if_pos h3, if_pos h3]
    exact open_wall_spec 4 hlen hc
  rw [if_neg h3, if_neg h3]
  have h4 : c.2 = (height : ℤ) - 1 := by
    rcases is_border_iff.mp hbord with h | h | h | h <;> omega
  rw [if_pos h4, if_pos h4]
  exact open_wall_spec 8 hlen hc

theorem exit_pass_nil {width height : ℕ} {min_length med : ℤ} {o : Orc}
    {dist : List ℤ} (walls : List ℕ)
    (hmed : med = if 0 < min_length then min_length else min (width : ℤ) (height : ℤ))
    (hcd : exit_candidates width height dist med = []) :
    exit_pass width height min_length o dist walls = .error .exitUnsat := by
  unfold exit_pass
  dsimp only
  rw [← hmed, hcd]

theorem exit_pass_cons {width height : ℕ} {min_length med : ℤ} {o : Orc}
    {dist : List ℤ} {a : ℤ × ℤ} {l : List (ℤ × ℤ)} (walls : List ℕ)
    (hmed : med = if 0 < min_length then min_length else min (width : ℤ) (height : ℤ))
    (hcd : exit_candidates width height dist med = a :: l) :
    exit_pass width height min_length o dist walls =
      (do
        let walls2 ← oe (exit_open width height walls
          ((a :: l).getD (o.exitPick % (a :: l).length) (0, 0))) .indexError
        pure ((a :: l).getD (o.exitPick % (a :: l).length) (0, 0), walls2)) := by
  unfold exit_pass
  dsimp only
  rw [← hmed, hcd]

theorem exit_pass_error_iff {width height : ℕ} {min_length med : ℤ} {o : Orc}
    {dist : List ℤ} {walls : List ℕ}
    (hmed : med = if 0 < min_length then min_length else min (width : ℤ) (height : ℤ))
    (hlen : dist.length = width * height) (hwlen : walls.length = width * height) :
    (∃ e, exit_pass width height min_length o dist walls = .error e) ↔
      exit_candidates width height dist med = [] := by
  cases hcd : exit_candidates width height dist med with
  | nil => exact ⟨fun _ => rfl, fun _ => ⟨.exitUnsat, exit_pass_nil walls hmed hcd⟩⟩
  | cons a l =>
    constructor
    · rintro ⟨e, he⟩
      have hk : o.exitPick % (a :: l).length < (a :: l).length := Nat.mod_lt _ (by simp)
      have hmem : (a :: l).getD (o.exitPick % (a :: l).length) (0, 0) ∈ a :: l := by
        rw [getD_eq_getElem _ _ _ hk]
        exact List.getElem_mem _
      have hmem2 : (a :: l).getD (o.exitPick % (a :: l).length) (0, 0) ∈
          exit_candidates width height dist med := by
        rw [hcd]
        exact hmem
      rcases (mem_exit_candidates hlen _).mp hmem2 with ⟨hin, hbord, _⟩
      rw [exit_pass_cons walls hmed hcd, exit_open_spec hwlen hin hbord] at he
      exact Except.noConfusion he
    · intro h
      exact absurd h (List.cons_ne_nil a l)

theorem exit_pass_ok {width height : ℕ} {min_length med : ℤ} {o : Orc}
    {dist : List ℤ} {walls : List ℕ}
    (hmed : med = if 0 < min_length then min_length else min (width : ℤ) (height : ℤ))
    (hlen : dist.length = width * height) (hwlen : walls.length = width * height)
    (hne : exit_candidates width height dist med ≠ []) :
    ∃ c, c ∈ exit_candidates width height dist med ∧
      c = (exit_candidates width height dist med).getD
        (o.exitPick % (exit_candidates width height dist med).length) (0, 0) ∧
      exit_pass width height min_length o dist walls =
        .ok (c, walls.set (cellIdx width c)
          (walls.getD (cellIdx width c) 0 ||| exitBit width height c)) := by
  cases hcd : exit_candidates width height dist med with
  | nil => exact absurd hcd hne
  | cons a l =>
    have hk : o.exitPick % (a :: l).length < (a :: l).length := Nat.mod_lt _ (by simp)
    have hmem : (a :: l).getD (o.exitPick % (a :: l).length) (0, 0) ∈ a :: l := by
      rw [getD_eq_getElem _ _ _ hk]
      exact List.getElem_mem _
    have hmem2 : (a :: l).getD (o.exitPick % (a :: l).length) (0, 0) ∈
        exit_candidates width height dist med := by
      rw [hcd]
      exact hmem
    rcases (mem_exit_candidates hlen _).mp hmem2 with ⟨hin, hbord, _⟩
    refine ⟨(a :: l).getD (o.exitPick % (a :: l).length) (0, 0), hmem, rfl, ?_⟩
    rw [exit_pass_cons walls hmed hcd, exit_open_spec hwlen hin hbord]
    rfl

/-! ## The restart selector and forced branching -/

theorem fallback_cell_keep {width : ℕ} {rem : List ℤ} {e : ℤ × ℤ × ℤ}
    {rest : List (ℤ × ℤ × ℤ)} {v : ℤ}
    (hv : pyGet rem (t width e.2.1 e.2.2) = some v) (h1 : 1 < v) :
    fallback_cell width rem (e :: rest) = .ok (some ((e.2.1, e.2.2), e :: rest)) := by
  unfold fallback_cell
  rw [hv]
  dsimp only
  rw [if_pos h1]

theorem fallback_cell_pop {width : ℕ} {rem : List ℤ} {e : ℤ × ℤ × ℤ}
    {rest : List (ℤ × ℤ × ℤ)} {v : ℤ}
    (hv : pyGet rem (t width e.2.1 e.2.2) = some v) (h1 : v = 1) :
    fallback_cell width rem (e :: rest) = .ok (some ((e.2.1, e.2.2), rest)) := by
  unfold fallback_cell
  rw [hv]
  dsimp only
  rw [if_neg (by omega), if_pos h1]

theorem fallback_cell_skip {width : ℕ} {rem : List ℤ} {e : ℤ × ℤ × ℤ}
    {rest : List (ℤ × ℤ × ℤ)} {v : ℤ}
    (hv : pyGet rem (t width e.2.1 e.2.2) = some v) (h1 : v < 1) :
    fallback_cell width rem (e :: rest) = fallback_cell width rem rest := by
  conv_lhs => unfold fallback_cell
  rw [hv]
  dsimp only
  rw [if_neg (by omega), if_neg (by omega)]

theorem set_visited_ok_inv {width height : ℕ} {s : St} {x y d : ℤ} {s' : St}
    (h : set_visited width height s x y d = .ok s') :
    s'.cells_visited = s.cells_visited + 1 ∧ s'.walls = s.walls ∧ s'.q = s.q ∧
      s'.tick = s.tick ∧ s'.heap = heapPush s.heap (-d, x, y) := by
  unfold set_visited at h
  rw [oe_ok_iff] at h
  simp only [Option.bind_eq_bind, Option.bind_eq_some, Option.pure_def,
    Option.some.injEq] at h
  obtain ⟨dist1, _, rem1, _, rem2, _, rem3, _, rem4, _, heq⟩ := h
  rw [← heq]
  exact ⟨rfl, rfl, rfl, rfl, rfl⟩

theorem branch_fold_counts (width height : ℕ) (cc : ℤ × ℤ) (d : ℤ) :
    ∀ (sel : List (ℤ × ℤ)) (s s2 : St),
      sel.foldlM (fun st nb => do
        let walls ← oe (connect width st.walls cc.1 cc.2 nb.1 nb.2) .indexError
        let st := { st with walls := walls, q := st.q ++ [nb] }
        set_visited width height st nb.1 nb.2 (d + 1)) s = .ok s2 →
      s2.cells_visited = s.cells_visited + sel.length ∧
      s2.q.length = s.q.length + sel.length := by
  intro sel
  induction sel with
  | nil =>
    intro s s2 h
    rw [List.foldlM_nil] at h
    simp only [pure, Except.pure, Except.ok.injEq] at h
    rw [← h]
    exact ⟨rfl, rfl⟩
  | cons nb rest ih =>
    intro s s2 h
    rw [List.foldlM_cons] at h
    rw [bind_ok_iff] at h
    obtain ⟨st1, h1, h2⟩ := h
    rw [bind_ok_iff] at h1
    obtain ⟨walls1, _, hsv⟩ := h1
    obtain ⟨hcv, _, hq, _, _⟩ := set_visited_ok_inv hsv
    dsimp only at hcv hq
    have hql : st1.q.length = s.q.length + 1 := by
      rw [hq]
      simp
    obtain ⟨ihc, ihq⟩ := ih st1 s2 h2
    constructor
    · simp only [List.length_cons]
      omega
    · simp only [List.length_cons]
      omega

theorem py_sample_length {pop : List (ℤ × ℤ)} {k : ℕ} {draw : ℕ → ℕ}
    {sel : List (ℤ × ℤ)} (h : py_sample pop k draw = .ok sel) : sel.length = k :=
  (py_sample_ok h).2.2.1

/-- A restart step that succeeds visits at least one new cell: `step_grow`
with `can_terminate = false` forces the branch count to at least 1. -/
theorem step_grow_restart_cv {width height : ℕ} {bd : Frac × Frac × Frac × Frac}
    {o : Orc} {cc : ℤ × ℤ} {s s2 : St}
    (h : step_grow width height bd o false cc s = .ok s2) :
    s.cells_visited < s2.cells_visited := by
  unfold step_grow at h
  rw [bind_ok_iff] at h
  obtain ⟨d, _, h⟩ := h
  rw [bind_ok_iff] at h
  obtain ⟨bc0, _, h⟩ := h
  rw [bind_ok_iff] at h
  obtain ⟨sel, hsel, h⟩ := h
  obtain ⟨hcv, _⟩ := branch_fold_counts width height cc d sel _ s2 h
  dsimp only at hcv
  have hlen := py_sample_length hsel
  have hbc : (1:ℕ) ≤ (if false = false ∧ bc0 = 0 then 1 else bc0) := by
    by_cases hb : bc0 = 0
    · rw [if_pos ⟨rfl, hb⟩]
    · rw [if_neg (by tauto)]
      omega
  omega

/-- A growth iteration from an empty frontier (necessarily a restart) that
succeeds strictly increases `cells_visited`. -/
theorem step_empty_q_cv {width height : ℕ} {bd : Frac × Frac × Frac × Frac}
    {o : Orc} {s s2 : St} (hq : s.q = [])
    (h : step width height bd o s = .ok s2) :
    s.cells_visited < s2.cells_visited := by
  unfold step at h
  rw [bind_ok_iff] at h
  obtain ⟨trip, hcur, hgrow⟩ := h
  unfold current_cell at hcur
  rw [hq] at hcur
  rw [bind_ok_iff] at hcur
  obtain ⟨fb, hfb, hcur⟩ := hcur
  cases fb with
  | none => exact absurd hcur (by simp)
  | some ch =>
    obtain ⟨c, heap2⟩ := ch
    dsimp only at hcur
    rw [← Except.ok.inj hcur] at hgrow
    dsimp only at hgrow
    have := step_grow_restart_cv hgrow
    simpa using this

/-! ## The growth invariant: supporting definitions -/

/-- The distance field read at a cell (default `INF` out of range). -/
def dAt (width : ℕ) (dist : List ℤ) (c : ℤ × ℤ) : ℤ := dist.getD (cellIdx width c) INF

/-- How many linear cells carry a non-sentinel distance. -/
def visCount (width height : ℕ) (dist : List ℤ) : ℕ :=
  (List.range (width * height)).countP (fun i => decide (dist.getD i INF ≠ INF))

/-- The number of cells joined to linear cell `i` by an open wall whose
distance is one less than `i`'s — `i`'s tree parents. -/
def parentCount (width height : ℕ) (walls : List ℕ) (dist : List ℤ) (i : ℕ) : ℕ :=
  (List.range (width * height)).countP (fun j =>
    maze_adj width height walls i j && decide (dist.getD j INF + 1 = dist.getD i INF))

theorem visCount_le (width height : ℕ) (dist : List ℤ) :
    visCount width height dist ≤ width * height := by
  unfold visCount
  calc (List.range (width * height)).countP _ ≤ (List.range (width * height)).length :=
        List.countP_le_length _
    _ = width * height := List.length_range _

theorem countP_set_true {p q : ℕ → Bool} {j : ℕ} (hp : p j = false) (hq : q j = true) :
    ∀ l : List ℕ, l.Nodup → j ∈ l → (∀ i ∈ l, i ≠ j → p i = q i) →
      l.countP q = l.countP p + 1 := by
  intro l
  induction l with
  | nil => intro _ h; cases h
  | cons a rest ih =>
    intro hnd hmem hagree
    rw [List.nodup_cons] at hnd
    rcases List.mem_cons.mp hmem with rfl | hmem'
    · rw [List.countP_cons, List.countP_cons, hq, hp]
      have hcong : rest.countP q = rest.countP p := by
        apply List.countP_congr
        intro i hi
        rw [hagree i (List.mem_cons_of_mem _ hi) (fun he => hnd.1 (he ▸ hi))]
      rw [hcong]
      simp
    · have hne : a ≠ j := fun he => hnd.1 (he ▸ hmem')
      have ha : p a = q a := hagree a (List.mem_cons_self a rest) hne
      rw [List.countP_cons, List.countP_cons, ← ha,
        ih hnd.2 hmem' (fun i hi hij => hagree i (List.mem_cons_of_mem _ hi) hij)]
      ring

theorem visCount_set {width height : ℕ} {dist : List ℤ} {j : ℕ} {v : ℤ}
    (hj : j < width * height) (hjl : j < dist.length)
    (hold : dist.getD j INF = INF) (hv : v ≠ INF) :
    visCount width height (dist.set j v) = visCount width height dist + 1 := by
  unfold visCount
  apply countP_set_true (p := fun i => decide (dist.getD i INF ≠ INF))
  · rw [hold]
    simp
  · rw [getD_set_self dist j v INF hjl]
    exact decide_eq_true hv
  · exact List.nodup_range _
  · exact List.mem_range.mpr hj
  · intro i _ hij
    rw [getD_set_ne dist j i v INF (fun he => hij he.symm)]

theorem visCount_congr {width height : ℕ} {dist dist' : List ℤ}
    (h : ∀ i < width * height, dist'.getD i INF = dist.getD i INF) :
    visCount width height dist' = visCount width height dist := by
  unfold visCount
  apply List.countP_congr
  intro i hi
  rw [h i (List.mem_range.mp hi)]

/-- `is_visited` in terms of the `getD` read, as a Bool equation. -/
theorem is_visited_eq {width height : ℕ} {dist : List ℤ} {x y : ℤ}
    (hin : in_bounds width height x y = true) (hlen : dist.length = width * height) :
    is_visited width dist x y = decide (dAt width dist (x, y) ≠ INF) := by
  by_cases h : dAt width dist (x, y) ≠ INF
  · rw [decide_eq_true h]
    exact (is_visited_iff_getD hin hlen).mpr h
  · rw [decide_eq_false h]
    rcases Bool.eq_false_or_eq_true (is_visited width dist x y) with hb | hb
    · first
      | exact hb
      | exact absurd ((is_visited_iff_getD hin hlen).mp hb) h
    · first
      | exact hb
      | exact absurd ((is_visited_iff_getD hin hlen).mp hb) h

theorem mem_nbrs_comm {c c' : ℤ × ℤ} :
    c' ∈ nbrs c.1 c.2 ↔ c ∈ nbrs c'.1 c'.2 := by
  simp only [nbrs, List.mem_cons, List.not_mem_nil, or_false, c_l, c_r, c_t, c_b,
    Prod.ext_iff]
  omega

/-- A cell with a visited neighbour has at most 3 unvisited neighbours. -/
theorem unvisited_count_le_three {width height : ℕ} {dist : List ℤ} {c v : ℤ × ℤ}
    (hv : v ∈ nbrs c.1 c.2) (hvis : is_visited width dist v.1 v.2 = true) :
    unvisited_count width height dist c.1 c.2 ≤ 3 := by
  rw [unvisited_count_eval]
  simp only [nbrs, List.mem_cons, List.not_mem_nil, or_false] at hv
  rcases hv with rfl | rfl | rfl | rfl
  · have hv' : is_visited width dist (c.1 - 1) c.2 = true := hvis
    rw [hv']
    simp only [Bool.not_true, Bool.and_false, Bool.false_eq_true, if_false]
    split_ifs <;> omega
  · have hv' : is_visited width dist (c.1 + 1) c.2 = true := hvis
    rw [hv']
    simp only [Bool.not_true, Bool.and_false, Bool.false_eq_true, if_false]
    split_ifs <;> omega
  · have hv' : is_visited width dist c.1 (c.2 - 1) = true := hvis
    rw [hv']
    simp only [Bool.not_true, Bool.and_false, Bool.false_eq_true, if_false]
    split_ifs <;> omega
  · have hv' : is_visited width dist c.1 (c.2 + 1) = true := hvis
    rw [hv']
    simp only [Bool.not_true, Bool.and_false, Bool.false_eq_true, if_false]
    split_ifs <;> omega

/-- A cell with an in-bounds unvisited neighbour has at least one unvisited
neighbour. -/
theorem one_le_unvisited_count {width height : ℕ} {dist : List ℤ} {c v : ℤ × ℤ}
    (hv : v ∈ nbrs c.1 c.2) (hin : in_bounds width height v.1 v.2 = true)
    (hvis : is_visited width dist v.1 v.2 = false) :
    1 ≤ unvisited_count width height dist c.1 c.2 := by
  rw [unvisited_count_eval]
  simp only [nbrs, List.mem_cons, List.not_mem_nil, or_false] at hv
  rcases hv with rfl | rfl | rfl | rfl
  · have h1 : in_bounds width height (c.1 - 1) c.2 = true := hin
    have h2 : is_visited width dist (c.1 - 1) c.2 = false := hvis
    rw [h1, h2]
    simp only [Bool.not_false, Bool.and_self, eq_self_iff_true, if_true]
    split_ifs <;> omega
  · have h1 : in_bounds width height (c.1 + 1) c.2 = true := hin
    have h2 : is_visited width dist (c.1 + 1) c.2 = false := hvis
    rw [h1, h2]
    simp only [Bool.not_false, Bool.and_self, eq_self_iff_true, if_true]
    split_ifs <;> omega
  · have h1 : in_bounds width height c.1 (c.2 - 1) = true := hin
    have h2 : is_visited width dist c.1 (c.2 - 1) = false := hvis
    rw [h1, h2]
    simp only [Bool.not_false, Bool.and_self, eq_self_iff_true, if_true]
    split_ifs <;> omega
  · have h1 : in_bounds width height c.1 (c.2 + 1) = true := hin
    have h2 : is_visited width dist c.1 (c.2 + 1) = false := hvis
    rw [h1, h2]
    simp only [Bool.not_false, Bool.and_self, eq_self_iff_true, if_true]
    split_ifs <;> omega

/-- `unvisited_count` only depends on the distance field pointwise (on in-grid
cells). -/
theorem unvisited_count_congr {width height : ℕ} {dist dist' : List ℤ}
    (hlen : dist.length = width * height) (hlen' : dist'.length = width * height)
    (hpt : ∀ c : ℤ × ℤ, in_bounds width height c.1 c.2 = true →
      dAt width dist' c = dAt width dist c) (x y : ℤ) :
    unvisited_count width height dist' x y = unvisited_count width height dist x y := by
  have hterm : ∀ a b : ℤ,
      (in_bounds width height a b && !is_visited width dist' a b) =
      (in_bounds width height a b && !is_visited width dist a b) := by
    intro a b
    by_cases hb : in_bounds width height a b = true
    · rw [hb]
      simp only [Bool.true_and]
      rw [is_visited_eq hb hlen', is_visited_eq hb hlen, hpt (a, b) hb]
    · rw [Bool.not_eq_true] at hb
      rw [hb]
      simp only [Bool.false_and]
  rw [unvisited_count_eval, unvisited_count_eval, hterm, hterm, hterm, hterm]

/-- How `unvisited_count` changes when the (previously unvisited, in-grid)
cell `(x, y)` is assigned the non-sentinel distance `d`. -/
theorem unvisited_count_set {width height : ℕ} {dist dist' : List ℤ} {x y d : ℤ}
    (hlen : dist.length = width * height) (hlen' : dist'.length = width * height)
    (hxy : in_bounds width height x y = true)
    (hpt : ∀ c : ℤ × ℤ, in_bounds width height c.1 c.2 = true →
      dAt width dist' c = if c = (x, y) then d else dAt width dist c)
    (hd : d ≠ INF) (hunvis : dAt width dist (x, y) = INF) :
    ∀ c : ℤ × ℤ, in_bounds width height c.1 c.2 = true →
      unvisited_count width height dist c.1 c.2 =
        unvisited_count width height dist' c.1 c.2 +
          (if (x, y) ∈ nbrs c.1 c.2 then 1 else 0) := by
  intro c _
  have h4 : ∀ a b : ℤ,
      (if (in_bounds width height a b && !is_visited width dist a b) = true
        then (1:ℕ) else 0) =
      (if (in_bounds width height a b && !is_visited width dist' a b) = true
        then (1:ℕ) else 0) +
      (if (x, y) = (a, b) then (1:ℕ) else 0) := by
    intro a b
    by_cases he : (x, y) = (a, b)
    · have hea : x = a := congrArg Prod.fst he
      have heb : y = b := congrArg Prod.snd he
      rw [if_pos he, ← hea, ← heb]
      have hv1 : is_visited width dist x y = false := by
        rw [is_visited_eq hxy hlen, hunvis]
        simp
      have hv2 : is_visited width dist' x y = true := by
        rw [is_visited_eq hxy hlen']
        have hh := hpt (x, y) hxy
        rw [if_pos rfl] at hh
        rw [hh]
        exact decide_eq_true hd
      rw [hv1, hv2, hxy]
      simp
    · rw [if_neg he, add_zero]
      by_cases hb : in_bounds width height a b = true
      · have hvv : is_visited width dist' a b = is_visited width dist a b := by
          rw [is_visited_eq hb hlen', is_visited_eq hb hlen, hpt (a, b) hb,
            if_neg (fun hh => he (by rw [hh]))]
        rw [hvv]
      · rw [Bool.not_eq_true] at hb
        rw [hb]
        simp only [Bool.false_and]
  have hindZ := nbr_indicator c.1 c.2 (x, y)
  simp only [c_l, c_r, c_t, c_b] at hindZ
  have hind : (if (x, y) = (c.1 - 1, c.2) then (1:ℕ) else 0) +
      (if (x, y) = (c.1 + 1, c.2) then 1 else 0) +
      (if (x, y) = (c.1, c.2 - 1) then 1 else 0) +
      (if (x, y) = (c.1, c.2 + 1) then 1 else 0) =
      if (x, y) ∈ nbrs c.1 c.2 then 1 else 0 := by exact_mod_cast hindZ
  rw [unvisited_count_eval width height dist c.1 c.2,
    unvisited_count_eval width height dist' c.1 c.2]
  rw [h4 (c.1 - 1) c.2, h4 (c.1 + 1) c.2, h4 c.1 (c.2 - 1), h4 c.1 (c.2 + 1)]
  linarith [hind]

/-- While any cell is unvisited, some visited cell has an unvisited in-bounds
neighbour (walk from a visited cell toward an unvisited one). -/
theorem frontier_exists {width height : ℕ} {dist : List ℤ}
    (hlen : dist.length = width * height) {u : ℤ × ℤ}
    (huin : in_bounds width height u.1 u.2 = true) (hu : dAt width dist u = INF) :
    ∀ m (v : ℤ × ℤ), in_bounds width height v.1 v.2 = true → dAt width dist v ≠ INF →
      ((v.1 - u.1).natAbs + (v.2 - u.2).natAbs) = m →
      ∃ c : ℤ × ℤ, in_bounds width height c.1 c.2 = true ∧ dAt width dist c ≠ INF ∧
        1 ≤ unvisited_count width height dist c.1 c.2 := by
  intro m
  induction m using Nat.strong_induction_on with
  | _ m ih =>
    intro v hvin hv hm
    rcases Nat.eq_zero_or_pos m with rfl | hmpos
    · have : v = u := by
        rw [Prod.ext_iff]
        omega
      rw [this] at hv
      exact absurd hu hv
    by_cases hcnt : 1 ≤ unvisited_count width height dist v.1 v.2
    · exact ⟨v, hvin, hv, hcnt⟩
    -- every in-bounds neighbour of `v` is visited; step one cell toward `u`
    have hallvis : ∀ w : ℤ × ℤ, w ∈ nbrs v.1 v.2 →
        in_bounds width height w.1 w.2 = true → is_visited width dist w.1 w.2 = true := by
      intro w hw hwin
      rcases Bool.eq_false_or_eq_true (is_visited width dist w.1 w.2) with hb | hb
      · first
        | exact hb
        | exact absurd (one_le_unvisited_count hw hwin hb) hcnt
      · first
        | exact hb
        | exact absurd (one_le_unvisited_count hw hwin hb) hcnt
    rcases in_bounds_iff.mp hvin with ⟨hv1, hv2, hv3, hv4⟩
    rcases in_bounds_iff.mp huin with ⟨hu1, hu2, hu3, hu4⟩
    have hstep : ∃ w : ℤ × ℤ, w ∈ nbrs v.1 v.2 ∧
        in_bounds width height w.1 w.2 = true ∧
        (w.1 - u.1).natAbs + (w.2 - u.2).natAbs + 1 = m := by
      by_cases hx : v.1 = u.1
      · have hy : v.2 ≠ u.2 := by
          intro hy
          have : v = u := Prod.ext hx hy
          rw [this] at hv
          exact absurd hu hv
        rcases lt_or_gt_of_ne hy with hlt | hgt
        · refine ⟨(v.1, v.2 + 1), by simp [nbrs, c_b], in_bounds_true (by omega), ?_⟩
          omega
        · refine ⟨(v.1, v.2 - 1), by simp [nbrs, c_t], in_bounds_true (by omega), ?_⟩
          omega
      · rcases lt_or_gt_of_ne hx with hlt | hgt
        · refine ⟨(v.1 + 1, v.2), by simp [nbrs, c_r], in_bounds_true (by omega), ?_⟩
          omega
        · refine ⟨(v.1 - 1, v.2), by simp [nbrs, c_l], in_bounds_true (by omega), ?_⟩
          omega
    obtain ⟨w, hwnb, hwin, hwm⟩ := hstep
    have hwvis := hallvis w hwnb hwin
    have hwd : dAt width dist w ≠ INF := by
      rw [is_visited_eq hwin hlen] at hwvis
      exact of_decide_eq_true hwvis
    exact ih _ (by omega) w hwin hwd rfl

/-! ## Walls, bits and the edges `connect` creates -/

/-- The wall bit cell `a` opens toward the adjacent cell `b` (right, left,
bottom, top). -/
def bitToward (a b : ℤ × ℤ) : ℕ :=
  if a.1 < b.1 then 4 else if b.1 < a.1 then 1
  else if a.2 < b.2 then 8 else if b.2 < a.2 then 2 else 0

theorem or_eq_zero_iff' (a b : ℕ) : a ||| b = 0 ↔ a = 0 ∧ b = 0 := by
  constructor
  · intro h
    constructor <;> {
      apply Nat.eq_of_testBit_eq
      intro k
      have ht := congrArg (fun n => Nat.testBit n k) h
      simp only [Nat.testBit_or, Nat.zero_testBit, Bool.or_eq_false_iff] at ht
      simp [ht.1, ht.2]
    }
  · rintro ⟨rfl, rfl⟩
    rfl

theorem or_and_ne (m a b : ℕ) :
    (m ||| a) &&& b ≠ 0 ↔ (m &&& b ≠ 0 ∨ a &&& b ≠ 0) := by
  rw [Nat.and_distrib_right, ne_eq, or_eq_zero_iff']
  tauto

theorem bit_open_ne {walls : List ℕ} {k b : ℕ} :
    bit_open walls k b = true ↔ wallsAt walls k &&& b ≠ 0 := by
  unfold bit_open
  simp [bne_iff_ne]

/-- How `bit_open` changes when exactly the cells `ic` and `in2` have the bits
`bc` resp. `bn` or-ed into their masks. -/
theorem bit_open_upd {walls w2 : List ℕ} {ic in2 bc bn : ℕ} (hne : ic ≠ in2)
    (h1 : wallsAt w2 ic = wallsAt walls ic ||| bc)
    (h2 : wallsAt w2 in2 = wallsAt walls in2 ||| bn)
    (h3 : ∀ k, k ≠ ic → k ≠ in2 → wallsAt w2 k = wallsAt walls k)
    (k b : ℕ) :
    bit_open w2 k b = true ↔
      (bit_open walls k b = true ∨ (k = ic ∧ bc &&& b ≠ 0) ∨
        (k = in2 ∧ bn &&& b ≠ 0)) := by
  rw [bit_open_ne, bit_open_ne]
  by_cases hk1 : k = ic
  · subst hk1
    rw [h1, or_and_ne]
    constructor
    · rintro (h | h)
      · exact Or.inl h
      · exact Or.inr (Or.inl ⟨rfl, h⟩)
    · rintro (h | ⟨_, h⟩ | ⟨hk, _⟩)
      · exact Or.inl h
      · exact Or.inr h
      · exact absurd hk hne
  · by_cases hk2 : k = in2
    · subst hk2
      rw [h2, or_and_ne]
      constructor
      · rintro (h | h)
        · exact Or.inl h
        · exact Or.inr (Or.inr ⟨rfl, h⟩)
      · rintro (h | ⟨hk, _⟩ | ⟨_, h⟩)
        · exact Or.inl h
        · exact absurd hk (fun he => hne he.symm)
        · exact Or.inr h
    · rw [h3 k hk1 hk2]
      constructor
      · exact Or.inl
      · rintro (h | ⟨hk, _⟩ | ⟨hk, _⟩)
        · exact h
        · exact absurd hk hk1
        · exact absurd hk hk2

theorem maze_adj_iff (width height : ℕ) (walls : List ℕ) (i j : ℕ) :
    maze_adj width height walls i j = true ↔
      (j = i + 1 ∧ edge_right width walls i = true) ∨
      (i = j + 1 ∧ edge_right width walls j = true) ∨
      (j = i + width ∧ edge_down width height walls i = true) ∨
      (i = j + width ∧ edge_down width height walls j = true) := by
  unfold maze_adj
  simp only [Bool.or_eq_true, Bool.and_eq_true, decide_eq_true_eq]
  tauto

theorem edge_right_iff (width : ℕ) (walls : List ℕ) (i : ℕ) :
    edge_right width walls i = true ↔
      i % width + 1 < width ∧ bit_open walls i 4 = true ∧
        bit_open walls (i + 1) 1 = true := by
  unfold edge_right
  simp only [Bool.and_eq_true, decide_eq_true_eq]
  tauto

theorem edge_down_iff (width height : ℕ) (walls : List ℕ) (i : ℕ) :
    edge_down width height walls i = true ↔
      i + width < width * height ∧ bit_open walls i 8 = true ∧
        bit_open walls (i + width) 2 = true := by
  unfold edge_down
  simp only [Bool.and_eq_true, decide_eq_true_eq]
  tauto

theorem cellIdx_eq {width height : ℕ} {c : ℤ × ℤ}
    (hc : in_bounds width height c.1 c.2 = true) :
    cellIdx width c = width * c.2.toNat + c.1.toNat := by
  have h := @cellIdx_cast width height _ hc
  rcases in_bounds_iff.mp hc with ⟨h1, h2, h3, h4⟩
  unfold t at h
  have e2 : ((c.2.toNat : ℕ) : ℤ) = c.2 := Int.toNat_of_nonneg h3
  have e1 : ((c.1.toNat : ℕ) : ℤ) = c.1 := Int.toNat_of_nonneg h1
  have hr : ((width * c.2.toNat + c.1.toNat : ℕ) : ℤ) = (width : ℤ) * c.2 + c.1 := by
    push_cast
    rw [e2, e1]
  have hcast : ((cellIdx width c : ℕ) : ℤ) = ((width * c.2.toNat + c.1.toNat : ℕ) : ℤ) := by
    rw [h, hr]
  exact_mod_cast hcast

theorem cellIdx_mod {width height : ℕ} {c : ℤ × ℤ}
    (hc : in_bounds width height c.1 c.2 = true) :
    cellIdx width c % width = c.1.toNat := by
  rcases in_bounds_iff.mp hc with ⟨h1, h2, h3, h4⟩
  rw [@cellIdx_eq width height _ hc, Nat.mul_add_mod]
  apply Nat.mod_eq_of_lt
  omega

theorem cellIdx_right {width height : ℕ} {c : ℤ × ℤ}
    (hc : in_bounds width height c.1 c.2 = true)
    (hr : in_bounds width height (c.1 + 1) c.2 = true) :
    cellIdx width (c.1 + 1, c.2) = cellIdx width c + 1 := by
  have h1 := @cellIdx_cast width height _ hc
  have h2 := @cellIdx_cast width height (c.1 + 1, c.2) hr
  have ht : t width (c.1 + 1, c.2).1 (c.1 + 1, c.2).2 = t width c.1 c.2 + 1 := by
    unfold t
    ring
  omega

theorem cellIdx_down {width height : ℕ} {c : ℤ × ℤ}
    (hc : in_bounds width height c.1 c.2 = true)
    (hd : in_bounds width height c.1 (c.2 + 1) = true) :
    cellIdx width (c.1, c.2 + 1) = cellIdx width c + width := by
  have h1 := @cellIdx_cast width height _ hc
  have h2 := @cellIdx_cast width height (c.1, c.2 + 1) hd
  have ht : t width (c.1, c.2 + 1).1 (c.1, c.2 + 1).2 = t width c.1 c.2 + width := by
    unfold t
    ring
  omega

/-- `connect` opens the facing bits of the two adjacent cells and changes
nothing else. -/
theorem connect_spec {width height : ℕ} {walls : List ℕ} {c nb : ℤ × ℤ}
    (hlen : walls.length = width * height)
    (hc : in_bounds width height c.1 c.2 = true)
    (hnb : in_bounds width height nb.1 nb.2 = true)
    (hadj : nb ∈ nbrs c.1 c.2) :
    ∃ w2, connect width walls c.1 c.2 nb.1 nb.2 = some w2 ∧
      w2.length = width * height ∧
      wallsAt w2 (cellIdx width c) = wallsAt walls (cellIdx width c) ||| bitToward c nb ∧
      wallsAt w2 (cellIdx width nb) = wallsAt walls (cellIdx width nb) ||| bitToward nb c ∧
      ∀ k, k ≠ cellIdx width c → k ≠ cellIdx width nb → wallsAt w2 k = wallsAt walls k := by
  have hcne : c ≠ nb := by
    simp only [nbrs, List.mem_cons, List.not_mem_nil, or_false, c_l, c_r, c_t, c_b] at hadj
    rcases hadj with rfl | rfl | rfl | rfl <;>
      (intro he; rw [Prod.ext_iff] at he; omega)
  have hidx : cellIdx width c ≠ cellIdx width nb := by
    intro he
    exact hcne (cellIdx_inj hc hnb he)
  have hw1len : ∀ (i : ℕ) (v : ℕ), (walls.set i v).length = width * height := by
    intro i v
    rw [List.length_set]
    exact hlen
  have hstep : ∀ (b1 b2 : ℕ),
      (do
        let w1 ← open_wall width walls c.1 c.2 b1
        open_wall width w1 nb.1 nb.2 b2) =
        some ((walls.set (cellIdx width c)
            (walls.getD (cellIdx width c) 0 ||| b1)).set (cellIdx width nb)
          ((walls.set (cellIdx width c)
            (walls.getD (cellIdx width c) 0 ||| b1)).getD (cellIdx width nb) 0 ||| b2)) := by
    intro b1 b2
    rw [open_wall_spec b1 hlen hc]
    simp only [Option.bind_eq_bind, Option.some_bind]
    rw [open_wall_spec b2 (hw1len _ _) hnb]
  have hvals : ∀ (b1 b2 : ℕ),
      (let w2 := (walls.set (cellIdx width c)
            (walls.getD (cellIdx width c) 0 ||| b1)).set (cellIdx width nb)
          ((walls.set (cellIdx width c)
            (walls.getD (cellIdx width c) 0 ||| b1)).getD (cellIdx width nb) 0 ||| b2)
       w2.length = width * height ∧
       wallsAt w2 (cellIdx width c) = wallsAt walls (cellIdx width c) ||| b1 ∧
       wallsAt w2 (cellIdx width nb) = wallsAt walls (cellIdx width nb) ||| b2 ∧
       ∀ k, k ≠ cellIdx width c → k ≠ cellIdx width nb →
         wallsAt w2 k = wallsAt walls k) := by
    intro b1 b2
    refine ⟨by rw [List.length_set, List.length_set]; exact hlen, ?_, ?_, ?_⟩
    · unfold wallsAt
      rw [getD_set_ne _ _ _ _ _ (fun he => hidx he.symm),
        getD_set_self _ _ _ _ (by rw [hlen]; exact cellIdx_lt hc)]
    · unfold wallsAt
      rw [getD_set_self _ _ _ _ (by rw [List.length_set, hlen]; exact cellIdx_lt hnb),
        getD_set_ne _ _ _ _ _ hidx]
    · intro k hk1 hk2
      unfold wallsAt
      rw [getD_set_ne _ _ _ _ _ (fun he => hk2 he.symm),
        getD_set_ne _ _ _ _ _ (fun he => hk1 he.symm)]
  simp only [nbrs, List.mem_cons, List.not_mem_nil, or_false, c_l, c_r, c_t, c_b] at hadj
  unfold connect
  rcases hadj with rfl | rfl | rfl | rfl
  · -- nb = (c.1 - 1, c.2): open_left on c, open_right on nb
    dsimp only
    rw [if_neg (by omega), if_pos (by omega)]
    unfold open_left open_right
    rw [hstep 1 4]
    have hbt1 : bitToward c (c.1 - 1, c.2) = 1 := by
      unfold bitToward
      rw [if_neg (by dsimp only; omega), if_pos (by dsimp only; omega)]
    have hbt2 : bitToward (c.1 - 1, c.2) c = 4 := by
      unfold bitToward
      rw [if_pos (by dsimp only; omega)]
    rw [hbt1, hbt2]
    exact ⟨_, rfl, hvals 1 4⟩
  · -- nb = (c.1 + 1, c.2): open_right on c, open_left on nb
    dsimp only
    rw [if_pos (by omega)]
    unfold open_right open_left
    rw [hstep 4 1]
    have hbt1 : bitToward c (c.1 + 1, c.2) = 4 := by
      unfold bitToward
      rw [if_pos (by dsimp only; omega)]
    have hbt2 : bitToward (c.1 + 1, c.2) c = 1 := by
      unfold bitToward
      rw [if_neg (by dsimp only; omega), if_pos (by dsimp only; omega)]
    rw [hbt1, hbt2]
    exact ⟨_, rfl, hvals 4 1⟩
  · -- nb = (c.1, c.2 - 1): open_top on c, open_bottom on nb
    dsimp only
    rw [if_neg (by omega), if_neg (by omega), if_neg (by omega), if_pos (by omega)]
    unfold open_top open_bottom
    rw [hstep 2 8]
    have hbt1 : bitToward c (c.1, c.2 - 1) = 2 := by
      unfold bitToward
      rw [if_neg (by dsimp only; omega), if_neg (by dsimp only; omega),
        if_neg (by dsimp only; omega), if_pos (by dsimp only; omega)]
    have hbt2 : bitToward (c.1, c.2 - 1) c = 8 := by
      unfold bitToward
      rw [if_neg (by dsimp only; omega), if_neg (by dsimp only; omega),
        if_pos (by dsimp only; omega)]
    rw [hbt1, hbt2]
    exact ⟨_, rfl, hvals 2 8⟩
  · -- nb = (c.1, c.2 + 1): open_bottom on c, open_top on nb
    dsimp only
    rw [if_neg (by omega), if_neg (by omega), if_pos (by omega)]
    unfold open_bottom open_top
    rw [hstep 8 2]
    have hbt1 : bitToward c (c.1, c.2 + 1) = 8 := by
      unfold bitToward
      rw [if_neg (by dsimp only; omega), if_neg (by dsimp only; omega),
        if_pos (by dsimp only; omega)]
    have hbt2 : bitToward (c.1, c.2 + 1) c = 2 := by
      unfold bitToward
      rw [if_neg (by dsimp only; omega), if_neg (by dsimp only; omega),
        if_neg (by dsimp only; omega), if_pos (by dsimp only; omega)]
    rw [hbt1, hbt2]
    exact ⟨_, rfl, hvals 8 2⟩

theorem bit_open_upd_left {walls w2 : List ℕ} {ic in2 bc bn : ℕ} (hne : ic ≠ in2)
    (h1 : wallsAt w2 ic = wallsAt walls ic ||| bc)
    (h2 : wallsAt w2 in2 = wallsAt walls in2 ||| bn)
    (h3 : ∀ k, k ≠ ic → k ≠ in2 → wallsAt w2 k = wallsAt walls k)
    {b : ℕ} (hbc : bc &&& b ≠ 0) (hbn : bn &&& b = 0) (k : ℕ) :
    bit_open w2 k b = true ↔ (bit_open walls k b = true ∨ k = ic) := by
  rw [bit_open_upd hne h1 h2 h3 k b]
  constructor
  · rintro (h | ⟨hk, _⟩ | ⟨_, hb⟩)
    · exact Or.inl h
    · exact Or.inr hk
    · exact absurd hbn hb
  · rintro (h | rfl)
    · exact Or.inl h
    · exact Or.inr (Or.inl ⟨rfl, hbc⟩)

theorem bit_open_upd_right {walls w2 : List ℕ} {ic in2 bc bn : ℕ} (hne : ic ≠ in2)
    (h1 : wallsAt w2 ic = wallsAt walls ic ||| bc)
    (h2 : wallsAt w2 in2 = wallsAt walls in2 ||| bn)
    (h3 : ∀ k, k ≠ ic → k ≠ in2 → wallsAt w2 k = wallsAt walls k)
    {b : ℕ} (hbc : bc &&& b = 0) (hbn : bn &&& b ≠ 0) (k : ℕ) :
    bit_open w2 k b = true ↔ (bit_open walls k b = true ∨ k = in2) := by
  rw [bit_open_upd hne h1 h2 h3 k b]
  constructor
  · rintro (h | ⟨_, hb⟩ | ⟨hk, _⟩)
    · exact Or.inl h
    · exact absurd hbc hb
    · exact Or.inr hk
  · rintro (h | rfl)
    · exact Or.inl h
    · exact Or.inr (Or.inr ⟨rfl, hbn⟩)

theorem bit_open_upd_miss {walls w2 : List ℕ} {ic in2 bc bn : ℕ} (hne : ic ≠ in2)
    (h1 : wallsAt w2 ic = wallsAt walls ic ||| bc)
    (h2 : wallsAt w2 in2 = wallsAt walls in2 ||| bn)
    (h3 : ∀ k, k ≠ ic → k ≠ in2 → wallsAt w2 k = wallsAt walls k)
    {b : ℕ} (hbc : bc &&& b = 0) (hbn : bn &&& b = 0) (k : ℕ) :
    bit_open w2 k b = true ↔ bit_open walls k b = true := by
  rw [bit_open_upd hne h1 h2 h3 k b]
  constructor
  · rintro (h | ⟨_, hb⟩ | ⟨_, hb⟩)
    · exact h
    · exact absurd hbc hb
    · exact absurd hbn hb
  · exact Or.inl

theorem edge_right_upd {width : ℕ} {walls w2 : List ℕ} {L R : ℕ}
    (hb4 : ∀ k, bit_open w2 k 4 = true ↔ (bit_open walls k 4 = true ∨ k = L))
    (hb1 : ∀ k, bit_open w2 k 1 = true ↔ (bit_open walls k 1 = true ∨ k = R))
    (hLR : R = L + 1) (hgL : L % width + 1 < width) (i : ℕ) :
    edge_right width w2 i = true ↔ (edge_right width walls i = true ∨ i = L) := by
  rw [edge_right_iff, edge_right_iff, hb4 i, hb1 (i + 1)]
  constructor
  · rintro ⟨hg, h4 | rfl, h1 | hR⟩
    · exact Or.inl ⟨hg, h4, h1⟩
    · exact Or.inr (by omega)
    · exact Or.inr rfl
    · exact Or.inr rfl
  · rintro (⟨hg, h4, h1⟩ | rfl)
    · exact ⟨hg, Or.inl h4, Or.inl h1⟩
    · exact ⟨hgL, Or.inr rfl, Or.inr (by omega)⟩

theorem edge_right_congr {width : ℕ} {walls w2 : List ℕ}
    (hb4 : ∀ k, bit_open w2 k 4 = true ↔ bit_open walls k 4 = true)
    (hb1 : ∀ k, bit_open w2 k 1 = true ↔ bit_open walls k 1 = true) (i : ℕ) :
    edge_right width w2 i = true ↔ edge_right width walls i = true := by
  rw [edge_right_iff, edge_right_iff, hb4 i, hb1 (i + 1)]

theorem edge_down_upd {width height : ℕ} {walls w2 : List ℕ} {L R : ℕ}
    (hb8 : ∀ k, bit_open w2 k 8 = true ↔ (bit_open walls k 8 = true ∨ k = L))
    (hb2 : ∀ k, bit_open w2 k 2 = true ↔ (bit_open walls k 2 = true ∨ k = R))
    (hLR : R = L + width) (hgL : L + width < width * height) (i : ℕ) :
    edge_down width height w2 i = true ↔
      (edge_down width height walls i = true ∨ i = L) := by
  rw [edge_down_iff, edge_down_iff, hb8 i, hb2 (i + width)]
  constructor
  · rintro ⟨hg, h8 | rfl, h2 | hR⟩
    · exact Or.inl ⟨hg, h8, h2⟩
    · exact Or.inr (by omega)
    · exact Or.inr rfl
    · exact Or.inr rfl
  · rintro (⟨hg, h8, h2⟩ | rfl)
    · exact ⟨hg, Or.inl h8, Or.inl h2⟩
    · exact ⟨hgL, Or.inr rfl, Or.inr (by omega)⟩

theorem edge_down_congr {width height : ℕ} {walls w2 : List ℕ}
    (hb8 : ∀ k, bit_open w2 k 8 = true ↔ bit_open walls k 8 = true)
    (hb2 : ∀ k, bit_open w2 k 2 = true ↔ bit_open walls k 2 = true) (i : ℕ) :
    edge_down width height w2 i = true ↔ edge_down width height walls i = true := by
  rw [edge_down_iff, edge_down_iff, hb8 i, hb2 (i + width)]

theorem maze_adj_upd_horiz {width height : ℕ} {walls w2 : List ℕ} {L : ℕ}
    (hER : ∀ i, edge_right width w2 i = true ↔
      (edge_right width walls i = true ∨ i = L))
    (hED : ∀ i, edge_down width height w2 i = true ↔
      edge_down width height walls i = true) (i j : ℕ) :
    maze_adj width height w2 i j = true ↔
      (maze_adj width height walls i j = true ∨
        (i = L ∧ j = L + 1) ∨ (i = L + 1 ∧ j = L)) := by
  rw [maze_adj_iff, maze_adj_iff]
  constructor
  · rintro (⟨hj, her⟩ | ⟨hi, her⟩ | ⟨hj, hed⟩ | ⟨hi, hed⟩)
    · rcases (hER i).mp her with h | rfl
      · exact Or.inl (Or.inl ⟨hj, h⟩)
      · exact Or.inr (Or.inl ⟨rfl, hj⟩)
    · rcases (hER j).mp her with h | rfl
      · exact Or.inl (Or.inr (Or.inl ⟨hi, h⟩))
      · exact Or.inr (Or.inr ⟨hi, rfl⟩)
    · exact Or.inl (Or.inr (Or.inr (Or.inl ⟨hj, (hED i).mp hed⟩)))
    · exact Or.inl (Or.inr (Or.inr (Or.inr ⟨hi, (hED j).mp hed⟩)))
  · rintro (h | ⟨hi, hj⟩ | ⟨hi, hj⟩)
    · rcases h with ⟨hj, her⟩ | ⟨hi, her⟩ | ⟨hj, hed⟩ | ⟨hi, hed⟩
      · exact Or.inl ⟨hj, (hER i).mpr (Or.inl her)⟩
      · exact Or.inr (Or.inl ⟨hi, (hER j).mpr (Or.inl her)⟩)
      · exact Or.inr (Or.inr (Or.inl ⟨hj, (hED i).mpr hed⟩))
      · exact Or.inr (Or.inr (Or.inr ⟨hi, (hED j).mpr hed⟩))
    · exact Or.inl ⟨by omega, (hER i).mpr (Or.inr hi)⟩
    · exact Or.inr (Or.inl ⟨by omega, (hER j).mpr (Or.inr hj)⟩)

theorem maze_adj_upd_vert {width height : ℕ} {walls w2 : List ℕ} {L : ℕ}
    (hER : ∀ i, edge_right width w2 i = true ↔ edge_right width walls i = true)
    (hED : ∀ i, edge_down width height w2 i = true ↔
      (edge_down width height walls i = true ∨ i = L)) (i j : ℕ) :
    maze_adj width height w2 i j = true ↔
      (maze_adj width height walls i j = true ∨
        (i = L ∧ j = L + width) ∨ (i = L + width ∧ j = L)) := by
  rw [maze_adj_iff, maze_adj_iff]
  constructor
  · rintro (⟨hj, her⟩ | ⟨hi, her⟩ | ⟨hj, hed⟩ | ⟨hi, hed⟩)
    · exact Or.inl (Or.inl ⟨hj, (hER i).mp her⟩)
    · exact Or.inl (Or.inr (Or.inl ⟨hi, (hER j).mp her⟩))
    · rcases (hED i).mp hed with h | rfl
      · exact Or.inl (Or.inr (Or.inr (Or.inl ⟨hj, h⟩)))
      · exact Or.inr (Or.inl ⟨rfl, hj⟩)
    · rcases (hED j).mp hed with h | rfl
      · exact Or.inl (Or.inr (Or.inr (Or.inr ⟨hi, h⟩)))
      · exact Or.inr (Or.inr ⟨hi, rfl⟩)
  · rintro (h | ⟨hi, hj⟩ | ⟨hi, hj⟩)
    · rcases h with ⟨hj, her⟩ | ⟨hi, her⟩ | ⟨hj, hed⟩ | ⟨hi, hed⟩
      · exact Or.inl ⟨hj, (hER i).mpr her⟩
      · exact Or.inr (Or.inl ⟨hi, (hER j).mpr her⟩)
      · exact Or.inr (Or.inr (Or.inl ⟨hj, (hED i).mpr (Or.inl hed)⟩))
      · exact Or.inr (Or.inr (Or.inr ⟨hi, (hED j).mpr (Or.inl hed)⟩))
    · exact Or.inr (Or.inr (Or.inl ⟨by omega, (hED i).mpr (Or.inr hi)⟩))
    · exact Or.inr (Or.inr (Or.inr ⟨by omega, (hED j).mpr (Or.inr hj)⟩))

/-- After `connect` joins the adjacent in-grid cells `c` and `nb`, the open
interior walls are exactly the old ones plus the single new edge `c – nb`. -/
theorem maze_adj_update {width height : ℕ} {walls w2 : List ℕ} {c nb : ℤ × ℤ}
    (hc : in_bounds width height c.1 c.2 = true)
    (hnb : in_bounds width height nb.1 nb.2 = true)
    (hadj : nb ∈ nbrs c.1 c.2)
    (h1 : wallsAt w2 (cellIdx width c) =
      wallsAt walls (cellIdx width c) ||| bitToward c nb)
    (h2 : wallsAt w2 (cellIdx width nb) =
      wallsAt walls (cellIdx width nb) ||| bitToward nb c)
    (h3 : ∀ k, k ≠ cellIdx width c → k ≠ cellIdx width nb →
      wallsAt w2 k = wallsAt walls k) (i j : ℕ) :
    maze_adj width height w2 i j = true ↔
      (maze_adj width height walls i j = true ∨
        (i = cellIdx width c ∧ j = cellIdx width nb) ∨
        (i = cellIdx width nb ∧ j = cellIdx width c)) := by
  have hcne : c ≠ nb := by
    simp only [nbrs, List.mem_cons, List.not_mem_nil, or_false, c_l, c_r, c_t, c_b]
      at hadj
    rcases hadj with rfl | rfl | rfl | rfl <;>
      (intro he; rw [Prod.ext_iff] at he; omega)
  have hidx : cellIdx width c ≠ cellIdx width nb := fun he =>
    hcne (cellIdx_inj hc hnb he)
  have ec := @cellIdx_cast width height _ hc
  have en := @cellIdx_cast width height _ hnb
  rcases in_bounds_iff.mp hc with ⟨hc1, hc2, hc3, hc4⟩
  rcases in_bounds_iff.mp hnb with ⟨hn1, hn2, hn3, hn4⟩
  simp only [nbrs, List.mem_cons, List.not_mem_nil, or_false, c_l, c_r, c_t, c_b]
    at hadj
  rcases hadj with rfl | rfl | rfl | rfl
  · -- nb = (c.1 - 1, c.2): horizontal, left cell nb carries bit 4, c bit 1
    have hbt1 : bitToward c (c.1 - 1, c.2) = 1 := by
      unfold bitToward
      rw [if_neg (by dsimp only; omega), if_pos (by dsimp only; omega)]
    have hbt2 : bitToward (c.1 - 1, c.2) c = 4 := by
      unfold bitToward
      rw [if_pos (by dsimp only; omega)]
    rw [hbt1] at h1
    rw [hbt2] at h2
    have ht : t width (c.1 - 1, c.2).1 (c.1 - 1, c.2).2 = t width c.1 c.2 - 1 := by
      unfold t
      dsimp only
      ring
    have hrel : cellIdx width c = cellIdx width (c.1 - 1, c.2) + 1 := by omega
    have hmod := @cellIdx_mod width height _ hnb
    have hg : cellIdx width (c.1 - 1, c.2) % width + 1 < width := by
      rw [hmod]
      dsimp only at hn1 hn2 ⊢
      omega
    have hER := edge_right_upd
      (bit_open_upd_right hidx h1 h2 h3 (by decide) (by decide))
      (bit_open_upd_left hidx h1 h2 h3 (by decide) (by decide))
      hrel hg
    have hED := @edge_down_congr width height walls w2
      (bit_open_upd_miss hidx h1 h2 h3 (by decide) (by decide))
      (bit_open_upd_miss hidx h1 h2 h3 (by decide) (by decide))
    have h := maze_adj_upd_horiz hER hED i j
    rw [← hrel] at h
    rw [h]
    constructor
    · rintro (h' | h' | h')
      · exact Or.inl h'
      · exact Or.inr (Or.inr h')
      · exact Or.inr (Or.inl h')
    · rintro (h' | h' | h')
      · exact Or.inl h'
      · exact Or.inr (Or.inr h')
      · exact Or.inr (Or.inl h')
  · -- nb = (c.1 + 1, c.2): horizontal, c carries bit 4, nb bit 1
    have hbt1 : bitToward c (c.1 + 1, c.2) = 4 := by
      unfold bitToward
      rw [if_pos (by dsimp only; omega)]
    have hbt2 : bitToward (c.1 + 1, c.2) c = 1 := by
      unfold bitToward
      rw [if_neg (by dsimp only; omega), if_pos (by dsimp only; omega)]
    rw [hbt1] at h1
    rw [hbt2] at h2
    have ht : t width (c.1 + 1, c.2).1 (c.1 + 1, c.2).2 = t width c.1 c.2 + 1 := by
      unfold t
      dsimp only
      ring
    have hrel : cellIdx width (c.1 + 1, c.2) = cellIdx width c + 1 := by omega
    have hmod := @cellIdx_mod width height _ hc
    have hg : cellIdx width c % width + 1 < width := by
      rw [hmod]
      dsimp only at hn2 ⊢
      omega
    have hER := edge_right_upd
      (bit_open_upd_left hidx h1 h2 h3 (by decide) (by decide))
      (bit_open_upd_right hidx h1 h2 h3 (by decide) (by decide))
      hrel hg
    have hED := @edge_down_congr width height walls w2
      (bit_open_upd_miss hidx h1 h2 h3 (by decide) (by decide))
      (bit_open_upd_miss hidx h1 h2 h3 (by decide) (by decide))
    have h := maze_adj_upd_horiz hER hED i j
    rw [← hrel] at h
    rw [h]
  · -- nb = (c.1, c.2 - 1): vertical, upper cell nb carries bit 8, c bit 2
    have hbt1 : bitToward c (c.1, c.2 - 1) = 2 := by
      unfold bitToward
      rw [if_neg (by dsimp only; omega), if_neg (by dsimp only; omega),
        if_neg (by dsimp only; omega), if_pos (by dsimp only; omega)]
    have hbt2 : bitToward (c.1, c.2 - 1) c = 8 := by
      unfold bitToward
      rw [if_neg (by dsimp only; omega), if_neg (by dsimp only; omega),
        if_pos (by dsimp only; omega)]
    rw [hbt1] at h1
    rw [hbt2] at h2
    have ht : t width (c.1, c.2 - 1).1 (c.1, c.2 - 1).2 = t width c.1 c.2 - width := by
      unfold t
      dsimp only
      ring
    have hrel : cellIdx width c = cellIdx width (c.1, c.2 - 1) + width := by omega
    have hg : cellIdx width (c.1, c.2 - 1) + width < width * height := by
      have := @cellIdx_lt width height _ hc
      omega
    have hER := @edge_right_congr width walls w2
      (bit_open_upd_miss hidx h1 h2 h3 (by decide) (by decide))
      (bit_open_upd_miss hidx h1 h2 h3 (by decide) (by decide))
    have hED := edge_down_upd
      (bit_open_upd_right hidx h1 h2 h3 (by decide) (by decide))
      (bit_open_upd_left hidx h1 h2 h3 (by decide) (by decide))
      hrel hg
    have h := maze_adj_upd_vert hER hED i j
    rw [← hrel] at h
    rw [h]
    constructor
    · rintro (h' | h' | h')
      · exact Or.inl h'
      · exact Or.inr (Or.inr h')
      · exact Or.inr (Or.inl h')
    · rintro (h' | h' | h')
      · exact Or.inl h'
      · exact Or.inr (Or.inr h')
      · exact Or.inr (Or.inl h')
  · -- nb = (c.1, c.2 + 1): vertical, c carries bit 8, nb bit 2
    have hbt1 : bitToward c (c.1, c.2 + 1) = 8 := by
      unfold bitToward
      rw [if_neg (by dsimp only; omega), if_neg (by dsimp only; omega),
        if_pos (by dsimp only; omega)]
    have hbt2 : bitToward (c.1, c.2 + 1) c = 2 := by
      unfold bitToward
      rw [if_neg (by dsimp only; omega), if_neg (by dsimp only; omega),
        if_neg (by dsimp only; omega), if_pos (by dsimp only; omega)]
    rw [hbt1] at h1
    rw [hbt2] at h2
    have ht : t width (c.1, c.2 + 1).1 (c.1, c.2 + 1).2 = t width c.1 c.2 + width := by
      unfold t
      dsimp only
      ring
    have hrel : cellIdx width (c.1, c.2 + 1) = cellIdx width c + width := by omega
    have hg : cellIdx width c + width < width * height := by
      have := @cellIdx_lt width height _ hnb
      omega
    have hER := @edge_right_congr width walls w2
      (bit_open_upd_miss hidx h1 h2 h3 (by decide) (by decide))
      (bit_open_upd_miss hidx h1 h2 h3 (by decide) (by decide))
    have hED := edge_down_upd
      (bit_open_upd_left hidx h1 h2 h3 (by decide) (by decide))
      (bit_open_upd_right hidx h1 h2 h3 (by decide) (by decide))
      hrel hg
    have h := maze_adj_upd_vert hER hED i j
    rw [← hrel] at h
    rw [h]

theorem bit_open_lt {walls : List ℕ} {k b : ℕ} (h : bit_open walls k b = true) :
    k < walls.length := by
  by_contra hk
  rw [bit_open_ne] at h
  unfold wallsAt at h
  rw [List.getD_eq_default _ _ (by omega)] at h
  exact h (by simp)

theorem maze_adj_lt {width height : ℕ} {walls : List ℕ} {i j : ℕ}
    (h : maze_adj width height walls i j = true) :
    i < walls.length ∧ j < walls.length := by
  rw [maze_adj_iff] at h
  rcases h with ⟨rfl, h⟩ | ⟨rfl, h⟩ | ⟨rfl, h⟩ | ⟨rfl, h⟩
  · rw [edge_right_iff] at h
    exact ⟨bit_open_lt h.2.1, bit_open_lt h.2.2⟩
  · rw [edge_right_iff] at h
    exact ⟨bit_open_lt h.2.2, bit_open_lt h.2.1⟩
  · rw [edge_down_iff] at h
    exact ⟨bit_open_lt h.2.1, bit_open_lt h.2.2⟩
  · rw [edge_down_iff] at h
    exact ⟨bit_open_lt h.2.2, bit_open_lt h.2.1⟩

/-- A cell with an all-closed mask has no open-wall edges. -/
theorem maze_adj_zero {width height : ℕ} {walls : List ℕ} {k : ℕ}
    (hz : wallsAt walls k = 0) (i j : ℕ) (hk : i = k ∨ j = k) :
    maze_adj width height walls i j = false := by
  have hb : ∀ b, bit_open walls k b = false := by
    intro b
    unfold bit_open
    rw [hz]
    simp
  rcases Bool.eq_false_or_eq_true (maze_adj width height walls i j) with h | h
  swap
  · exact h
  exfalso
  rw [maze_adj_iff] at h
  rcases hk with rfl | rfl
  · rcases h with ⟨he, h⟩ | ⟨he, h⟩ | ⟨he, h⟩ | ⟨he, h⟩
    · rw [edge_right_iff] at h
      have h1 := h.2.1
      rw [hb 4] at h1
      exact Bool.noConfusion h1
    · rw [edge_right_iff] at h
      have h1 := h.2.2
      rw [← he, hb 1] at h1
      exact Bool.noConfusion h1
    · rw [edge_down_iff] at h
      have h1 := h.2.1
      rw [hb 8] at h1
      exact Bool.noConfusion h1
    · rw [edge_down_iff] at h
      have h1 := h.2.2
      rw [← he, hb 2] at h1
      exact Bool.noConfusion h1
  · rcases h with ⟨he, h⟩ | ⟨he, h⟩ | ⟨he, h⟩ | ⟨he, h⟩
    · rw [edge_right_iff] at h
      have h1 := h.2.2
      rw [← he, hb 1] at h1
      exact Bool.noConfusion h1
    · rw [edge_right_iff] at h
      have h1 := h.2.1
      rw [hb 4] at h1
      exact Bool.noConfusion h1
    · rw [edge_down_iff] at h
      have h1 := h.2.2
      rw [← he, hb 2] at h1
      exact Bool.noConfusion h1
    · rw [edge_down_iff] at h
      have h1 := h.2.1
      rw [hb 8] at h1
      exact Bool.noConfusion h1

theorem countP_eq_one {p : ℕ → Bool} {j : ℕ} :
    ∀ l : List ℕ, l.Nodup → j ∈ l → (∀ k ∈ l, p k = true ↔ k = j) →
      l.countP p = 1 := by
  intro l
  induction l with
  | nil => intro _ h; cases h
  | cons a rest ih =>
    intro hnd hmem hiff
    rw [List.nodup_cons] at hnd
    rw [List.countP_cons]
    rcases List.mem_cons.mp hmem with heq | hmem'
    · rw [(hiff a (List.mem_cons_self a rest)).mpr heq.symm]
      have hz : rest.countP p = 0 := by
        rw [List.countP_eq_zero]
        intro k hk hp
        have hkj : k = j := (hiff k (List.mem_cons_of_mem _ hk)).mp hp
        rw [hkj, heq] at hk
        exact hnd.1 hk
      rw [hz]
      simp
    · have ha : p a = false := by
        by_cases h : p a = true
        · exact absurd ((hiff a (List.mem_cons_self a rest)).mp h)
            (fun he => hnd.1 (he ▸ hmem'))
        · rwa [Bool.not_eq_true] at h
      rw [ha, ih hnd.2 hmem' (fun k hk => hiff k (List.mem_cons_of_mem _ hk))]
      simp

/-- Every visited cell that still has an unvisited neighbour is represented
on the restart heap. -/
def heapCover (width height : ℕ) (s : St) : Prop :=
  ∀ c : ℤ × ℤ, in_bounds width height c.1 c.2 = true →
    dAt width s.dist c ≠ INF → 1 ≤ unvisited_count width height s.dist c.1 c.2 →
    ∃ e ∈ s.heap, (e.2.1, e.2.2) = c

/-- Heap cover with one possible exception `x` (the cell `fallback_cell` just
popped: its last unvisited neighbour is consumed by the forced branch). -/
def heapCoverEx (width height : ℕ) (s : St) (x : ℤ × ℤ) : Prop :=
  ∀ c : ℤ × ℤ, c ≠ x → in_bounds width height c.1 c.2 = true →
    dAt width s.dist c ≠ INF → 1 ≤ unvisited_count width height s.dist c.1 c.2 →
    ∃ e ∈ s.heap, (e.2.1, e.2.2) = c

/-- The loop invariant of maze growth, at the boundary of every iteration of
`while cells_visited < cell_count`. -/
structure Inv (width height : ℕ) (start : ℤ × ℤ) (s : St) : Prop where
  len_dist : s.dist.length = width * height
  len_walls : s.walls.length = width * height
  len_rem : s.rem.length = width * height
  cv : s.cells_visited = visCount width height s.dist
  start_in : in_bounds width height start.1 start.2 = true
  start_bord : is_border width height start.1 start.2 = true
  start_dist : dAt width s.dist start = 0
  dist_bound : ∀ c : ℤ × ℤ, in_bounds width height c.1 c.2 = true →
    dAt width s.dist c ≠ INF → 0 ≤ dAt width s.dist c ∧
      dAt width s.dist c < (s.cells_visited : ℤ)
  start_uniq : ∀ c : ℤ × ℤ, in_bounds width height c.1 c.2 = true →
    dAt width s.dist c = 0 → c = start
  rem_eq : ∀ c : ℤ × ℤ, in_bounds width height c.1 c.2 = true →
    s.rem.getD (cellIdx width c) 0 = (unvisited_count width height s.dist c.1 c.2 : ℤ)
  q_vis : ∀ c ∈ s.q, in_bounds width height c.1 c.2 = true ∧ dAt width s.dist c ≠ INF
  heap_vis : ∀ e ∈ s.heap, in_bounds width height e.2.1 e.2.2 = true ∧
    dAt width s.dist (e.2.1, e.2.2) = -e.1 ∧ dAt width s.dist (e.2.1, e.2.2) ≠ INF
  heap_sorted : List.Pairwise keyLe s.heap
  nb3 : ∀ c : ℤ × ℤ, in_bounds width height c.1 c.2 = true →
    dAt width s.dist c ≠ INF → unvisited_count width height s.dist c.1 c.2 ≤ 3
  walls_zero : ∀ c : ℤ × ℤ, in_bounds width height c.1 c.2 = true →
    dAt width s.dist c = INF → wallsAt s.walls (cellIdx width c) = 0
  edge_dist : ∀ i j : ℕ, maze_adj width height s.walls i j = true →
    s.dist.getD i INF ≠ INF ∧ s.dist.getD j INF ≠ INF ∧
      (s.dist.getD j INF = s.dist.getD i INF + 1 ∨
        s.dist.getD i INF = s.dist.getD j INF + 1)
  parent : ∀ i, i < width * height → s.dist.getD i INF ≠ INF →
    parentCount width height s.walls s.dist i =
      if i = cellIdx width start then 0 else 1

theorem visCount_lt_of_unvisited {width height : ℕ} {dist : List ℤ} {c : ℤ × ℤ}
    (hin : in_bounds width height c.1 c.2 = true) (hc : dAt width dist c = INF) :
    visCount width height dist < width * height := by
  rcases eq_or_lt_of_le (visCount_le width height dist) with heq | h
  · exfalso
    unfold visCount at heq
    have hall := List.countP_eq_length.mp (by rw [List.length_range]; exact heq)
    have := hall (cellIdx width c) (List.mem_range.mpr (cellIdx_lt hin))
    rw [decide_eq_true_eq] at this
    exact this hc
  · exact h

/-- One `connect` + `set_visited` of a freshly selected branch preserves the
growth invariant and advances the visit count. -/
theorem substep_preserves {width height : ℕ} {start : ℤ × ℤ} {s : St}
    (hinv : Inv width height start s) (hIN : ((width * height : ℕ) : ℤ) ≤ INF)
    {cc nb : ℤ × ℤ} {d : ℤ}
    (hccin : in_bounds width height cc.1 cc.2 = true)
    (hccvis : dAt width s.dist cc ≠ INF)
    (hd : d = dAt width s.dist cc)
    (hnbm : nb ∈ nbrs cc.1 cc.2)
    (hnbin : in_bounds width height nb.1 nb.2 = true)
    (hnbvis : dAt width s.dist nb = INF) :
    ∃ walls2 s', connect width s.walls cc.1 cc.2 nb.1 nb.2 = some walls2 ∧
      set_visited width height { s with walls := walls2, q := s.q ++ [nb] }
        nb.1 nb.2 (d + 1) = .ok s' ∧
      Inv width height start s' ∧
      s'.cells_visited = s.cells_visited + 1 ∧ s'.q = s.q ++ [nb] ∧
      s'.tick = s.tick ∧ s'.heap = heapPush s.heap (-(d+1), nb.1, nb.2) ∧
      (∀ x : ℤ × ℤ, heapCoverEx width height s x → heapCoverEx width height s' x) ∧
      (∀ c' : ℤ × ℤ, in_bounds width height c'.1 c'.2 = true →
        dAt width s'.dist c' = if c' = nb then d + 1 else dAt width s.dist c') := by
  obtain ⟨cx, cy⟩ := cc
  obtain ⟨nx, ny⟩ := nb
  obtain ⟨w2, hw2, hw2len, hB1, hB2, hB3⟩ :=
    connect_spec hinv.len_walls hccin hnbin hnbm
  obtain ⟨s', hsv, hcv', hwalls', hq', htick', hheap', hdistset, hdlen, hrlen,
      hdpt, hrpt⟩ :=
    set_visited_spec width height { s with walls := w2, q := s.q ++ [(nx, ny)] }
      nx ny (d + 1) hnbin hinv.len_dist hinv.len_rem
  -- basic consequences
  have hccne : (cx, cy) ≠ (nx, ny) := fun he => hccvis (by rw [he]; exact hnbvis)
  have hidxne : cellIdx width (cx, cy) ≠ cellIdx width (nx, ny) :=
    fun he => hccne (cellIdx_inj hccin hnbin he)
  have hdb := hinv.dist_bound (cx, cy) hccin hccvis
  have hd0 : 0 ≤ d := by rw [hd]; exact hdb.1
  have hdcv : d < (s.cells_visited : ℤ) := by rw [hd]; exact hdb.2
  have hvlt : visCount width height s.dist < width * height :=
    visCount_lt_of_unvisited hnbin hnbvis
  have hcvlt : s.cells_visited < width * height := by rw [hinv.cv]; exact hvlt
  have hd1ne : d + 1 ≠ INF := by
    intro he
    have : ((width * height : ℕ) : ℤ) < INF := by omega
    omega
  have hW : s'.walls = w2 := hwalls'
  have hQ : s'.q = s.q ++ [(nx, ny)] := hq'
  have hT : s'.tick = s.tick := htick'
  have hH : s'.heap = heapPush s.heap (-(d+1), nx, ny) := hheap'
  have hCV : s'.cells_visited = s.cells_visited + 1 := hcv'
  have hD : s'.dist = s.dist.set (cellIdx width (nx, ny)) (d + 1) := hdistset
  have hgetD : ∀ i : ℕ, i ≠ cellIdx width (nx, ny) →
      s'.dist.getD i INF = s.dist.getD i INF := by
    intro i hi
    rw [hD]
    exact getD_set_ne _ _ _ _ _ (fun he => hi he.symm)
  have hgetDnb : s'.dist.getD (cellIdx width (nx, ny)) INF = d + 1 := by
    rw [hD]
    exact getD_set_self _ _ _ _ (by rw [hinv.len_dist]; exact cellIdx_lt hnbin)
  have hdAt : ∀ c' : ℤ × ℤ, in_bounds width height c'.1 c'.2 = true →
      dAt width s'.dist c' = if c' = (nx, ny) then d + 1 else dAt width s.dist c' := by
    intro c' hc'
    by_cases he : c' = (nx, ny)
    · rw [if_pos he, he]
      exact hgetDnb
    · rw [if_neg he]
      exact hgetD _ (fun hh => he (cellIdx_inj hc' hnbin hh))
  have hdAtcc : dAt width s'.dist (cx, cy) = d := by
    rw [hdAt (cx, cy) hccin, if_neg hccne, hd]
  have hdAtnb : dAt width s'.dist (nx, ny) = d + 1 := by
    rw [hdAt (nx, ny) hnbin, if_pos rfl]
  have hstartvis : dAt width s.dist start ≠ INF := by
    rw [hinv.start_dist]
    unfold INF
    omega
  have hnbstart : (nx, ny) ≠ start := fun he => hstartvis (by rw [← he]; exact hnbvis)
  have hnbidxstart : cellIdx width (nx, ny) ≠ cellIdx width start :=
    fun he => hnbstart (cellIdx_inj hnbin hinv.start_in he)
  have hUC := unvisited_count_set hinv.len_dist hdlen hnbin hdAt hd1ne hnbvis
  have hADJ := maze_adj_update hccin hnbin hnbm hB1 hB2 hB3
  have hccvis' : is_visited width s'.dist cx cy = true := by
    rw [is_visited_eq hccin hdlen, hdAtcc]
    apply decide_eq_true
    omega
  -- no old edges at the freshly visited cell
  have hzero_nb : wallsAt s.walls (cellIdx width (nx, ny)) = 0 :=
    hinv.walls_zero (nx, ny) hnbin hnbvis
  have hnoadj : ∀ i j : ℕ, (i = cellIdx width (nx, ny) ∨ j = cellIdx width (nx, ny)) →
      maze_adj width height s.walls i j = false := fun i j h =>
    maze_adj_zero hzero_nb i j h
  have hCOV : ∀ x : ℤ × ℤ, heapCoverEx width height s x →
      heapCoverEx width height s' x := by
    intro x hx c' hne hc' hvis hone
    rw [hH]
    by_cases he : c' = (nx, ny)
    · exact ⟨(-(d+1), nx, ny), mem_heapPush.mpr (Or.inl rfl), by rw [he]⟩
    · have hvis0 : dAt width s.dist c' ≠ INF := by
        rw [hdAt c' hc', if_neg he] at hvis
        exact hvis
      have hone0 : 1 ≤ unvisited_count width height s.dist c'.1 c'.2 := by
        have := hUC c' hc'
        by_cases hm : (nx, ny) ∈ nbrs c'.1 c'.2
        · rw [if_pos hm] at this
          omega
        · rw [if_neg hm] at this
          omega
      obtain ⟨e, hmem, hcell⟩ := hx c' hne hc' hvis0 hone0
      exact ⟨e, mem_heapPush.mpr (Or.inr hmem), hcell⟩
  refine ⟨w2, s', hw2, hsv, ?_, hCV, hQ, hT, hH, hCOV, hdAt⟩
  constructor
  · exact hdlen
  · rw [hW]; exact hw2len
  · exact hrlen
  · -- cells_visited = visCount
    rw [hCV, hinv.cv, hD]
    rw [visCount_set (cellIdx_lt hnbin) (by rw [hinv.len_dist]; exact cellIdx_lt hnbin)
      hnbvis hd1ne]
  · exact hinv.start_in
  · exact hinv.start_bord
  · -- start distance unchanged
    rw [hdAt start hinv.start_in, if_neg (fun he => hnbstart he.symm)]
    exact hinv.start_dist
  · -- dist_bound
    intro c' hc' hvis
    rw [hdAt c' hc'] at hvis ⊢
    rw [hCV]
    by_cases he : c' = (nx, ny)
    · rw [if_pos he] at hvis ⊢
      push_cast
      omega
    · rw [if_neg he] at hvis ⊢
      have := hinv.dist_bound c' hc' hvis
      push_cast
      omega
  · -- start_uniq
    intro c' hc' h0
    rw [hdAt c' hc'] at h0
    by_cases he : c' = (nx, ny)
    · rw [if_pos he] at h0
      omega
    · rw [if_neg he] at h0
      exact hinv.start_uniq c' hc' h0
  · -- rem_eq
    intro c' hc'
    rw [hrpt c' hc']
    have hs1rem : ({ s with walls := w2, q := s.q ++ [(nx, ny)] } : St).rem = s.rem := rfl
    rw [hs1rem, hinv.rem_eq c' hc']
    have huc := hUC c' hc'
    have hmemiff : (c' ∈ nbrs nx ny) ↔ ((nx, ny) ∈ nbrs c'.1 c'.2) :=
      @mem_nbrs_comm (nx, ny) c'
    by_cases hm : (nx, ny) ∈ nbrs c'.1 c'.2
    · rw [if_pos (hmemiff.mpr hm)]
      rw [if_pos hm] at huc
      push_cast
      omega
    · rw [if_neg (fun hh => hm (hmemiff.mp hh))]
      rw [if_neg hm] at huc
      push_cast
      omega
  · -- q_vis
    intro c' hc'
    rw [hQ] at hc'
    rcases List.mem_append.mp hc' with hmem | hmem
    · obtain ⟨h1, h2⟩ := hinv.q_vis c' hmem
      refine ⟨h1, ?_⟩
      rw [hdAt c' h1]
      by_cases he : c' = (nx, ny)
      · rw [if_pos he]
        exact hd1ne
      · rw [if_neg he]
        exact h2
    · rw [List.mem_singleton] at hmem
      subst hmem
      exact ⟨hnbin, by rw [hdAtnb]; exact hd1ne⟩
  · -- heap_vis
    intro e he
    rw [hH] at he
    rcases mem_heapPush.mp he with rfl | hmem
    · exact ⟨hnbin, by rw [hdAtnb]; ring_nf, by rw [hdAtnb]; exact hd1ne⟩
    · obtain ⟨h1, h2, h3⟩ := hinv.heap_vis e hmem
      have hnenb : (e.2.1, e.2.2) ≠ (nx, ny) := fun hh =>
        h3 (by rw [hh]; exact hnbvis)
      refine ⟨h1, ?_, ?_⟩
      · rw [hdAt _ h1, if_neg hnenb]
        exact h2
      · rw [hdAt _ h1, if_neg hnenb]
        exact h3
  · -- heap_sorted
    rw [hH]
    exact heapPush_sorted _ hinv.heap_sorted
  · -- nb3
    intro c' hc' hvis
    by_cases he : c' = (nx, ny)
    · rw [he]
      have hccm : (cx, cy) ∈ nbrs (nx, ny).1 (nx, ny).2 :=
        (@mem_nbrs_comm (cx, cy) (nx, ny)).mp hnbm
      exact unvisited_count_le_three (c := (nx, ny)) (v := (cx, cy)) hccm hccvis'
    · have hvis0 : dAt width s.dist c' ≠ INF := by
        rw [hdAt c' hc', if_neg he] at hvis
        exact hvis
      have := hUC c' hc'
      have hold := hinv.nb3 c' hc' hvis0
      by_cases hm : (nx, ny) ∈ nbrs c'.1 c'.2
      · rw [if_pos hm] at this
        omega
      · rw [if_neg hm] at this
        omega
  · -- walls_zero
    intro c' hc' hunvis
    rw [hdAt c' hc'] at hunvis
    by_cases he : c' = (nx, ny)
    · rw [if_pos he] at hunvis
      exact absurd hunvis hd1ne
    · rw [if_neg he] at hunvis
      have hnecc : c' ≠ (cx, cy) := fun hh => hccvis (by rw [← hh]; exact hunvis)
      rw [hW]
      rw [hB3 (cellIdx width c')
        (fun hh => hnecc (cellIdx_inj hc' hccin hh))
        (fun hh => he (cellIdx_inj hc' hnbin hh))]
      exact hinv.walls_zero c' hc' hunvis
  · -- edge_dist
    intro i j hadj
    rw [hW] at hadj
    rcases (hADJ i j).mp hadj with hold | ⟨rfl, rfl⟩ | ⟨rfl, rfl⟩
    · obtain ⟨h1, h2, h3⟩ := hinv.edge_dist i j hold
      have hine : i ≠ cellIdx width (nx, ny) := fun he => by
        rw [he] at h1
        have : s.dist.getD (cellIdx width (nx, ny)) INF = INF := hnbvis
        exact h1 this
      have hjne : j ≠ cellIdx width (nx, ny) := fun he => by
        rw [he] at h2
        have : s.dist.getD (cellIdx width (nx, ny)) INF = INF := hnbvis
        exact h2 this
      rw [hgetD i hine, hgetD j hjne]
      exact ⟨h1, h2, h3⟩
    · -- the new edge, oriented cc → nb
      have hgi : s'.dist.getD (cellIdx width (cx, cy)) INF = d := by
        rw [hgetD _ hidxne]
        exact hd.symm
      rw [hgi, hgetDnb]
      refine ⟨by omega, by omega, Or.inl rfl⟩
    · have hgi : s'.dist.getD (cellIdx width (cx, cy)) INF = d := by
        rw [hgetD _ hidxne]
        exact hd.symm
      rw [hgi, hgetDnb]
      refine ⟨by omega, by omega, Or.inr rfl⟩
  · -- parent counts
    intro i hi hvisi
    rw [hW]
    by_cases hie : i = cellIdx width (nx, ny)
    · -- the freshly visited cell: exactly its parent `cc`
      subst hie
      rw [if_neg hnbidxstart]
      unfold parentCount
      apply countP_eq_one (j := cellIdx width (cx, cy))
      · exact List.nodup_range _
      · exact List.mem_range.mpr (cellIdx_lt hccin)
      · intro k _
        constructor
        · intro hp
          rw [Bool.and_eq_true] at hp
          rcases (hADJ _ k).mp hp.1 with hold | ⟨hn1, _⟩ | ⟨_, hk⟩
          · rw [hnoadj _ k (Or.inl rfl)] at hold
            exact absurd hold (by simp)
          · exact absurd hn1 (fun hh => hidxne hh.symm)
          · exact hk
        · intro hk
          subst hk
          rw [Bool.and_eq_true]
          refine ⟨(hADJ _ _).mpr (Or.inr (Or.inr ⟨rfl, rfl⟩)), ?_⟩
          apply decide_eq_true
          have hgcc : s.dist.getD (cellIdx width (cx, cy)) INF = d := hd.symm
          rw [hgetDnb, hgetD _ hidxne, hgcc]
    · -- any other visited cell: its parents are unchanged
      have hvisi0 : s.dist.getD i INF ≠ INF := by
        rw [hgetD i hie] at hvisi
        exact hvisi
      rw [← hinv.parent i hi hvisi0]
      unfold parentCount
      apply List.countP_congr
      intro k _
      rw [Bool.and_eq_true, Bool.and_eq_true]
      by_cases hke : k = cellIdx width (nx, ny)
      · subst hke
        constructor
        · rintro ⟨hadj, hdec⟩
          rcases (hADJ i _).mp hadj with hold | ⟨hi1, _⟩ | ⟨hi2, _⟩
          · rw [hnoadj i _ (Or.inr rfl)] at hold
            exact absurd hold (by simp)
          · -- i = cellIdx cc, edge cc → nb: distance condition fails
            exfalso
            rw [decide_eq_true_eq] at hdec
            rw [hi1] at hdec hvisi0
            have hgcc : s.dist.getD (cellIdx width (cx, cy)) INF = d := hd.symm
            rw [hgetDnb, hgetD _ hidxne] at hdec
            rw [hgcc] at hdec
            omega
          · exact absurd hi2 hie
        · rintro ⟨hadj, _⟩
          rw [hnoadj i _ (Or.inr rfl)] at hadj
          exact absurd hadj (by simp)
      · constructor
        · rintro ⟨hadj, hdec⟩
          refine ⟨?_, ?_⟩
          · rcases (hADJ i k).mp hadj with hold | ⟨_, hk⟩ | ⟨hi2, _⟩
            · exact hold
            · exact absurd hk hke
            · exact absurd hi2 hie
          · rw [decide_eq_true_eq] at hdec ⊢
            rw [hgetD i hie, hgetD k hke] at hdec
            exact hdec
        · rintro ⟨hadj, hdec⟩
          refine ⟨(hADJ i k).mpr (Or.inl hadj), ?_⟩
          rw [decide_eq_true_eq] at hdec ⊢
          rw [hgetD i hie, hgetD k hke]
          exact hdec

theorem Inv.with_q {width height : ℕ} {start : ℤ × ℤ} {s : St}
    (hinv : Inv width height start s) {q' : List (ℤ × ℤ)}
    (hq : ∀ c ∈ q', in_bounds width height c.1 c.2 = true ∧
      dAt width s.dist c ≠ INF) :
    Inv width height start { s with q := q' } :=
  ⟨hinv.len_dist, hinv.len_walls, hinv.len_rem, hinv.cv, hinv.start_in,
    hinv.start_bord, hinv.start_dist, hinv.dist_bound, hinv.start_uniq,
    hinv.rem_eq, hq, hinv.heap_vis, hinv.heap_sorted, hinv.nb3,
    hinv.walls_zero, hinv.edge_dist, hinv.parent⟩

theorem Inv.with_tick {width height : ℕ} {start : ℤ × ℤ} {s : St}
    (hinv : Inv width height start s) (t' : ℕ) :
    Inv width height start { s with tick := t' } :=
  ⟨hinv.len_dist, hinv.len_walls, hinv.len_rem, hinv.cv, hinv.start_in,
    hinv.start_bord, hinv.start_dist, hinv.dist_bound, hinv.start_uniq,
    hinv.rem_eq, hinv.q_vis, hinv.heap_vis, hinv.heap_sorted, hinv.nb3,
    hinv.walls_zero, hinv.edge_dist, hinv.parent⟩

theorem Inv.with_heap {width height : ℕ} {start : ℤ × ℤ} {s : St}
    (hinv : Inv width height start s) {h' : List (ℤ × ℤ × ℤ)}
    (hsub : ∀ e ∈ h', e ∈ s.heap) (hsort : List.Pairwise keyLe h') :
    Inv width height start { s with heap := h' } :=
  ⟨hinv.len_dist, hinv.len_walls, hinv.len_rem, hinv.cv, hinv.start_in,
    hinv.start_bord, hinv.start_dist, hinv.dist_bound, hinv.start_uniq,
    hinv.rem_eq, hinv.q_vis, fun e he => hinv.heap_vis e (hsub e he), hsort,
    hinv.nb3, hinv.walls_zero, hinv.edge_dist, hinv.parent⟩

/-- The cell of linear index `i`. -/
def idxCell (width : ℕ) (i : ℕ) : ℤ × ℤ := (((i % width : ℕ) : ℤ), ((i / width : ℕ) : ℤ))

theorem idxCell_spec {width height : ℕ} {i : ℕ} (hw : 0 < width)
    (hi : i < width * height) :
    in_bounds width height (idxCell width i).1 (idxCell width i).2 = true ∧
      cellIdx width (idxCell width i) = i := by
  have h1 : i % width < width := Nat.mod_lt _ hw
  have h2 : i / width < height := by
    rw [Nat.div_lt_iff_lt_mul hw, Nat.mul_comm]
    exact hi
  have hin : in_bounds width height (idxCell width i).1 (idxCell width i).2 = true := by
    unfold idxCell
    dsimp only
    exact in_bounds_true ⟨by positivity, by exact_mod_cast h1, by positivity,
      by exact_mod_cast h2⟩
  refine ⟨hin, ?_⟩
  rw [@cellIdx_eq width height _ hin]
  unfold idxCell
  dsimp only
  rw [Int.toNat_natCast, Int.toNat_natCast]
  exact Nat.div_add_mod i width

theorem exists_unvisited {width height : ℕ} {dist : List ℤ}
    (hlen : dist.length = width * height)
    (hlt : visCount width height dist < width * height) :
    ∃ c : ℤ × ℤ, in_bounds width height c.1 c.2 = true ∧ dAt width dist c = INF := by
  have hw : 0 < width := by
    rcases Nat.eq_zero_or_pos width with h | h
    · rw [h] at hlt
      simp at hlt
    · exact h
  by_contra hno
  push_neg at hno
  have hall : List.countP (fun i => decide (dist.getD i INF ≠ INF))
      (List.range (width * height)) = (List.range (width * height)).length := by
    apply List.countP_eq_length.mpr
    intro i hi
    rw [List.mem_range] at hi
    obtain ⟨hin, hci⟩ := idxCell_spec hw hi
    apply decide_eq_true
    intro hINF
    have hun : dAt width dist (idxCell width i) = INF := by
      unfold dAt
      rw [hci]
      exact hINF
    exact absurd hun (hno _ hin)
  unfold visCount at hlt
  rw [hall, List.length_range] at hlt
  omega

/-- When some heap entry's cell has remaining sides, `fallback_cell` returns a
cell with remaining sides, dropping only exhausted entries before it. -/
theorem fallback_cell_success {width height : ℕ} {rem : List ℤ}
    (hlen : rem.length = width * height) :
    ∀ (heap : List (ℤ × ℤ × ℤ)),
      (∀ e ∈ heap, in_bounds width height e.2.1 e.2.2 = true) →
      (∀ e ∈ heap, 0 ≤ rem.getD (cellIdx width (e.2.1, e.2.2)) 0) →
      ∀ e0 ∈ heap, 1 ≤ rem.getD (cellIdx width (e0.2.1, e0.2.2)) 0 →
      ∃ c h2, fallback_cell width rem heap = .ok (some (c, h2)) ∧
        (∃ e ∈ heap, (e.2.1, e.2.2) = c) ∧
        1 ≤ rem.getD (cellIdx width c) 0 ∧
        (∀ e ∈ h2, e ∈ heap) ∧
        (List.Pairwise keyLe heap → List.Pairwise keyLe h2) ∧
        (∀ e ∈ heap, e ∉ h2 → (e.2.1, e.2.2) ≠ c →
          rem.getD (cellIdx width (e.2.1, e.2.2)) 0 = 0) ∧
        ((∃ e ∈ h2, (e.2.1, e.2.2) = c) ∨ rem.getD (cellIdx width c) 0 = 1) := by
  intro heap
  induction heap with
  | nil => intro _ _ e0 he0; cases he0
  | cons e rest ih =>
    intro hin hnn e0 he0 hr0
    have hein := hin e (List.mem_cons_self _ _)
    have hb := @t_bounds width height _ _ hein
    have hlt : t width e.2.1 e.2.2 < (rem.length : ℤ) := by
      rw [hlen]
      exact_mod_cast hb.2
    have hget : pyGet rem (t width e.2.1 e.2.2) =
        some (rem.getD (cellIdx width (e.2.1, e.2.2)) 0) :=
      pyGet_eq_getD rem _ 0 hb.1 hlt
    set v := rem.getD (cellIdx width (e.2.1, e.2.2)) 0 with hv
    rcases lt_trichotomy 1 v with h1 | h1 | h1
    · -- keep
      refine ⟨(e.2.1, e.2.2), e :: rest, fallback_cell_keep hget h1,
        ⟨e, List.mem_cons_self _ _, rfl⟩, by omega, fun e' he' => he',
        fun h => h, ?_, Or.inl ⟨e, List.mem_cons_self _ _, rfl⟩⟩
      intro e' he' hne _
      exact absurd he' hne
    · -- pop
      refine ⟨(e.2.1, e.2.2), rest, fallback_cell_pop hget h1.symm,
        ⟨e, List.mem_cons_self _ _, rfl⟩, by omega,
        fun e' he' => List.mem_cons_of_mem _ he', fun h => (List.pairwise_cons.mp h).2,
        ?_, Or.inr h1.symm⟩
      intro e' he' hne' hcell
      rcases List.mem_cons.mp he' with rfl | hmem
      · exact absurd rfl hcell
      · exact absurd hmem hne'
    · -- skip
      have he0' : e0 ∈ rest := by
        rcases List.mem_cons.mp he0 with rfl | h
        · omega
        · exact h
      obtain ⟨c, h2, heq, hex, hc1, hsub, hsort, hdrop, hkept⟩ :=
        ih (fun e' he' => hin e' (List.mem_cons_of_mem _ he'))
          (fun e' he' => hnn e' (List.mem_cons_of_mem _ he')) e0 he0' hr0
      refine ⟨c, h2, ?_, ?_, hc1, fun e' he' => List.mem_cons_of_mem _ (hsub e' he'),
        fun h => hsort (List.pairwise_cons.mp h).2, ?_, hkept⟩
      · rw [fallback_cell_skip hget h1]
        exact heq
      · obtain ⟨e', he', hcell⟩ := hex
        exact ⟨e', List.mem_cons_of_mem _ he', hcell⟩
      · intro e' he' hne' hcell
        rcases List.mem_cons.mp he' with rfl | hmem
        · have := hnn e' (List.mem_cons_self _ _)
          omega
        · exact hdrop e' hmem hne' hcell

/-- Folding `connect` + `q_up` over a duplicate-free list of unvisited
neighbours of the (visited) current cell preserves the invariant. -/
theorem fold_preserves {width height : ℕ} {start : ℤ × ℤ} {cc : ℤ × ℤ} {d : ℤ} :
    ∀ (sel : List (ℤ × ℤ)) (s : St), Inv width height start s →
      ((width * height : ℕ) : ℤ) ≤ INF →
      in_bounds width height cc.1 cc.2 = true →
      dAt width s.dist cc ≠ INF →
      d = dAt width s.dist cc →
      sel.Nodup →
      (∀ nb ∈ sel, nb ∈ nbrs cc.1 cc.2 ∧ in_bounds width height nb.1 nb.2 = true ∧
        dAt width s.dist nb = INF) →
      ∃ s', sel.foldlM (fun st nb => do
          let walls ← oe (connect width st.walls cc.1 cc.2 nb.1 nb.2) .indexError
          let st := { st with walls := walls, q := st.q ++ [nb] }
          set_visited width height st nb.1 nb.2 (d + 1)) s = .ok s' ∧
        Inv width height start s' ∧
        s'.cells_visited = s.cells_visited + sel.length ∧
        s'.q = s.q ++ sel ∧ s'.tick = s.tick ∧
        (∀ x : ℤ × ℤ, heapCoverEx width height s x → heapCoverEx width height s' x) ∧
        (∀ e ∈ s.heap, e ∈ s'.heap) ∧
        (unvisited_count width height s'.dist cc.1 cc.2 + sel.length =
          unvisited_count width height s.dist cc.1 cc.2) ∧
        (∀ c' : ℤ × ℤ, in_bounds width height c'.1 c'.2 = true →
          dAt width s'.dist c' =
            if c' ∈ sel then d + 1 else dAt width s.dist c') := by
  intro sel
  induction sel with
  | nil =>
    intro s hinv _ _ _ _ _ _
    refine ⟨s, rfl, hinv, by simp, by simp, rfl, fun x hx => hx, fun e he => he,
      by simp, ?_⟩
    intro c' hc'
    rw [if_neg (List.not_mem_nil c')]
  | cons nb rest ih =>
    intro s hinv hIN hccin hccvis hd hnd hsel
    obtain ⟨hnbm, hnbin, hnbvis⟩ := hsel nb (List.mem_cons_self _ _)
    obtain ⟨w2, s1, hconn, hsv, hinv1, hcv1, hq1, ht1, hheap1, hcov1, hdAt1⟩ :=
      substep_preserves hinv hIN hccin hccvis hd hnbm hnbin hnbvis
    rw [List.nodup_cons] at hnd
    have hccvis1 : dAt width s1.dist cc ≠ INF := by
      rw [hdAt1 cc hccin, if_neg (fun he => hccvis (by rw [he]; exact hnbvis))]
      exact hccvis
    have hd1 : d = dAt width s1.dist cc := by
      rw [hdAt1 cc hccin, if_neg (fun he => hccvis (by rw [he]; exact hnbvis))]
      exact hd
    have hsel1 : ∀ nb' ∈ rest, nb' ∈ nbrs cc.1 cc.2 ∧
        in_bounds width height nb'.1 nb'.2 = true ∧ dAt width s1.dist nb' = INF := by
      intro nb' hnb'
      obtain ⟨h1, h2, h3⟩ := hsel nb' (List.mem_cons_of_mem _ hnb')
      refine ⟨h1, h2, ?_⟩
      rw [hdAt1 nb' h2, if_neg (fun he : nb' = nb => hnd.1 (he ▸ hnb'))]
      exact h3
    obtain ⟨s', hfold, hinv', hcv', hq', ht', hcov', hhm', hucc', hdAt'⟩ :=
      ih s1 hinv1 hIN hccin hccvis1 hd1 hnd.2 hsel1
    have hd1ne : d + 1 ≠ INF := by
      have hdb := hinv.dist_bound cc hccin hccvis
      have hvlt : visCount width height s.dist < width * height :=
        visCount_lt_of_unvisited hnbin hnbvis
      have hcveq := hinv.cv
      intro he
      omega
    have hUC := unvisited_count_set hinv.len_dist hinv1.len_dist hnbin hdAt1
      hd1ne hnbvis
    refine ⟨s', ?_, hinv', ?_, ?_, ?_, ?_, ?_, ?_, ?_⟩
    · rw [List.foldlM_cons]
      apply (bind_ok_iff _ _ _).mpr
      refine ⟨s1, ?_, hfold⟩
      rw [hconn]
      exact (bind_ok_iff _ _ _).mpr ⟨w2, rfl, hsv⟩
    · rw [hcv', hcv1]
      simp only [List.length_cons]
      omega
    · rw [hq', hq1, List.append_assoc]
      rfl
    · rw [ht', ht1]
    · exact fun x hx => hcov' x (hcov1 x hx)
    · intro e he
      apply hhm'
      rw [hheap1]
      exact mem_heapPush.mpr (Or.inr he)
    · have h1 := hUC cc hccin
      rw [if_pos hnbm] at h1
      simp only [List.length_cons]
      omega
    · intro c' hc'
      rw [hdAt' c' hc']
      by_cases hm : c' ∈ rest
      · rw [if_pos hm, if_pos (List.mem_cons_of_mem _ hm)]
      · rw [if_neg hm, hdAt1 c' hc']
        by_cases he : c' = nb
        · rw [if_pos he, if_pos (by rw [he]; exact List.mem_cons_self _ _)]
        · rw [if_neg he, if_neg (by
            intro hmem
            rcases List.mem_cons.mp hmem with h | h
            · exact he h
            · exact hm h)]

/-- One growth iteration from an obtained current cell succeeds, preserves
the invariant, and branches at least once on a restart. -/
theorem step_grow_ok {width height : ℕ} {start : ℤ × ℤ}
    {bd : Frac × Frac × Frac × Frac} {o : Orc} {s : St}
    (hinv : Inv width height start s)
    (hIN : ((width * height : ℕ) : ℤ) ≤ INF) (hv : valid_weights bd)
    {ct : Bool} {cc : ℤ × ℤ}
    (hccin : in_bounds width height cc.1 cc.2 = true)
    (hccvis : dAt width s.dist cc ≠ INF)
    (hforce : ct = false → 1 ≤ unvisited_count width height s.dist cc.1 cc.2) :
    ∃ s' bc, step_grow width height bd o ct cc s = .ok s' ∧
      Inv width height start s' ∧
      (∀ x : ℤ × ℤ, heapCoverEx width height s x → heapCoverEx width height s' x) ∧
      (∀ e ∈ s.heap, e ∈ s'.heap) ∧
      s'.cells_visited = s.cells_visited + bc ∧
      s'.q.length = s.q.length + bc ∧
      (ct = false → 1 ≤ bc) ∧
      unvisited_count width height s'.dist cc.1 cc.2 + bc =
        unvisited_count width height s.dist cc.1 cc.2 := by
  have hb := @t_bounds width height _ _ hccin
  have hlt : t width cc.1 cc.2 < (s.dist.length : ℤ) := by
    rw [hinv.len_dist]
    exact_mod_cast hb.2
  have hpy : pyGet s.dist (t width cc.1 cc.2) = some (dAt width s.dist cc) :=
    pyGet_eq_getD s.dist _ INF hb.1 hlt
  have hpb : (possible_branches width height s.dist cc.1 cc.2).length =
      unvisited_count width height s.dist cc.1 cc.2 :=
    possible_branches_length width height s.dist cc.1 cc.2
  have hnb3 := hinv.nb3 cc hccin hccvis
  obtain ⟨bc0, hbs, hbc0⟩ := @branch_sample_ok bd hv
    ((possible_branches width height s.dist cc.1 cc.2).length)
    (by rw [hpb]; exact hnb3) (fracNorm (o.u s.tick))
  have hbcle : (if ct = false ∧ bc0 = 0 then 1 else bc0) ≤
      (possible_branches width height s.dist cc.1 cc.2).length := by
    by_cases h0 : ct = false ∧ bc0 = 0
    · rw [if_pos h0, hpb]
      exact hforce h0.1
    · rw [if_neg h0]
      exact hbc0
  have hps : py_sample (possible_branches width height s.dist cc.1 cc.2)
      (if ct = false ∧ bc0 = 0 then 1 else bc0) (o.sel s.tick) =
      .ok (sample_go (possible_branches width height s.dist cc.1 cc.2)
        (if ct = false ∧ bc0 = 0 then 1 else bc0) (o.sel s.tick) 0) := by
    unfold py_sample
    rw [if_pos hbcle]
  obtain ⟨hkle, hseq, hslen, hsub, hsnd⟩ := py_sample_ok hps
  have hnd : (sample_go (possible_branches width height s.dist cc.1 cc.2)
      (if ct = false ∧ bc0 = 0 then 1 else bc0) (o.sel s.tick) 0).Nodup :=
    hsnd (possible_branches_nodup width height s.dist cc.1 cc.2)
  have hmem : ∀ nb ∈ sample_go (possible_branches width height s.dist cc.1 cc.2)
      (if ct = false ∧ bc0 = 0 then 1 else bc0) (o.sel s.tick) 0,
      nb ∈ nbrs cc.1 cc.2 ∧ in_bounds width height nb.1 nb.2 = true ∧
        dAt width s.dist nb = INF := by
    intro nb hnb
    obtain ⟨h1, h2, h3⟩ := mem_possible_branches.mp (hsub nb hnb)
    refine ⟨h1, h2, ?_⟩
    by_contra hne
    have := (is_visited_iff_getD h2 hinv.len_dist).mpr hne
    rw [h3] at this
    exact Bool.false_ne_true this
  obtain ⟨s', hfold, hinv', hcv', hq', ht', hcov', hhm', hucc', hdAt'⟩ :=
    @fold_preserves width height start cc _
      (sample_go (possible_branches width height s.dist cc.1 cc.2)
        (if ct = false ∧ bc0 = 0 then 1 else bc0) (o.sel s.tick) 0)
      { s with tick := s.tick + 1 } (hinv.with_tick (s.tick + 1)) hIN hccin
      hccvis rfl hnd hmem
  refine ⟨s', (sample_go (possible_branches width height s.dist cc.1 cc.2)
      (if ct = false ∧ bc0 = 0 then 1 else bc0) (o.sel s.tick) 0).length,
    ?_, hinv', fun x hx => hcov' x hx, fun e he => hhm' e he, hcv', ?_, ?_, hucc'⟩
  · unfold step_grow
    apply (bind_ok_iff _ _ _).mpr
    refine ⟨dAt width s.dist cc, by rw [hpy]; rfl, ?_⟩
    apply (bind_ok_iff _ _ _).mpr
    refine ⟨bc0, hbs, ?_⟩
    apply (bind_ok_iff _ _ _).mpr
    exact ⟨_, hps, hfold⟩
  · rw [hq', List.length_append]
  · intro hctf
    rw [hslen]
    by_cases h0 : bc0 = 0
    · rw [if_pos ⟨hctf, h0⟩]
    · rw [if_neg (fun hcon => h0 hcon.2)]
      omega

theorem heapCoverEx_of_cover {width height : ℕ} {s : St}
    (h : heapCover width height s) (x : ℤ × ℤ) : heapCoverEx width height s x :=
  fun c _ hc hv1 h1 => h c hc hv1 h1

theorem heapCover_of_ex {width height : ℕ} {s : St}
    (h : ∀ x : ℤ × ℤ, heapCoverEx width height s x) : heapCover width height s := by
  intro c hc hv1 h1
  refine h (c.1 - 1, c.2) c ?_ hc hv1 h1
  intro he
  have hx : c.1 = c.1 - 1 := congrArg Prod.fst he
  omega

/-- One `while` iteration: under the invariant it succeeds, keeps the
invariant and the heap cover, and strictly decreases the termination
measure `2 * (cell_count - cells_visited) + q.length`. -/
theorem step_preserves {width height : ℕ} {start : ℤ × ℤ}
    {bd : Frac × Frac × Frac × Frac} {o : Orc} {s : St}
    (hinv : Inv width height start s) (hcov : heapCover width height s)
    (hIN : ((width * height : ℕ) : ℤ) ≤ INF) (hv : valid_weights bd)
    (hlt : s.cells_visited < width * height) :
    ∃ s', step width height bd o s = .ok s' ∧ Inv width height start s' ∧
      heapCover width height s' ∧ s.cells_visited ≤ s'.cells_visited ∧
      2 * (width * height - s'.cells_visited) + s'.q.length <
        2 * (width * height - s.cells_visited) + s.q.length := by
  rcases hq : s.q with _ | ⟨cc, rest⟩
  · -- restart: the frontier is empty, seed from the fallback heap
    have hvlt : visCount width height s.dist < width * height := by
      rw [← hinv.cv]
      exact hlt
    obtain ⟨u, huin, huINF⟩ := exists_unvisited hinv.len_dist hvlt
    have hstvis : dAt width s.dist start ≠ INF := by
      rw [hinv.start_dist]
      decide
    obtain ⟨cst, hcin, hcvis, hc1⟩ := frontier_exists hinv.len_dist huin huINF
      _ start hinv.start_in hstvis rfl
    obtain ⟨e0, he0, hcell0⟩ := hcov cst hcin hcvis hc1
    obtain ⟨c2, h2, hfb, hex2, hrem1, hsub2, hsort2, hdrop2, hkept2⟩ :=
      @fallback_cell_success width height s.rem hinv.len_rem s.heap
        (fun e he => (hinv.heap_vis e he).1)
        (fun e he => by
          rw [hinv.rem_eq _ (hinv.heap_vis e he).1]
          exact Int.natCast_nonneg _)
        e0 he0
        (by rw [hcell0, hinv.rem_eq cst hcin]; exact_mod_cast hc1)
    obtain ⟨e2, he2, hce2⟩ := hex2
    have hv2 := hinv.heap_vis e2 he2
    have hc2in : in_bounds width height c2.1 c2.2 = true := by
      rw [← hce2]
      exact hv2.1
    have hc2vis : dAt width s.dist c2 ≠ INF := by
      rw [← hce2]
      exact hv2.2.2
    have huc1 : 1 ≤ unvisited_count width height s.dist c2.1 c2.2 := by
      rw [hinv.rem_eq c2 hc2in] at hrem1
      exact_mod_cast hrem1
    have hinv1 : Inv width height start { s with heap := h2 } :=
      hinv.with_heap hsub2 (hsort2 hinv.heap_sorted)
    have hcovEx1 : heapCoverEx width height { s with heap := h2 } c2 := by
      intro c' hne hcin' hcvis' h1'
      dsimp only at hcvis' h1'
      obtain ⟨e, he, hcelle⟩ := hcov c' hcin' hcvis' h1'
      by_cases hmem : e ∈ h2
      · exact ⟨e, hmem, hcelle⟩
      · exfalso
        have hz := hdrop2 e he hmem (by rw [hcelle]; exact hne)
        rw [hcelle, hinv.rem_eq c' hcin'] at hz
        have : unvisited_count width height s.dist c'.1 c'.2 = 0 := by
          exact_mod_cast hz
        omega
    obtain ⟨s', bc, hsg, hinv', hcovEx', hhm, hcv', hql', hforce', hucc'⟩ :=
      @step_grow_ok width height start bd o _ hinv1 hIN hv false c2 hc2in hc2vis
        (fun _ => huc1)
    have hbc1 : 1 ≤ bc := hforce' rfl
    dsimp only at hcv' hql' hucc'
    have hcvle : s'.cells_visited ≤ width * height := by
      rw [hinv'.cv]
      exact visCount_le width height s'.dist
    refine ⟨s', ?_, hinv', ?_, by omega, ?_⟩
    · unfold step
      apply (bind_ok_iff _ _ _).mpr
      refine ⟨(c2, false, { s with heap := h2 }), ?_, hsg⟩
      unfold current_cell
      rw [hq]
      apply (bind_ok_iff _ _ _).mpr
      exact ⟨some (c2, h2), hfb, rfl⟩
    · intro c' hc' hvis' h1'
      by_cases hne : c' = c2
      · subst hne
        rcases hkept2 with ⟨e, hmem, hcelle⟩ | hone
        · exact ⟨e, hhm e hmem, hcelle⟩
        · exfalso
          rw [hinv.rem_eq c' hc'] at hone
          have h1 : unvisited_count width height s.dist c'.1 c'.2 = 1 := by
            exact_mod_cast hone
          omega
      · exact hcovEx' c2 hcovEx1 c' hne hc' hvis' h1'
    · rw [hq] at hql'
      simp only [List.length_nil] at hql' ⊢
      omega
  · -- frontier: pop the queue head
    have hccf := hinv.q_vis cc (by rw [hq]; exact List.mem_cons_self _ _)
    have hinv1 : Inv width height start { s with q := rest } :=
      hinv.with_q (fun c hc => hinv.q_vis c (by rw [hq]; exact List.mem_cons_of_mem _ hc))
    obtain ⟨s', bc, hsg, hinv', hcovEx', hhm, hcv', hql', hforce', hucc'⟩ :=
      @step_grow_ok width height start bd o _ hinv1 hIN hv true cc hccf.1 hccf.2
        (fun h => Bool.noConfusion h)
    dsimp only at hcv' hql' hucc'
    have hcvle : s'.cells_visited ≤ width * height := by
      rw [hinv'.cv]
      exact visCount_le width height s'.dist
    refine ⟨s', ?_, hinv', ?_, by omega, ?_⟩
    · unfold step
      apply (bind_ok_iff _ _ _).mpr
      refine ⟨(cc, true, { s with q := rest }), ?_, hsg⟩
      unfold current_cell
      rw [hq]
    · apply heapCover_of_ex
      intro x
      exact hcovEx' x (heapCoverEx_of_cover hcov x)
    · simp only [List.length_cons]
      omega

/-- With fuel at least the termination measure the growth loop succeeds,
preserving the invariant, and exits with every cell visited. -/
theorem grow_loop_ok {width height : ℕ} {start : ℤ × ℤ}
    {bd : Frac × Frac × Frac × Frac} {o : Orc} :
    ∀ (fuel : ℕ) (s : St), Inv width height start s → heapCover width height s →
      ((width * height : ℕ) : ℤ) ≤ INF → valid_weights bd →
      2 * (width * height - s.cells_visited) + s.q.length ≤ fuel →
      ∃ s', grow_loop width height bd o fuel s = .ok s' ∧
        Inv width height start s' ∧ s'.cells_visited = width * height := by
  intro fuel
  induction fuel with
  | zero =>
    intro s hinv _ _ _ hm
    have hle := visCount_le width height s.dist
    have hcveq := hinv.cv
    have hcv : s.cells_visited = width * height := by omega
    refine ⟨s, ?_, hinv, hcv⟩
    unfold grow_loop
    rw [if_neg (by omega)]
  | succ fuel ih =>
    intro s hinv hcov hIN hv hm
    by_cases hlt : s.cells_visited < width * height
    · obtain ⟨s1, hstep, hinv1, hcov1, hmono, hdec⟩ :=
        step_preserves hinv hcov hIN hv hlt
      obtain ⟨s', hloop, hinv', hcv'⟩ := ih s1 hinv1 hcov1 hIN hv (by omega)
      refine ⟨s', ?_, hinv', hcv'⟩
      unfold grow_loop
      rw [if_pos hlt]
      apply (bind_ok_iff _ _ _).mpr
      exact ⟨s1, hstep, hloop⟩
    · have hcveq := hinv.cv
      have hle := visCount_le width height s.dist
      refine ⟨s, ?_, hinv, by omega⟩
      unfold grow_loop
      rw [if_neg hlt]

theorem getD_replicate_self {α : Type} (n i : ℕ) (a : α) :
    (List.replicate n a).getD i a = a := by
  rw [List.getD_eq_getElem?_getD]
  rcases h : (List.replicate n a)[i]? with _ | b
  · rfl
  · have hm : b ∈ List.replicate n a := by
      have hlt : i < (List.replicate n a).length := (List.getElem?_eq_some.mp h).1
      have : (List.replicate n a)[i] = b := by
        have := List.getElem?_eq_getElem hlt
        rw [h] at this
        exact (Option.some.inj this).symm
      rw [← this]
      exact List.getElem_mem _
    rw [List.eq_of_mem_replicate hm]
    rfl

/-- On the all-`INF` distance field every in-bounds neighbour is unvisited. -/
theorem unvisited_count_replicate (width height : ℕ) (x y : ℤ) :
    unvisited_count width height (List.replicate (width * height) INF) x y =
      grid_degree width height x y := by
  unfold unvisited_count grid_degree
  congr 1
  apply List.filter_congr
  intro c _
  by_cases hb : in_bounds width height c.1 c.2 = true
  · have hf : is_visited width (List.replicate (width * height) INF) c.1 c.2 = false := by
      rw [Bool.eq_false_iff]
      intro ht
      have := (is_visited_iff_getD hb (by simp)).mp ht
      rw [getD_replicate_self] at this
      exact this rfl
    rw [hb, hf]
    rfl
  · have hb' : in_bounds width height c.1 c.2 = false := by
      rw [Bool.eq_false_iff]
      exact hb
    rw [hb']
    rfl

/-- A border cell has at most three in-bounds neighbours. -/
theorem grid_degree_le_three {width height : ℕ} {x y : ℤ}
    (hb : is_border width height x y = true) :
    grid_degree width height x y ≤ 3 := by
  rw [grid_degree_eval]
  rcases is_border_iff.mp hb with h | h | h | h
  · have hf : in_bounds width height (x - 1) y = false := by
      rw [Bool.eq_false_iff]
      intro ht
      rcases in_bounds_iff.mp ht with ⟨h1, _, _, _⟩
      omega
    rw [hf]
    simp only [Bool.false_eq_true, if_false]
    split_ifs <;> omega
  · have hf : in_bounds width height x (y - 1) = false := by
      rw [Bool.eq_false_iff]
      intro ht
      rcases in_bounds_iff.mp ht with ⟨_, _, h3, _⟩
      omega
    rw [hf]
    simp only [Bool.false_eq_true, if_false]
    split_ifs <;> omega
  · have hf : in_bounds width height (x + 1) y = false := by
      rw [Bool.eq_false_iff]
      intro ht
      rcases in_bounds_iff.mp ht with ⟨_, h2, _, _⟩
      omega
    rw [hf]
    simp only [Bool.false_eq_true, if_false]
    split_ifs <;> omega
  · have hf : in_bounds width height x (y + 1) = false := by
      rw [Bool.eq_false_iff]
      intro ht
      rcases in_bounds_iff.mp ht with ⟨_, _, _, h4⟩
      omega
    rw [hf]
    simp only [Bool.false_eq_true, if_false]
    split_ifs <;> omega

/-- When at most a single cell carries any wall bit there is no interior
edge. -/
theorem maze_adj_single {width height : ℕ} {walls : List ℕ} {k : ℕ}
    (hwpos : 0 < width)
    (hz : ∀ i, i ≠ k → wallsAt walls i = 0) (i j : ℕ) :
    maze_adj width height walls i j = false := by
  by_cases hik : i = k
  · by_cases hjk : j = k
    · subst hik
      subst hjk
      rw [Bool.eq_false_iff]
      intro h
      simp only [maze_adj, Bool.or_eq_true, Bool.and_eq_true,
        decide_eq_true_eq] at h
      rcases h with ((⟨h1, _⟩ | ⟨h1, _⟩) | ⟨h1, _⟩) | ⟨h1, _⟩ <;> omega
    · exact maze_adj_zero (hz j hjk) i j (Or.inr rfl)
  · exact maze_adj_zero (hz i hik) i j (Or.inl rfl)

theorem not_mem_nbrs_self (x y : ℤ) : (x, y) ∉ nbrs x y := by
  intro hm
  simp only [nbrs, c_l, c_r, c_t, c_b, List.mem_cons, List.not_mem_nil, or_false,
    Prod.mk.injEq] at hm
  rcases hm with ⟨h1, _⟩ | ⟨h1, _⟩ | ⟨_, h2⟩ | ⟨_, h2⟩ <;> omega

/-- `q_up(start, 0)` on the initial state (with the start's outward wall bit
already opened) establishes the growth invariant and the heap cover. -/
theorem start_setup {width height : ℕ} {r : List ℤ} {start : ℤ × ℤ} (b : ℕ)
    (hw : 2 ≤ width) (hh : 2 ≤ height)
    (hrlen : r.length = width * height)
    (hrval : ∀ c : ℤ × ℤ, in_bounds width height c.1 c.2 = true →
      r.getD (cellIdx width c) 0 = (grid_degree width height c.1 c.2 : ℤ))
    (hin : in_bounds width height start.1 start.2 = true)
    (hbord : is_border width height start.1 start.2 = true) :
    ∃ s1, q_up width height
        { cells_visited := 0, rem := r,
          dist := List.replicate (width * height) INF,
          walls := (List.replicate (width * height) (0 : ℕ)).set
            (cellIdx width start) (0 ||| b),
          heap := [], q := [], tick := 0 } start 0 = .ok s1 ∧
      Inv width height start s1 ∧ heapCover width height s1 ∧
      s1.cells_visited = 1 ∧ s1.q = [start] ∧ s1.tick = 0 ∧
      s1.dist = (List.replicate (width * height) INF).set (cellIdx width start) 0 ∧
      s1.walls = (List.replicate (width * height) (0 : ℕ)).set
        (cellIdx width start) (0 ||| b) := by
  have hidx : cellIdx width start < width * height := cellIdx_lt hin
  obtain ⟨s1, hsv, hcv, hwallseq, hqeq, hteq, hheapeq, hdistset, hldist, hlrem,
      hdpt, hrpt⟩ :=
    set_visited_spec width height
      { cells_visited := 0, rem := r,
        dist := List.replicate (width * height) INF,
        walls := (List.replicate (width * height) (0 : ℕ)).set
          (cellIdx width start) (0 ||| b),
        heap := [], q := [] ++ [start], tick := 0 } start.1 start.2 0 hin
      (by simp) hrlen
  dsimp only at hcv hwallseq hqeq hteq hheapeq hdistset hdpt hrpt
  simp only [Prod.mk.eta] at hdistset hdpt hheapeq
  have hdAt1 : ∀ c : ℤ × ℤ, in_bounds width height c.1 c.2 = true →
      dAt width s1.dist c = if c = start then 0 else INF := by
    intro c hc
    have h := hdpt c hc
    rw [getD_replicate_self] at h
    exact h
  have hq1 : s1.q = [start] := by
    rw [hqeq]
    rfl
  have hh1 : s1.heap = [(-(0 : ℤ), start.1, start.2)] := by
    rw [hheapeq]
    rfl
  have hstartAt : dAt width s1.dist start = 0 := by
    rw [hdAt1 start hin, if_pos rfl]
  have hcv1 : s1.cells_visited = 1 := by omega
  have hvc : visCount width height s1.dist = 1 := by
    unfold visCount
    apply countP_eq_one (j := cellIdx width start) _ (List.nodup_range _)
      (List.mem_range.mpr hidx)
    intro k hk
    rw [List.mem_range] at hk
    constructor
    · intro hpk
      by_contra hne
      rw [decide_eq_true_eq] at hpk
      rw [hdistset, getD_set_ne _ _ _ _ _ (fun hx => hne hx.symm)] at hpk
      exact hpk (getD_replicate_self _ _ _)
    · intro hk'
      subst hk'
      rw [decide_eq_true_eq, hdistset,
        getD_set_self _ _ _ _ (by simpa using hidx)]
      decide
  have hucset := @unvisited_count_set width height
    (List.replicate (width * height) INF) s1.dist
    start.1 start.2 0 (by simp) hldist hin
    (fun c hc => by
      rw [hdAt1 c hc, Prod.mk.eta]
      exact if_congr Iff.rfl rfl (getD_replicate_self _ _ _).symm)
    (by decide) (getD_replicate_self _ _ _)
  have hucc : ∀ c : ℤ × ℤ, in_bounds width height c.1 c.2 = true →
      grid_degree width height c.1 c.2 =
        unvisited_count width height s1.dist c.1 c.2 +
          (if start ∈ nbrs c.1 c.2 then 1 else 0) := by
    intro c hc
    have h := hucset c hc
    rw [unvisited_count_replicate, Prod.mk.eta] at h
    exact h
  have hucstart : unvisited_count width height s1.dist start.1 start.2 =
      grid_degree width height start.1 start.2 := by
    have h := hucc start hin
    rw [if_neg (not_mem_nbrs_self start.1 start.2)] at h
    omega
  have hzwalls : ∀ i, i ≠ cellIdx width start → wallsAt s1.walls i = 0 := by
    intro i hi
    unfold wallsAt
    rw [hwallseq, getD_set_ne _ _ _ _ _ (fun hx => hi hx.symm),
      getD_replicate_self]
  have hAdjF : ∀ i j, maze_adj width height s1.walls i j = false :=
    maze_adj_single (by omega) hzwalls
  have honly : ∀ c : ℤ × ℤ, in_bounds width height c.1 c.2 = true →
      dAt width s1.dist c ≠ INF → c = start := by
    intro c hc hne
    rw [hdAt1 c hc] at hne
    by_cases hcs : c = start
    · exact hcs
    · rw [if_neg hcs] at hne
      exact absurd rfl hne
  have hinv : Inv width height start s1 := by
    refine ⟨hldist, ?_, hlrem, ?_, hin, hbord, hstartAt, ?_, ?_, ?_, ?_, ?_, ?_,
      ?_, ?_, ?_, ?_⟩
    · rw [hwallseq]
      simp
    · rw [hcv1, hvc]
    · intro c hc hne
      have hcs := honly c hc hne
      subst hcs
      rw [hstartAt, hcv1]
      exact ⟨le_refl 0, by decide⟩
    · intro c hc h0
      by_cases hcs : c = start
      · exact hcs
      · rw [hdAt1 c hc, if_neg hcs] at h0
        exact absurd h0 (by decide)
    · intro c hc
      have hs := hrpt c hc
      rw [hrval c hc] at hs
      rw [hs]
      have h := hucc c hc
      by_cases hm : c ∈ nbrs start.1 start.2
      · rw [if_pos hm]
        rw [if_pos (mem_nbrs_comm.mpr hm)] at h
        push_cast
        omega
      · rw [if_neg hm]
        rw [if_neg (fun hx => hm (mem_nbrs_comm.mp hx))] at h
        push_cast
        omega
    · intro c hc
      rw [hq1, List.mem_singleton] at hc
      subst hc
      exact ⟨hin, by rw [hstartAt]; decide⟩
    · intro e he
      rw [hh1, List.mem_singleton] at he
      subst he
      refine ⟨hin, ?_, ?_⟩
      · show dAt width s1.dist start = -(-(0 : ℤ))
        rw [hstartAt]
        decide
      · show dAt width s1.dist start ≠ INF
        rw [hstartAt]
        decide
    · rw [hh1]
      exact List.pairwise_singleton _ _
    · intro c hc hne
      have hcs := honly c hc hne
      subst hcs
      rw [hucstart]
      exact grid_degree_le_three hbord
    · intro c hc hINF
      have hcs : c ≠ start := by
        intro he
        rw [he, hstartAt] at hINF
        exact absurd hINF (by decide)
      exact hzwalls _ (fun hx => hcs (cellIdx_inj hc hin hx))
    · intro i j hadj
      rw [hAdjF i j] at hadj
      exact Bool.noConfusion hadj
    · intro i hi hvis
      have hieq : i = cellIdx width start := by
        by_contra hne
        rw [hdistset, getD_set_ne _ _ _ _ _ (fun hx => hne hx.symm),
          getD_replicate_self] at hvis
        exact hvis rfl
      rw [if_pos hieq]
      unfold parentCount
      apply List.countP_eq_zero.mpr
      intro j _
      rw [hAdjF i j]
      simp
  refine ⟨s1, hsv, hinv, ?_, hcv1, hq1, by rw [hteq], hdistset, hwallseq⟩
  intro c hc hvis h1
  have hcs := honly c hc hvis
  subst hcs
  refine ⟨(-(0 : ℤ), c.1, c.2), ?_, rfl⟩
  rw [hh1]
  exact List.mem_singleton.mpr rfl

/-- `pick_start` on the initial state: under the in-grid draw hypothesis it
returns an in-grid border start whose single outward wall bit has been
opened, and the state satisfies the growth invariant. -/
theorem pick_start_spec {width height : ℕ} {o : Orc} {r : List ℤ}
    (hw : 2 ≤ width) (hh : 2 ≤ height)
    (hx : o.coin1 = true → o.xDraw % (width + 1) < width)
    (hrlen : r.length = width * height)
    (hrval : ∀ c : ℤ × ℤ, in_bounds width height c.1 c.2 = true →
      r.getD (cellIdx width c) 0 = (grid_degree width height c.1 c.2 : ℤ)) :
    ∃ start s1 nbOut, pick_start width height o
        { cells_visited := 0, rem := r,
          dist := List.replicate (width * height) INF,
          walls := List.replicate (width * height) 0,
          heap := [], q := [], tick := 0 } = .ok (start, s1) ∧
      Inv width height start s1 ∧ heapCover width height s1 ∧
      s1.cells_visited = 1 ∧ s1.q = [start] ∧ s1.tick = 0 ∧
      s1.dist = (List.replicate (width * height) INF).set (cellIdx width start) 0 ∧
      nbOut ∈ nbrs start.1 start.2 ∧
      in_bounds width height nbOut.1 nbOut.2 = false ∧
      s1.walls = (List.replicate (width * height) (0 : ℕ)).set
        (cellIdx width start) (0 ||| bitToward start nbOut) := by
  rcases hc1 : o.coin1 with _ | _
  · -- vertical borders
    have hm : o.yDraw % (height - 1) < height - 1 := Nat.mod_lt _ (by omega)
    have hwz : (2 : ℤ) ≤ (width : ℤ) := by exact_mod_cast hw
    have hhz : (2 : ℤ) ≤ (height : ℤ) := by exact_mod_cast hh
    have hhlt : ¬((height : ℤ) - 1 < 1) := by omega
    have hmz0 : (0 : ℤ) ≤ ((o.yDraw % (height - 1) : ℕ) : ℤ) := Int.natCast_nonneg _
    have hmz : ((o.yDraw % (height - 1) : ℕ) : ℤ) < (height : ℤ) - 1 := by
      have h3 : ((height - 1 : ℕ) : ℤ) = (height : ℤ) - 1 :=
        Nat.cast_sub (by omega)
      rw [← h3]
      exact_mod_cast hm
    rcases hc2 : o.coin2 with _ | _
    · -- right column
      have hyin : in_bounds width height ((width : ℤ) - 1)
          (1 + ((o.yDraw % (height - 1) : ℕ) : ℤ)) = true :=
        in_bounds_iff.mpr ⟨by omega, by omega, by omega, by omega⟩
      have hbord : is_border width height ((width : ℤ) - 1)
          (1 + ((o.yDraw % (height - 1) : ℕ) : ℤ)) = true :=
        is_border_iff.mpr (Or.inr (Or.inr (Or.inl rfl)))
      have hopen : open_right width (List.replicate (width * height) (0 : ℕ))
          ((width : ℤ) - 1) (1 + ((o.yDraw % (height - 1) : ℕ) : ℤ)) =
          some ((List.replicate (width * height) (0 : ℕ)).set
            (cellIdx width ((width : ℤ) - 1,
              1 + ((o.yDraw % (height - 1) : ℕ) : ℤ))) (0 ||| 4)) := by
        unfold open_right
        rw [open_wall_spec 4 (by simp) hyin, getD_replicate_self]
      obtain ⟨s1, hq_up, hinv, hcov, hcv1, hq1, ht1, hdist1, hwalls1⟩ :=
        @start_setup width height r ((width : ℤ) - 1,
          1 + ((o.yDraw % (height - 1) : ℕ) : ℤ)) 4 hw hh hrlen hrval hyin hbord
      refine ⟨_, s1, ((width : ℤ),
        1 + ((o.yDraw % (height - 1) : ℕ) : ℤ)), ?_, hinv, hcov, hcv1, hq1, ht1,
        hdist1, ?_, ?_, ?_⟩
      · unfold pick_start
        dsimp only
        rw [hc1, if_neg Bool.false_ne_true, if_neg hhlt, hc2,
          if_neg Bool.false_ne_true]
        apply (bind_ok_iff _ _ _).mpr
        refine ⟨_, by rw [hopen]; rfl, ?_⟩
        apply (bind_ok_iff _ _ _).mpr
        exact ⟨s1, hq_up, rfl⟩
      · simp only [nbrs, c_l, c_r, c_t, c_b, List.mem_cons, List.not_mem_nil,
          or_false, Prod.mk.injEq, and_true, true_and]
        omega
      · rw [Bool.eq_false_iff]
        intro ht
        rcases in_bounds_iff.mp ht with ⟨_, h2, _, _⟩
        omega
      · have hbt : bitToward ((width : ℤ) - 1,
            1 + ((o.yDraw % (height - 1) : ℕ) : ℤ)) ((width : ℤ),
            1 + ((o.yDraw % (height - 1) : ℕ) : ℤ)) = 4 := by
          unfold bitToward
          rw [if_pos (by omega : ((width : ℤ) - 1,
            1 + ((o.yDraw % (height - 1) : ℕ) : ℤ)).1 < ((width : ℤ),
            1 + ((o.yDraw % (height - 1) : ℕ) : ℤ)).1)]
        rw [hwalls1, hbt]
    · -- left column
      have hyin : in_bounds width height 0
          (1 + ((o.yDraw % (height - 1) : ℕ) : ℤ)) = true :=
        in_bounds_iff.mpr ⟨by omega, by omega, by omega, by omega⟩
      have hbord : is_border width height 0
          (1 + ((o.yDraw % (height - 1) : ℕ) : ℤ)) = true :=
        is_border_iff.mpr (Or.inl rfl)
      have hopen : open_left width (List.replicate (width * height) (0 : ℕ))
          0 (1 + ((o.yDraw % (height - 1) : ℕ) : ℤ)) =
          some ((List.replicate (width * height) (0 : ℕ)).set
            (cellIdx width ((0 : ℤ),
              1 + ((o.yDraw % (height - 1) : ℕ) : ℤ))) (0 ||| 1)) := by
        unfold open_left
        rw [open_wall_spec 1 (by simp) hyin, getD_replicate_self]
      obtain ⟨s1, hq_up, hinv, hcov, hcv1, hq1, ht1, hdist1, hwalls1⟩ :=
        @start_setup width height r ((0 : ℤ),
          1 + ((o.yDraw % (height - 1) : ℕ) : ℤ)) 1 hw hh hrlen hrval hyin hbord
      refine ⟨_, s1, ((-1 : ℤ),
        1 + ((o.yDraw % (height - 1) : ℕ) : ℤ)), ?_, hinv, hcov, hcv1, hq1, ht1,
        hdist1, ?_, ?_, ?_⟩
      · unfold pick_start
        dsimp only
        rw [hc1, if_neg Bool.false_ne_true, if_neg hhlt, hc2, if_pos rfl]
        apply (bind_ok_iff _ _ _).mpr
        refine ⟨_, by rw [hopen]; rfl, ?_⟩
        apply (bind_ok_iff _ _ _).mpr
        exact ⟨s1, hq_up, rfl⟩
      · simp only [nbrs, c_l, c_r, c_t, c_b, List.mem_cons, List.not_mem_nil,
          or_false, Prod.mk.injEq, and_true, true_and]
        omega
      · rw [Bool.eq_false_iff]
        intro ht
        rcases in_bounds_iff.mp ht with ⟨h1, _, _, _⟩
        omega
      · have hbt : bitToward ((0 : ℤ),
            1 + ((o.yDraw % (height - 1) : ℕ) : ℤ)) ((-1 : ℤ),
            1 + ((o.yDraw % (height - 1) : ℕ) : ℤ)) = 1 := by
          unfold bitToward
          rw [if_neg (by omega), if_pos (by omega : ((-1 : ℤ),
            1 + ((o.yDraw % (height - 1) : ℕ) : ℤ)).1 < ((0 : ℤ),
            1 + ((o.yDraw % (height - 1) : ℕ) : ℤ)).1)]
        rw [hwalls1, hbt]
  · -- horizontal borders
    have hxlt : o.xDraw % (width + 1) < width := hx hc1
    have hwz : (2 : ℤ) ≤ (width : ℤ) := by exact_mod_cast hw
    have hhz : (2 : ℤ) ≤ (height : ℤ) := by exact_mod_cast hh
    have hxz0 : (0 : ℤ) ≤ ((o.xDraw % (width + 1) : ℕ) : ℤ) := Int.natCast_nonneg _
    have hxz : ((o.xDraw % (width + 1) : ℕ) : ℤ) < (width : ℤ) := by
      exact_mod_cast hxlt
    rcases hc2 : o.coin2 with _ | _
    · -- bottom row
      have hxin : in_bounds width height ((o.xDraw % (width + 1) : ℕ) : ℤ)
          ((height : ℤ) - 1) = true :=
        in_bounds_iff.mpr ⟨by omega, by omega, by omega, by omega⟩
      have hbord : is_border width height ((o.xDraw % (width + 1) : ℕ) : ℤ)
          ((height : ℤ) - 1) = true :=
        is_border_iff.mpr (Or.inr (Or.inr (Or.inr rfl)))
      have hopen : open_bottom width (List.replicate (width * height) (0 : ℕ))
          ((o.xDraw % (width + 1) : ℕ) : ℤ) ((height : ℤ) - 1) =
          some ((List.replicate (width * height) (0 : ℕ)).set
            (cellIdx width (((o.xDraw % (width + 1) : ℕ) : ℤ),
              (height : ℤ) - 1)) (0 ||| 8)) := by
        unfold open_bottom
        rw [open_wall_spec 8 (by simp) hxin, getD_replicate_self]
      obtain ⟨s1, hq_up, hinv, hcov, hcv1, hq1, ht1, hdist1, hwalls1⟩ :=
        @start_setup width height r (((o.xDraw % (width + 1) : ℕ) : ℤ),
          (height : ℤ) - 1) 8 hw hh hrlen hrval hxin hbord
      refine ⟨_, s1, (((o.xDraw % (width + 1) : ℕ) : ℤ), (height : ℤ)), ?_,
        hinv, hcov, hcv1, hq1, ht1, hdist1, ?_, ?_, ?_⟩
      · unfold pick_start
        dsimp only
        rw [hc1, if_pos rfl, hc2, if_neg Bool.false_ne_true]
        apply (bind_ok_iff _ _ _).mpr
        refine ⟨_, by rw [hopen]; rfl, ?_⟩
        apply (bind_ok_iff _ _ _).mpr
        exact ⟨s1, hq_up, rfl⟩
      · simp only [nbrs, c_l, c_r, c_t, c_b, List.mem_cons, List.not_mem_nil,
          or_false, Prod.mk.injEq, and_true, true_and]
        omega
      · rw [Bool.eq_false_iff]
        intro ht
        rcases in_bounds_iff.mp ht with ⟨_, _, _, h4⟩
        omega
      · have hbt : bitToward (((o.xDraw % (width + 1) : ℕ) : ℤ),
            (height : ℤ) - 1) (((o.xDraw % (width + 1) : ℕ) : ℤ),
            (height : ℤ)) = 8 := by
          unfold bitToward
          rw [if_neg (by omega), if_neg (by omega),
            if_pos (by omega : ((((o.xDraw % (width + 1) : ℕ) : ℤ),
              (height : ℤ) - 1)).2 < ((((o.xDraw % (width + 1) : ℕ) : ℤ),
              (height : ℤ))).2)]
        rw [hwalls1, hbt]
    · -- top row
      have hxin : in_bounds width height ((o.xDraw % (width + 1) : ℕ) : ℤ)
          0 = true :=
        in_bounds_iff.mpr ⟨by omega, by omega, by omega, by omega⟩
      have hbord : is_border width height ((o.xDraw % (width + 1) : ℕ) : ℤ)
          0 = true :=
        is_border_iff.mpr (Or.inr (Or.inl rfl))
      have hopen : open_top width (List.replicate (width * height) (0 : ℕ))
          ((o.xDraw % (width + 1) : ℕ) : ℤ) 0 =
          some ((List.replicate (width * height) (0 : ℕ)).set
            (cellIdx width (((o.xDraw % (width + 1) : ℕ) : ℤ), (0 : ℤ)))
            (0 ||| 2)) := by
        unfold open_top
        rw [open_wall_spec 2 (by simp) hxin, getD_replicate_self]
      obtain ⟨s1, hq_up, hinv, hcov, hcv1, hq1, ht1, hdist1, hwalls1⟩ :=
        @start_setup width height r (((o.xDraw % (width + 1) : ℕ) : ℤ), (0 : ℤ))
          2 hw hh hrlen hrval hxin hbord
      refine ⟨_, s1, (((o.xDraw % (width + 1) : ℕ) : ℤ), (-1 : ℤ)), ?_,
        hinv, hcov, hcv1, hq1, ht1, hdist1, ?_, ?_, ?_⟩
      · unfold pick_start
        dsimp only
        rw [hc1, if_pos rfl, hc2, if_pos rfl]
        apply (bind_ok_iff _ _ _).mpr
        refine ⟨_, by rw [hopen]; rfl, ?_⟩
        apply (bind_ok_iff _ _ _).mpr
        exact ⟨s1, hq_up, rfl⟩
      · simp only [nbrs, c_l, c_r, c_t, c_b, List.mem_cons, List.not_mem_nil,
          or_false, Prod.mk.injEq, and_true, true_and]
        omega
      · rw [Bool.eq_false_iff]
        intro ht
        rcases in_bounds_iff.mp ht with ⟨_, _, h3, _⟩
        omega
      · have hbt : bitToward (((o.xDraw % (width + 1) : ℕ) : ℤ), (0 : ℤ))
            (((o.xDraw % (width + 1) : ℕ) : ℤ), (-1 : ℤ)) = 2 := by
          unfold bitToward
          rw [if_neg (by omega), if_neg (by omega), if_neg (by omega),
            if_pos (by omega : ((((o.xDraw % (width + 1) : ℕ) : ℤ),
              (-1 : ℤ))).2 < ((((o.xDraw % (width + 1) : ℕ) : ℤ), (0 : ℤ))).2)]
        rw [hwalls1, hbt]

theorem bool_eq_of_iff {a b : Bool} (h : a = true ↔ b = true) : a = b := by
  cases a <;> cases b <;> simp_all

/-- How `bit_open` changes when a single cell `k0` has `b0` or-ed in. -/
theorem bit_open_upd1 {walls w2 : List ℕ} {k0 b0 : ℕ}
    (h1 : wallsAt w2 k0 = wallsAt walls k0 ||| b0)
    (h3 : ∀ k, k ≠ k0 → wallsAt w2 k = wallsAt walls k)
    (k b : ℕ) :
    bit_open w2 k b = true ↔
      (bit_open walls k b = true ∨ (k = k0 ∧ b0 &&& b ≠ 0)) := by
  rw [bit_open_ne, bit_open_ne]
  by_cases hk : k = k0
  · subst hk
    rw [h1, or_and_ne]
    constructor
    · rintro (h | h)
      · exact Or.inl h
      · exact Or.inr ⟨rfl, h⟩
    · rintro (h | ⟨_, h⟩)
      · exact Or.inl h
      · exact Or.inr h
  · rw [h3 k hk]
    constructor
    · exact Or.inl
    · rintro (h | ⟨hk0, _⟩)
      · exact h
      · exact absurd hk0 hk
  -- the Nat.or distributes over and

/-- Opening the outward exit bit of a border cell changes no interior edge. -/
theorem exit_edges_eq {width height : ℕ} {walls : List ℕ} {c : ℤ × ℤ}
    (hlen : walls.length = width * height)
    (hc : in_bounds width height c.1 c.2 = true) :
    ∀ i j, maze_adj width height
        (walls.set (cellIdx width c)
          (walls.getD (cellIdx width c) 0 ||| exitBit width height c)) i j =
      maze_adj width height walls i j := by
  have hidx : cellIdx width c < width * height := cellIdx_lt hc
  have hlt : cellIdx width c < walls.length := by omega
  have h1 : wallsAt (walls.set (cellIdx width c)
      (walls.getD (cellIdx width c) 0 ||| exitBit width height c))
      (cellIdx width c) = wallsAt walls (cellIdx width c) ||| exitBit width height c :=
    getD_set_self walls _ _ 0 hlt
  have h3 : ∀ k, k ≠ cellIdx width c →
      wallsAt (walls.set (cellIdx width c)
        (walls.getD (cellIdx width c) 0 ||| exitBit width height c)) k =
      wallsAt walls k := by
    intro k hk
    exact getD_set_ne walls _ _ _ 0 (fun hx => hk hx.symm)
  have hb := bit_open_upd1 h1 h3
  have hmod := @cellIdx_mod width height _ hc
  have hkeq := @cellIdx_eq width height _ hc
  rcases in_bounds_iff.mp hc with ⟨hx0, hxw, hy0, hyh⟩
  have hbits : (exitBit width height c = 1 ∧ c.1 = 0) ∨
      (exitBit width height c = 2 ∧ c.2 = 0) ∨
      (exitBit width height c = 4 ∧ c.1 = (width : ℤ) - 1) ∨
      (exitBit width height c = 8 ∧ c.2 = (height : ℤ) - 1) ∨
      exitBit width height c = 0 := by
    unfold exitBit
    by_cases e1 : c.1 = 0
    · rw [if_pos e1]
      exact Or.inl ⟨rfl, e1⟩
    rw [if_neg e1]
    by_cases e2 : c.2 = 0
    · rw [if_pos e2]
      exact Or.inr (Or.inl ⟨rfl, e2⟩)
    rw [if_neg e2]
    by_cases e3 : c.1 = (width : ℤ) - 1
    · rw [if_pos e3]
      exact Or.inr (Or.inr (Or.inl ⟨rfl, e3⟩))
    rw [if_neg e3]
    by_cases e4 : c.2 = (height : ℤ) - 1
    · rw [if_pos e4]
      exact Or.inr (Or.inr (Or.inr (Or.inl ⟨rfl, e4⟩)))
    rw [if_neg e4]
    exact Or.inr (Or.inr (Or.inr (Or.inr rfl)))
  have hbit4 : ∀ i, i % width + 1 < width →
      ¬(i = cellIdx width c ∧ exitBit width height c &&& 4 ≠ 0) := by
    rintro i hg ⟨hi, hand⟩
    rcases hbits with ⟨hb0, _⟩ | ⟨hb0, _⟩ | ⟨hb0, he⟩ | ⟨hb0, _⟩ | hb0
    · rw [hb0] at hand
      exact hand rfl
    · rw [hb0] at hand
      exact hand rfl
    · subst hi
      omega
    · rw [hb0] at hand
      exact hand rfl
    · rw [hb0] at hand
      exact hand rfl
  have hbit1 : ∀ i, i % width + 1 < width →
      ¬(i + 1 = cellIdx width c ∧ exitBit width height c &&& 1 ≠ 0) := by
    rintro i hg ⟨hi, hand⟩
    rcases hbits with ⟨hb0, he⟩ | ⟨hb0, _⟩ | ⟨hb0, _⟩ | ⟨hb0, _⟩ | hb0
    · have h0 : (i + 1) % width = 0 := by
        rw [hi, hmod, he]
        rfl
      have hmw : (i + 1) % width = i % width + 1 := by
        rw [Nat.add_mod, Nat.mod_eq_of_lt (show 1 < width by omega),
          Nat.mod_eq_of_lt (by omega)]
      omega
    · rw [hb0] at hand
      exact hand rfl
    · rw [hb0] at hand
      exact hand rfl
    · rw [hb0] at hand
      exact hand rfl
    · rw [hb0] at hand
      exact hand rfl
  have hbit8 : ∀ i, i + width < width * height →
      ¬(i = cellIdx width c ∧ exitBit width height c &&& 8 ≠ 0) := by
    rintro i hg ⟨hi, hand⟩
    rcases hbits with ⟨hb0, _⟩ | ⟨hb0, _⟩ | ⟨hb0, _⟩ | ⟨hb0, he⟩ | hb0
    · rw [hb0] at hand
      exact hand rfl
    · rw [hb0] at hand
      exact hand rfl
    · rw [hb0] at hand
      exact hand rfl
    · have hc2n : c.2.toNat = height - 1 := by omega
      rw [hc2n] at hkeq
      have hms : width * (height - 1) + width = width * height := by
        have h1h : 1 ≤ height := by omega
        calc width * (height - 1) + width = width * (height - 1 + 1) := by ring
          _ = width * height := by rw [Nat.sub_add_cancel h1h]
      omega
    · rw [hb0] at hand
      exact hand rfl
  have hbit2 : ∀ i, i + width < width * height →
      ¬(i + width = cellIdx width c ∧ exitBit width height c &&& 2 ≠ 0) := by
    rintro i hg ⟨hi, hand⟩
    rcases hbits with ⟨hb0, _⟩ | ⟨hb0, he⟩ | ⟨hb0, _⟩ | ⟨hb0, _⟩ | hb0
    · rw [hb0] at hand
      exact hand rfl
    · have hc2n : c.2.toNat = 0 := by omega
      rw [hc2n, Nat.mul_zero, Nat.zero_add] at hkeq
      omega
    · rw [hb0] at hand
      exact hand rfl
    · rw [hb0] at hand
      exact hand rfl
    · rw [hb0] at hand
      exact hand rfl
  have hER : ∀ i, edge_right width
      (walls.set (cellIdx width c)
        (walls.getD (cellIdx width c) 0 ||| exitBit width height c)) i =
      edge_right width walls i := by
    intro i
    apply bool_eq_of_iff
    rw [edge_right_iff, edge_right_iff]
    constructor
    · rintro ⟨hg, h4, h1'⟩
      rcases (hb i 4).mp h4 with h4' | hcon
      · rcases (hb (i + 1) 1).mp h1' with h1'' | hcon
        · exact ⟨hg, h4', h1''⟩
        · exact absurd hcon (hbit1 i hg)
      · exact absurd hcon (hbit4 i hg)
    · rintro ⟨hg, h4, h1'⟩
      exact ⟨hg, (hb i 4).mpr (Or.inl h4), (hb (i + 1) 1).mpr (Or.inl h1')⟩
  have hED : ∀ i, edge_down width height
      (walls.set (cellIdx width c)
        (walls.getD (cellIdx width c) 0 ||| exitBit width height c)) i =
      edge_down width height walls i := by
    intro i
    apply bool_eq_of_iff
    rw [edge_down_iff, edge_down_iff]
    constructor
    · rintro ⟨hg, h8, h2'⟩
      rcases (hb i 8).mp h8 with h8' | hcon
      · rcases (hb (i + width) 2).mp h2' with h2'' | hcon
        · exact ⟨hg, h8', h2''⟩
        · exact absurd hcon (hbit2 i hg)
      · exact absurd hcon (hbit8 i hg)
    · rintro ⟨hg, h8, h2'⟩
      exact ⟨hg, (hb i 8).mpr (Or.inl h8), (hb (i + width) 2).mpr (Or.inl h2')⟩
  intro i j
  unfold maze_adj
  rw [hER i, hER j, hED i, hED j]

/-- The whole growth phase: with both dimensions at least 2, valid weights
and an in-grid horizontal draw, `grow_maze` succeeds; the final state
satisfies the invariant and every cell has been visited. -/
theorem grow_maze_ok {width height : ℕ} {bd : Frac × Frac × Frac × Frac} {o : Orc}
    (hw : 2 ≤ width) (hh : 2 ≤ height)
    (hIN : ((width * height : ℕ) : ℤ) ≤ INF) (hv : valid_weights bd)
    (hx : o.coin1 = true → o.xDraw % (width + 1) < width) :
    ∃ start s, grow_maze width height bd o = .ok (start, s) ∧
      Inv width height start s ∧ s.cells_visited = width * height := by
  obtain ⟨r, hr, hrlen, hrval⟩ := init_rem_spec hw hh
  have hs0 : init_state width height = some
      { cells_visited := 0, rem := r,
        dist := List.replicate (width * height) INF,
        walls := List.replicate (width * height) 0,
        heap := [], q := [], tick := 0 } := by
    unfold init_state
    rw [hr]
    rfl
  obtain ⟨start, s1, nbOut, hps, hinv1, hcov1, hcv1, hq1, ht1, hdist1, hnbm,
      hnbout, hwalls1⟩ := pick_start_spec hw hh hx hrlen hrval
  have hn4 : 4 ≤ width * height := Nat.mul_le_mul hw hh
  obtain ⟨s2, hloop, hinv2, hcv2⟩ :=
    grow_loop_ok (o := o) (2 * (width * height)) s1 hinv1 hcov1 hIN hv
      (by rw [hcv1, hq1]; simp only [List.length_cons, List.length_nil]; omega)
  refine ⟨start, s2, ?_, hinv2, hcv2⟩
  unfold grow_maze
  apply (bind_ok_iff _ _ _).mpr
  refine ⟨_, by rw [hs0]; rfl, ?_⟩
  apply (bind_ok_iff _ _ _).mpr
  refine ⟨(start, s1), hps, ?_⟩
  apply (bind_ok_iff _ _ _).mpr
  exact ⟨s2, hloop, rfl⟩

theorem exists_list_max {α : Type} (f : α → ℤ) :
    ∀ (l : List α), l ≠ [] → ∃ a ∈ l, ∀ b ∈ l, f b ≤ f a := by
  intro l
  induction l with
  | nil => intro h; exact absurd rfl h
  | cons x xs ih =>
    intro _
    rcases eq_or_ne xs [] with rfl | hne
    · refine ⟨x, List.mem_cons_self _ _, ?_⟩
      intro b hb
      rcases List.mem_cons.mp hb with rfl | hb
      · exact le_refl _
      · cases hb
    · obtain ⟨a, ha, hamax⟩ := ih hne
      by_cases hle : f x ≤ f a
      · refine ⟨a, List.mem_cons_of_mem _ ha, ?_⟩
        intro b hb
        rcases List.mem_cons.mp hb with rfl | hb
        · exact hle
        · exact hamax b hb
      · refine ⟨x, List.mem_cons_self _ _, ?_⟩
        intro b hb
        rcases List.mem_cons.mp hb with rfl | hb
        · exact le_refl _
        · exact le_trans (hamax b hb) (by omega)

theorem two_le_countP {p : ℕ → Bool} {l : List ℕ} {a b : ℕ}
    (hab : a ≠ b) (ha : a ∈ l) (hb : b ∈ l) (hpa : p a = true) (hpb : p b = true) :
    2 ≤ l.countP p := by
  rw [List.countP_eq_length_filter]
  have ha' : a ∈ l.filter p := List.mem_filter.mpr ⟨ha, hpa⟩
  have hb' : b ∈ l.filter p := List.mem_filter.mpr ⟨hb, hpb⟩
  have h2 : ({a, b} : Finset ℕ) ⊆ (l.filter p).toFinset := by
    intro x hx
    rw [Finset.mem_insert, Finset.mem_singleton] at hx
    rcases hx with rfl | rfl
    · exact List.mem_toFinset.mpr ha'
    · exact List.mem_toFinset.mpr hb'
  calc 2 = ({a, b} : Finset ℕ).card := (Finset.card_pair hab).symm
    _ ≤ (l.filter p).toFinset.card := Finset.card_le_card h2
    _ ≤ (l.filter p).length := (l.filter p).toFinset_card_le

/-- Once `cells_visited = cell_count`, every linear cell is visited. -/
theorem all_visited {width height : ℕ} {start : ℤ × ℤ} {s : St}
    (hinv : Inv width height start s) (hcv : s.cells_visited = width * height) :
    ∀ i, i < width * height → s.dist.getD i INF ≠ INF := by
  have hvc : visCount width height s.dist = width * height := by
    rw [← hinv.cv, hcv]
  unfold visCount at hvc
  intro i hi
  have hall := List.countP_eq_length.mp (by rw [hvc, List.length_range])
  have := hall i (List.mem_range.mpr hi)
  exact of_decide_eq_true this

/-- In the fully grown maze every cell is joined to the start. -/
theorem final_connected {width height : ℕ} {start : ℤ × ℤ} {s : St}
    (hinv : Inv width height start s) (hcv : s.cells_visited = width * height)
    (hn : 0 < width * height) :
    (maze_graph width height s.walls).Connected := by
  have hall := all_visited hinv hcv
  have hw0 : 0 < width := by
    rcases Nat.eq_zero_or_pos width with h | h
    · rw [h] at hn
      simp at hn
    · exact h
  have hstidx : cellIdx width start < width * height := cellIdx_lt hinv.start_in
  have hreach : ∀ m (v : Fin (width * height)),
      (s.dist.getD v.val INF).toNat = m →
      (maze_graph width height s.walls).Reachable v ⟨cellIdx width start, hstidx⟩ := by
    intro m
    induction m using Nat.strong_induction_on with
    | _ m ih =>
      intro v hm
      by_cases hvst : v.val = cellIdx width start
      · rw [show v = ⟨cellIdx width start, hstidx⟩ from Fin.ext hvst]
      · have hvis := hall v.val v.isLt
        have hpc := hinv.parent v.val v.isLt hvis
        rw [if_neg hvst] at hpc
        unfold parentCount at hpc
        have hpos : ∃ j ∈ List.range (width * height),
            (maze_adj width height s.walls v.val j &&
              decide (s.dist.getD j INF + 1 = s.dist.getD v.val INF)) = true :=
          List.countP_pos.mp (by rw [hpc]; omega)
        obtain ⟨j, hjmem, hpj⟩ := hpos
        rw [List.mem_range] at hjmem
        rw [Bool.and_eq_true, decide_eq_true_eq] at hpj
        obtain ⟨hadj, hdj⟩ := hpj
        obtain ⟨hjin, hjci⟩ := idxCell_spec hw0 hjmem
        have hdbv := hinv.dist_bound (idxCell width j) hjin
          (by unfold dAt; rw [hjci]; exact hall j hjmem)
        unfold dAt at hdbv
        rw [hjci] at hdbv
        have hmlt : (s.dist.getD j INF).toNat < m := by omega
        have hrj := ih _ hmlt ⟨j, hjmem⟩ rfl
        exact (SimpleGraph.Adj.reachable hadj).trans hrj
  haveI : Nonempty (Fin (width * height)) := ⟨⟨0, hn⟩⟩
  exact ⟨fun u v => (hreach _ u rfl).trans (hreach _ v rfl).symm⟩

/-- In the fully grown maze no cycle exists: the vertex of maximal distance
on a cycle would have two distinct parents. -/
theorem final_acyclic {width height : ℕ} {start : ℤ × ℤ} {s : St}
    (hinv : Inv width height start s) :
    (maze_graph width height s.walls).IsAcyclic := by
  intro v c hc
  obtain ⟨u, hu, hmax⟩ := exists_list_max
    (fun x : Fin (width * height) => s.dist.getD x.val INF) c.support
    (SimpleGraph.Walk.support_ne_nil c)
  have hw : (c.rotate hu).IsCycle := hc.rotate hu
  have hsup : ∀ x, x ∈ (c.rotate hu).support → x ∈ c.support := by
    intro x hx
    rw [SimpleGraph.Walk.support_eq_cons (c.rotate hu)] at hx
    rcases List.mem_cons.mp hx with rfl | hx
    · exact hu
    · have hperm := SimpleGraph.Walk.support_rotate c hu
      have := hperm.mem_iff.mp hx
      rw [SimpleGraph.Walk.support_eq_cons c]
      exact List.mem_cons_of_mem _ this
  revert hw hsup
  generalize c.rotate hu = w
  intro hw hsup
  cases w with
  | nil => exact absurd rfl hw.ne_nil
  | cons hadj q =>
    rename_i b
    have hcyc := (SimpleGraph.Walk.cons_isCycle_iff q hadj).mp hw
    have hL := hw.three_le_length
    rw [SimpleGraph.Walk.length_cons] at hL
    have hqr0 : 0 < q.reverse.length := by
      rw [SimpleGraph.Walk.length_reverse]
      omega
    have hqrnil : ¬q.reverse.Nil := SimpleGraph.Walk.not_nil_iff_lt_length.mpr hqr0
    have hadj2 : (maze_graph width height s.walls).Adj u (q.reverse.getVert 1) :=
      SimpleGraph.Walk.adj_getVert_one hqrnil
    have hlaste : q.reverse.edges =
        s(u, q.reverse.getVert 1) :: q.reverse.tail.edges := by
      conv_lhs => rw [← SimpleGraph.Walk.cons_tail_eq q.reverse hqrnil]
      rw [SimpleGraph.Walk.edges_cons]
    have hlastr : s(u, q.reverse.getVert 1) ∈ q.reverse.edges := by
      rw [hlaste]
      exact List.mem_cons_self _ _
    have hlast : s(u, q.reverse.getVert 1) ∈ q.edges := by
      rw [SimpleGraph.Walk.edges_reverse, List.mem_reverse] at hlastr
      exact hlastr
    have hne : q.reverse.getVert 1 ≠ b := by
      intro he
      rw [he] at hlast
      exact hcyc.2 hlast
    have hbmem : b ∈ c.support := by
      apply hsup
      rw [SimpleGraph.Walk.support_cons]
      apply List.mem_cons_of_mem
      rw [SimpleGraph.Walk.support_eq_cons q]
      exact List.mem_cons_self _ _
    have hamem : q.reverse.getVert 1 ∈ c.support := by
      apply hsup
      rw [SimpleGraph.Walk.support_cons]
      apply List.mem_cons_of_mem
      have hmem : q.reverse.getVert 1 ∈ q.reverse.support :=
        SimpleGraph.Walk.mem_support_iff_exists_getVert.mpr
          ⟨1, rfl, by omega⟩
      rw [SimpleGraph.Walk.support_reverse, List.mem_reverse] at hmem
      exact hmem
    have humem : u ∈ c.support := hu
    have hmaxa := hmax _ hamem
    have hmaxb := hmax _ hbmem
    have hdua := hinv.edge_dist u.val (q.reverse.getVert 1).val hadj2
    have hdub := hinv.edge_dist u.val b.val hadj
    have hpa : s.dist.getD (q.reverse.getVert 1).val INF + 1 =
        s.dist.getD u.val INF := by
      rcases hdua.2.2 with h | h
      · omega
      · omega
    have hpb : s.dist.getD b.val INF + 1 = s.dist.getD u.val INF := by
      rcases hdub.2.2 with h | h
      · omega
      · omega
    have hpc := hinv.parent u.val u.isLt hdua.1
    have h2le : 2 ≤ parentCount width height s.walls s.dist u.val := by
      unfold parentCount
      exact two_le_countP (fun h => hne (Fin.ext h))
        (List.mem_range.mpr (q.reverse.getVert 1).isLt)
        (List.mem_range.mpr b.isLt)
        (by rw [Bool.and_eq_true]; exact ⟨hadj2, decide_eq_true hpa⟩)
        (by rw [Bool.and_eq_true]; exact ⟨hadj, decide_eq_true hpb⟩)
    by_cases hst : u.val = cellIdx width start
    · rw [if_pos hst] at hpc
      omega
    · rw [if_neg hst] at hpc
      omega

/-- The grown maze's open-wall graph is a spanning tree with exactly
`cell_count - 1` interior edges. -/
theorem final_tree {width height : ℕ} {start : ℤ × ℤ} {s : St}
    (hinv : Inv width height start s) (hcv : s.cells_visited = width * height)
    (hn : 0 < width * height) :
    (maze_graph width height s.walls).IsTree ∧
      (maze_graph width height s.walls).edgeFinset.card + 1 = width * height := by
  have htree : (maze_graph width height s.walls).IsTree :=
    ⟨final_connected hinv hcv hn, final_acyclic hinv⟩
  refine ⟨htree, ?_⟩
  have hcard := htree.card_edgeFinset
  rw [Fintype.card_fin] at hcard
  exact hcard

/-! ## The claims -/

/-- C1 (corrected): with both dimensions at least 2, `cell_count ≤ INF`,
valid branch weights and an in-grid horizontal start draw, every `Maze`
returned by `gen_maze` has an interior open-wall graph that is a spanning
tree: connected and acyclic with exactly `cell_count - 1` edges.  (The
original claim, quantified over all `width, height ≥ 1` and all seeds, is
refuted by `C1_spanning_tree_cex`.) -/
theorem C1_spanning_tree {width height : ℕ} {bd : Frac × Frac × Frac × Frac}
    {min_length : ℤ} {o : Orc} {m : Maze}
    (hw : 2 ≤ width) (hh : 2 ≤ height)
    (hIN : ((width * height : ℕ) : ℤ) ≤ INF) (hv : valid_weights bd)
    (hx : o.coin1 = true → o.xDraw % (width + 1) < width)
    (hm : gen_maze width height bd min_length o = .ok m) :
    (maze_graph width height m.maze).IsTree ∧
      (maze_graph width height m.maze).edgeFinset.card + 1 = width * height := by
  obtain ⟨start, s, hgrow, hinv, hcv⟩ := grow_maze_ok hw hh hIN hv hx
  unfold gen_maze at hm
  rcases hfull : gen_maze_full width height bd min_length o with e | full
  · rw [hfull] at hm
    exact absurd hm (by simp [Except.map])
  rw [hfull] at hm
  simp only [Except.map] at hm
  have hmaze : m.maze = full.walls := by
    rw [← Except.ok.inj hm]
  unfold gen_maze_full at hfull
  rw [hgrow] at hfull
  simp only [bind, Except.bind] at hfull
  rcases hex : exit_pass width height min_length o s.dist s.walls with e | p
  · rw [hex] at hfull
    exact absurd hfull (by simp)
  have hne : exit_candidates width height s.dist
      (if 0 < min_length then min_length
        else min (width : ℤ) (height : ℤ)) ≠ [] := by
    intro hnil
    obtain ⟨e, he⟩ := (exit_pass_error_iff rfl hinv.len_dist hinv.len_walls).mpr hnil
    rw [he] at hex
    exact Except.noConfusion hex
  obtain ⟨c, hmem, hc, heq⟩ := exit_pass_ok rfl hinv.len_dist hinv.len_walls
    (o := o) hne
  have hp : p = (c, s.walls.set (cellIdx width c)
      (s.walls.getD (cellIdx width c) 0 ||| exitBit width height c)) :=
    Except.ok.inj (hex.symm.trans heq)
  rw [hex] at hfull
  dsimp only at hfull
  simp only [pure, Except.pure] at hfull
  have hfw : full.walls = s.walls.set (cellIdx width c)
      (s.walls.getD (cellIdx width c) 0 ||| exitBit width height c) := by
    rw [← Except.ok.inj hfull]
    dsimp only
    rw [hp]
  have hcin := ((mem_exit_candidates hinv.len_dist c).mp hmem).1
  have hG : maze_graph width height m.maze = maze_graph width height s.walls := by
    rw [hmaze, hfw]
    apply SimpleGraph.ext
    funext a b
    have := exit_edges_eq hinv.len_walls hcin a.val b.val
    simp only [maze_graph]
    rw [this]
  have hTS := final_tree hinv hcv (by have := Nat.mul_le_mul hw hh; omega)
  constructor
  · rw [hG]
    exact hTS.1
  · have hES : (maze_graph width height m.maze).edgeSet =
        (maze_graph width height s.walls).edgeSet := by rw [hG]
    have hEF : (maze_graph width height m.maze).edgeFinset =
        (maze_graph width height s.walls).edgeFinset := Set.toFinset_congr hES
    rw [congrArg Finset.card hEF]
    exact hTS.2

set_option maxHeartbeats 1000000 in
theorem C1_spanning_tree_inst :
    gen_maze 2 2 defaultBranchDist 1 okOrc =
      .ok { maze := [6, 9, 5, 3], width := 2, height := 2 } ∧
      (maze_graph 2 2 [6, 9, 5, 3]).IsTree ∧
      (maze_graph 2 2 [6, 9, 5, 3]).edgeFinset.card + 1 = 2 * 2 := by
  have hm : gen_maze 2 2 defaultBranchDist 1 okOrc =
      .ok { maze := [6, 9, 5, 3], width := 2, height := 2 } := rfl
  refine ⟨hm, C1_spanning_tree ?_ ?_ ?_ ?_ ?_ hm⟩
  · decide
  · decide
  · decide
  · unfold valid_weights
    decide
  · exact fun _ => by decide

/-- C1's counterexample: with the off-by-one start draw `x = 2 = width` on a
2×2 grid, `gen_maze` still returns a `Maze`, but its open-wall graph has 2
edges, not `cell_count - 1 = 3` — the spec's unconditional spanning-tree
property fails. -/
theorem C1_spanning_tree_cex :
    gen_maze 2 2 defaultBranchDist 1 cexOrc =
      .ok { maze := [5, 13, 3, 2], width := 2, height := 2 } ∧
      ¬((maze_graph 2 2 [5, 13, 3, 2]).edgeFinset.card + 1 = 2 * 2) :=
  ⟨rfl, by decide⟩

/-- C2 (confirmed): the generator is a pure function of its inputs — all
randomness comes from the seeded oracle, so equal seeds give byte-identical
full results (wall masks, distance field, start and exit) and equal mazes. -/
theorem C2_deterministic {width height : ℕ} {bd : Frac × Frac × Frac × Frac}
    {min_length : ℤ} {o1 o2 : Orc} (h : o1 = o2) :
    gen_maze_full width height bd min_length o1 =
      gen_maze_full width height bd min_length o2 ∧
    gen_maze width height bd min_length o1 =
      gen_maze width height bd min_length o2 := by
  subst h
  exact ⟨rfl, rfl⟩

theorem C2_deterministic_inst :
    okOrc = okOrc ∧
      (gen_maze_full 2 2 defaultBranchDist 1 okOrc =
        gen_maze_full 2 2 defaultBranchDist 1 okOrc ∧
      gen_maze 2 2 defaultBranchDist 1 okOrc =
        gen_maze 2 2 defaultBranchDist 1 okOrc) :=
  ⟨rfl, C2_deterministic rfl⟩

/-- C3 (corrected): under the amended hypotheses (dimensions at least 2,
`cell_count ≤ INF`, valid weights, in-grid start draw) the growth loop of
`grow_maze` terminates — with exactly `cell_count` visitation steps,
`cells_visited = cell_count` — and every cell ends with a non-sentinel
distance.  (For general `width, height ≥ 1` and seeds this fails:
`C3_coverage_cex`.) -/
theorem C3_coverage {width height : ℕ} {bd : Frac × Frac × Frac × Frac} {o : Orc}
    (hw : 2 ≤ width) (hh : 2 ≤ height)
    (hIN : ((width * height : ℕ) : ℤ) ≤ INF) (hv : valid_weights bd)
    (hx : o.coin1 = true → o.xDraw % (width + 1) < width) :
    ∃ start s, grow_maze width height bd o = .ok (start, s) ∧
      s.cells_visited = width * height ∧
      ∀ i, i < width * height → s.dist.getD i INF ≠ INF := by
  obtain ⟨start, s, heq, hinv, hcv⟩ := grow_maze_ok hw hh hIN hv hx
  exact ⟨start, s, heq, hcv, all_visited hinv hcv⟩

theorem C3_coverage_inst :
    2 ≤ 2 ∧ ∃ start s, grow_maze 2 2 defaultBranchDist okOrc = .ok (start, s) ∧
      s.cells_visited = 2 * 2 ∧ ∀ i, i < 2 * 2 → s.dist.getD i INF ≠ INF :=
  ⟨by decide, C3_coverage (by decide) (by decide) (by decide)
    (by unfold valid_weights; decide) (fun _ => by decide)⟩

/-- C3's counterexample: a 2×2 run whose start draw lands out of grid aborts
the growth loop in `random.sample` instead of terminating with full
coverage. -/
theorem C3_coverage_cex :
    grow_maze 2 2 defaultBranchDist orc3 = .error .sampleLarger := rfl

/-- C4 (confirmed): with `min_exit_distance` as specified, the exit pass
fails exactly when no border cell's distance strictly exceeds it (the error
aborts the run, finalizing nothing); otherwise it picks the candidate
indexed by the exit draw and opens exactly one outward wall bit on it,
chosen by the left/top/right/bottom priority chain (`exitBit`). -/
theorem C4_exit_rule {width height : ℕ} {min_length : ℤ} {o : Orc}
    {dist : List ℤ} {walls : List ℕ}
    (hlen : dist.length = width * height) (hwlen : walls.length = width * height) :
    ((∃ e, exit_pass width height min_length o dist walls = .error e) ↔
      exit_candidates width height dist
        (if 0 < min_length then min_length else min (width : ℤ) (height : ℤ)) = []) ∧
    (exit_candidates width height dist
        (if 0 < min_length then min_length else min (width : ℤ) (height : ℤ)) ≠ [] →
      ∃ c, (in_bounds width height c.1 c.2 = true ∧
          is_border width height c.1 c.2 = true ∧
          (if 0 < min_length then min_length else min (width : ℤ) (height : ℤ)) <
            dist.getD (cellIdx width c) 0) ∧
        c = (exit_candidates width height dist
            (if 0 < min_length then min_length
              else min (width : ℤ) (height : ℤ))).getD
          (o.exitPick % (exit_candidates width height dist
            (if 0 < min_length then min_length
              else min (width : ℤ) (height : ℤ))).length) (0, 0) ∧
        exit_pass width height min_length o dist walls =
          .ok (c, walls.set (cellIdx width c)
            (walls.getD (cellIdx width c) 0 ||| exitBit width height c))) := by
  refine ⟨exit_pass_error_iff rfl hlen hwlen, ?_⟩
  intro hne
  obtain ⟨c, hmem, hc, heq⟩ := exit_pass_ok rfl hlen hwlen (o := o) hne
  exact ⟨c, (mem_exit_candidates hlen c).mp hmem, hc, heq⟩

theorem C4_exit_rule_inst :
    ([(0 : ℤ), 1, 3, 2].length = 2 * 2 ∧ [(6 : ℕ), 9, 4, 3].length = 2 * 2) ∧
      (((∃ e, exit_pass 2 2 1 okOrc [0, 1, 3, 2] [6, 9, 4, 3] = .error e) ↔
        exit_candidates 2 2 [0, 1, 3, 2]
          (if (0 : ℤ) < 1 then 1 else min (2 : ℤ) (2 : ℤ)) = []) ∧
      (exit_candidates 2 2 [0, 1, 3, 2]
          (if (0 : ℤ) < 1 then 1 else min (2 : ℤ) (2 : ℤ)) ≠ [] →
        ∃ c, (in_bounds 2 2 c.1 c.2 = true ∧
            is_border 2 2 c.1 c.2 = true ∧
            (if (0 : ℤ) < 1 then 1 else min (2 : ℤ) (2 : ℤ)) <
              List.getD [0, 1, 3, 2] (cellIdx 2 c) 0) ∧
          c = (exit_candidates 2 2 [0, 1, 3, 2]
              (if (0 : ℤ) < 1 then 1 else min (2 : ℤ) (2 : ℤ))).getD
            (okOrc.exitPick % (exit_candidates 2 2 [0, 1, 3, 2]
              (if (0 : ℤ) < 1 then 1 else min (2 : ℤ) (2 : ℤ))).length) (0, 0) ∧
          exit_pass 2 2 1 okOrc [0, 1, 3, 2] [6, 9, 4, 3] =
            .ok (c, List.set [6, 9, 4, 3] (cellIdx 2 c)
              (List.getD [6, 9, 4, 3] (cellIdx 2 c) 0 ||| exitBit 2 2 c)))) :=
  ⟨⟨by decide, by decide⟩, C4_exit_rule (by decide) (by decide)⟩

/-- C5 (corrected): provided the horizontal coordinate draw lands in the
grid (the source's `randint(0, width)` can also return `width`:
`C5_start_cex`), the picked start is an in-grid border cell, it is the
unique cell of distance 0, and exactly one wall bit is opened — the one
toward its out-of-grid neighbour — all other cells' masks staying 0. -/
theorem C5_start_cell {width height : ℕ} {o : Orc} {s0 : St}
    (hw : 2 ≤ width) (hh : 2 ≤ height)
    (hx : o.coin1 = true → o.xDraw % (width + 1) < width)
    (hs0 : init_state width height = some s0) :
    ∃ start s1 nbOut, pick_start width height o s0 = .ok (start, s1) ∧
      in_bounds width height start.1 start.2 = true ∧
      is_border width height start.1 start.2 = true ∧
      dAt width s1.dist start = 0 ∧
      (∀ c : ℤ × ℤ, in_bounds width height c.1 c.2 = true →
        dAt width s1.dist c = 0 → c = start) ∧
      nbOut ∈ nbrs start.1 start.2 ∧
      in_bounds width height nbOut.1 nbOut.2 = false ∧
      wallsAt s1.walls (cellIdx width start) = bitToward start nbOut ∧
      (∀ i, i ≠ cellIdx width start → wallsAt s1.walls i = 0) := by
  obtain ⟨r, hr, hrlen, hrval⟩ := init_rem_spec hw hh
  have hs0' : s0 =
      { cells_visited := 0, rem := r,
        dist := List.replicate (width * height) INF,
        walls := List.replicate (width * height) 0,
        heap := [], q := [], tick := 0 } := by
    have hval : init_state width height = some
        { cells_visited := 0, rem := r,
          dist := List.replicate (width * height) INF,
          walls := List.replicate (width * height) 0,
          heap := [], q := [], tick := 0 } := by
      unfold init_state
      rw [hr]
      rfl
    rw [hs0] at hval
    exact Option.some.inj hval
  subst hs0'
  obtain ⟨start, s1, nbOut, hps, hinv, _, _, _, _, _, hnbm, hnbout, hwalls1⟩ :=
    pick_start_spec hw hh hx hrlen hrval
  refine ⟨start, s1, nbOut, hps, hinv.start_in, hinv.start_bord, hinv.start_dist,
    hinv.start_uniq, hnbm, hnbout, ?_, ?_⟩
  · unfold wallsAt
    rw [hwalls1, getD_set_self _ _ _ _ (by
      rw [List.length_replicate]
      exact cellIdx_lt hinv.start_in)]
    exact Nat.zero_or _
  · intro i hi
    unfold wallsAt
    rw [hwalls1, getD_set_ne _ _ _ _ _ (fun hx2 => hi hx2.symm),
      getD_replicate_self]

theorem C5_start_cell_inst :
    init_state 2 2 = some
      { cells_visited := 0, rem := [2, 2, 2, 2], dist := [INF, INF, INF, INF],
        walls := [0, 0, 0, 0], heap := [], q := [], tick := 0 } ∧
    ∃ start s1 nbOut, pick_start 2 2 okOrc
        { cells_visited := 0, rem := [2, 2, 2, 2], dist := [INF, INF, INF, INF],
          walls := [0, 0, 0, 0], heap := [], q := [], tick := 0 } =
        .ok (start, s1) ∧
      in_bounds 2 2 start.1 start.2 = true ∧
      is_border 2 2 start.1 start.2 = true ∧
      dAt 2 s1.dist start = 0 ∧
      (∀ c : ℤ × ℤ, in_bounds 2 2 c.1 c.2 = true →
        dAt 2 s1.dist c = 0 → c = start) ∧
      nbOut ∈ nbrs start.1 start.2 ∧
      in_bounds 2 2 nbOut.1 nbOut.2 = false ∧
      wallsAt s1.walls (cellIdx 2 start) = bitToward start nbOut ∧
      (∀ i, i ≠ cellIdx 2 start → wallsAt s1.walls i = 0) :=
  ⟨rfl, C5_start_cell (by decide) (by decide) (fun _ => by decide) rfl⟩

/-- C5's counterexample: on a 2×2 grid the draw `x = 2` gives the start
`(2, 0)`, which is not an in-grid cell — `randint(0, width)` is inclusive
of `width`. -/
theorem C5_start_cex :
    ∃ s1, pick_start 2 2 cexOrc
        { cells_visited := 0, rem := [2, 2, 2, 2], dist := [INF, INF, INF, INF],
          walls := [0, 0, 0, 0], heap := [], q := [], tick := 0 } =
        .ok (((2 : ℤ), (0 : ℤ)), s1) ∧
      in_bounds 2 2 2 0 = false :=
  ⟨_, rfl, by decide⟩

/-- C6 (confirmed): the branch count drawn for `nb` unvisited neighbours is
confined to `[0, nb]`; it depends only on the first `nb + 1` configured
weights (higher entries are dropped, not redistributed); and only the
relative magnitudes matter — scaling all weights by a positive fraction
leaves the draw unchanged. -/
theorem C6_branch_dist {bd bd' : Frac × Frac × Frac × Frac} {c u : Frac} {nb : ℕ}
    (htr : (branch_weights bd).take (nb + 1) = (branch_weights bd').take (nb + 1))
    (hc1 : 0 < c.1) (hc2 : 0 < c.2) (hd : pos_dens bd) (hu : 0 < u.2) :
    (∀ k, branch_sample bd nb u = .ok k → k ≤ nb) ∧
    branch_sample bd nb u = branch_sample bd' nb u ∧
    branch_sample (fscale c bd) nb u = branch_sample bd nb u :=
  ⟨fun _ h => branch_sample_le h, branch_sample_truncation htr u,
    branch_sample_scale hc1 hc2 hd hu nb⟩

theorem C6_branch_dist_inst :
    ((branch_weights defaultBranchDist).take 3 =
      (branch_weights ((3, 10), (45, 100), (2, 10), (9, 10))).take 3) ∧
    ((∀ k, branch_sample defaultBranchDist 2 (1, 2) = .ok k → k ≤ 2) ∧
      branch_sample defaultBranchDist 2 (1, 2) =
        branch_sample ((3, 10), (45, 100), (2, 10), (9, 10)) 2 (1, 2) ∧
      branch_sample (fscale (2, 3) defaultBranchDist) 2 (1, 2) =
        branch_sample defaultBranchDist 2 (1, 2)) :=
  ⟨by decide, C6_branch_dist (by decide) (by decide) (by decide)
    (by unfold pos_dens; decide) (by decide)⟩

/-- C7 (confirmed): on an empty frontier the step still makes progress (the
restart's branch count is forced to at least 1, so `cells_visited` strictly
increases), and `fallback_cell` treats the top (largest-distance, since the
heap keys are negated distances) entry exactly as specified: kept and
returned when its cell's remaining sides exceed 1, popped and returned at
exactly 1, discarded (moving to the next entry) at 0. -/
theorem C7_restart_fallback {width height : ℕ} {bd : Frac × Frac × Frac × Frac}
    {o : Orc} {rem : List ℤ} {e : ℤ × ℤ × ℤ} {rest : List (ℤ × ℤ × ℤ)} {v : ℤ}
    {s s2 : St}
    (hv : pyGet rem (t width e.2.1 e.2.2) = some v)
    (hq : s.q = []) (hstep : step width height bd o s = .ok s2) :
    (List.Pairwise keyLe (e :: rest) → ∀ e' ∈ e :: rest, e.1 ≤ e'.1) ∧
    (1 < v → fallback_cell width rem (e :: rest) =
      .ok (some ((e.2.1, e.2.2), e :: rest))) ∧
    (v = 1 → fallback_cell width rem (e :: rest) = .ok (some ((e.2.1, e.2.2), rest))) ∧
    (v < 1 → fallback_cell width rem (e :: rest) = fallback_cell width rem rest) ∧
    s.cells_visited < s2.cells_visited :=
  ⟨fun hs => sorted_head_min hs, fun h1 => fallback_cell_keep hv h1,
    fun h1 => fallback_cell_pop hv h1, fun h1 => fallback_cell_skip hv h1,
    step_empty_q_cv hq hstep⟩

theorem C7_restart_fallback_inst :
    (pyGet [(2 : ℤ), 1, 1, 2] (t 2 0 0) = some 2 ∧
      step 2 2 defaultBranchDist okOrc
        { cells_visited := 1, rem := [2, 1, 1, 2], dist := [0, INF, INF, INF],
          walls := [2, 0, 0, 0], heap := [(0, 0, 0)], q := [], tick := 0 } =
        .ok { cells_visited := 2, rem := [1, 1, 1, 1],
              dist := [0, 1, INF, INF], walls := [6, 1, 0, 0],
              heap := [(-1, 1, 0), (0, 0, 0)], q := [(1, 0)], tick := 1 }) ∧
    ((List.Pairwise keyLe [((0 : ℤ), (0 : ℤ), (0 : ℤ))] →
      ∀ e' ∈ [((0 : ℤ), (0 : ℤ), (0 : ℤ))], (0 : ℤ) ≤ e'.1) ∧
    (1 < (2 : ℤ) → fallback_cell 2 [2, 1, 1, 2] [(0, 0, 0)] =
      .ok (some ((0, 0), [(0, 0, 0)]))) ∧
    ((2 : ℤ) = 1 → fallback_cell 2 [2, 1, 1, 2] [(0, 0, 0)] =
      .ok (some ((0, 0), []))) ∧
    ((2 : ℤ) < 1 → fallback_cell 2 [2, 1, 1, 2] [(0, 0, 0)] =
      fallback_cell 2 [2, 1, 1, 2] []) ∧
    (1 : ℕ) < 2) :=
  ⟨⟨rfl, rfl⟩,
    @C7_restart_fallback 2 2 defaultBranchDist okOrc [2, 1, 1, 2] (0, 0, 0) [] 2
      { cells_visited := 1, rem := [2, 1, 1, 2], dist := [0, INF, INF, INF],
        walls := [2, 0, 0, 0], heap := [(0, 0, 0)], q := [], tick := 0 }
      { cells_visited := 2, rem := [1, 1, 1, 1], dist := [0, 1, INF, INF],
        walls := [6, 1, 0, 0], heap := [(-1, 1, 0), (0, 0, 0)],
        q := [(1, 0)], tick := 1 }
      rfl rfl rfl⟩

/-- C8 (corrected): under the amended hypotheses the completed growth state
gives the start distance 0 and every other in-grid cell exactly one
open-wall neighbour whose distance is one less (its parent).  (For general
seeds this fails: `C8_parent_cex` exhibits a completed run with an in-grid
cell having no parent edge at all.) -/
theorem C8_parent_edge {width height : ℕ} {bd : Frac × Frac × Frac × Frac} {o : Orc}
    (hw : 2 ≤ width) (hh : 2 ≤ height)
    (hIN : ((width * height : ℕ) : ℤ) ≤ INF) (hv : valid_weights bd)
    (hx : o.coin1 = true → o.xDraw % (width + 1) < width) :
    ∃ start s, grow_maze width height bd o = .ok (start, s) ∧
      dAt width s.dist start = 0 ∧
      ∀ c : ℤ × ℤ, in_bounds width height c.1 c.2 = true → c ≠ start →
        parentCount width height s.walls s.dist (cellIdx width c) = 1 := by
  obtain ⟨start, s, heq, hinv, hcv⟩ := grow_maze_ok hw hh hIN hv hx
  refine ⟨start, s, heq, hinv.start_dist, ?_⟩
  intro c hc hne
  have hvis : s.dist.getD (cellIdx width c) INF ≠ INF :=
    all_visited hinv hcv _ (cellIdx_lt hc)
  have hpar := hinv.parent (cellIdx width c) (cellIdx_lt hc) hvis
  rw [if_neg (fun he => hne (cellIdx_inj hc hinv.start_in he))] at hpar
  exact hpar

theorem C8_parent_edge_inst :
    2 ≤ 2 ∧ ∃ start s, grow_maze 2 2 defaultBranchDist okOrc = .ok (start, s) ∧
      dAt 2 s.dist start = 0 ∧
      ∀ c : ℤ × ℤ, in_bounds 2 2 c.1 c.2 = true → c ≠ start →
        parentCount 2 2 s.walls s.dist (cellIdx 2 c) = 1 :=
  ⟨by decide, C8_parent_edge (by decide) (by decide) (by decide)
    (by unfold valid_weights; decide) (fun _ => by decide)⟩

/-- C8's counterexample: the off-by-one start `(2, 0)` aliases cell `(0, 1)`
(same linear index), the run completes, and the in-grid non-start cell
`(0, 1)` carries distance 0 with no open-wall neighbour one step closer. -/
theorem C8_parent_cex :
    ∃ p, grow_maze 2 2 defaultBranchDist cexOrc = .ok p ∧
      p.1 ≠ ((0 : ℤ), (1 : ℤ)) ∧
      in_bounds 2 2 0 1 = true ∧
      dAt 2 p.2.dist ((0 : ℤ), (1 : ℤ)) ≠ INF ∧
      parentCount 2 2 p.2.walls p.2.dist (cellIdx 2 ((0 : ℤ), (1 : ℤ))) = 0 :=
  ⟨_, rfl, by decide, by decide, by decide, by decide⟩

/-- C9 (code bug): the spec promises degenerate strips complete with all
cells visited, but on a 1×3 strip the overlapping border initialization
leaves `cell_remaining_sides` too high, the restart hands out an exhausted
seed, and the forced branch calls `random.sample` with `k = 1` on an empty
population — the run aborts with the modelled `ValueError`. -/
theorem C9_strip_crash :
    gen_maze 1 3 defaultBranchDist (-1) stripOrc = .error .sampleLarger := rfl

/-- C10 (corrected): in any state satisfying the growth-loop invariant (as
holds on every iteration under the amended start hypotheses), the current
cell handed out by `current_cell` — popped from the frontier or supplied by
`fallback_cell` — is in-grid with at most 3 unvisited neighbours, so
`len(possible_branches) + 1 ≤ 4` matches the truncated weight list and the
whole `step_grow` (the `random.choices` and `random.sample` calls included)
cannot fail.  (Without the hypotheses both calls can fail:
`C10_branch_cex`.) -/
theorem C10_branch_safety {width height : ℕ} {start : ℤ × ℤ}
    {bd : Frac × Frac × Frac × Frac} {o : Orc} {s : St}
    (hinv : Inv width height start s) (hcov : heapCover width height s)
    (hIN : ((width * height : ℕ) : ℤ) ≤ INF) (hv : valid_weights bd)
    (hlt : s.cells_visited < width * height) :
    ∃ cc ct s1 s2, current_cell width s = .ok (cc, ct, s1) ∧
      in_bounds width height cc.1 cc.2 = true ∧
      unvisited_count width height s1.dist cc.1 cc.2 ≤ 3 ∧
      (possible_branches width height s1.dist cc.1 cc.2).length + 1 ≤ 4 ∧
      step_grow width height bd o ct cc s1 = .ok s2 := by
  rcases hq : s.q with _ | ⟨cc, rest⟩
  · have hvlt : visCount width height s.dist < width * height := by
      rw [← hinv.cv]
      exact hlt
    obtain ⟨u, huin, huINF⟩ := exists_unvisited hinv.len_dist hvlt
    have hstvis : dAt width s.dist start ≠ INF := by
      rw [hinv.start_dist]
      decide
    obtain ⟨cst, hcin, hcvis, hc1⟩ := frontier_exists hinv.len_dist huin huINF
      _ start hinv.start_in hstvis rfl
    obtain ⟨e0, he0, hcell0⟩ := hcov cst hcin hcvis hc1
    obtain ⟨c2, h2, hfb, hex2, hrem1, hsub2, hsort2, hdrop2, hkept2⟩ :=
      @fallback_cell_success width height s.rem hinv.len_rem s.heap
        (fun e he => (hinv.heap_vis e he).1)
        (fun e he => by
          rw [hinv.rem_eq _ (hinv.heap_vis e he).1]
          exact Int.natCast_nonneg _)
        e0 he0
        (by rw [hcell0, hinv.rem_eq cst hcin]; exact_mod_cast hc1)
    obtain ⟨e2, he2, hce2⟩ := hex2
    have hv2 := hinv.heap_vis e2 he2
    have hc2in : in_bounds width height c2.1 c2.2 = true := by
      rw [← hce2]
      exact hv2.1
    have hc2vis : dAt width s.dist c2 ≠ INF := by
      rw [← hce2]
      exact hv2.2.2
    have huc1 : 1 ≤ unvisited_count width height s.dist c2.1 c2.2 := by
      rw [hinv.rem_eq c2 hc2in] at hrem1
      exact_mod_cast hrem1
    have hinv1 : Inv width height start { s with heap := h2 } :=
      hinv.with_heap hsub2 (hsort2 hinv.heap_sorted)
    obtain ⟨s', bc, hsg, _, _, _, _, _, _, _⟩ :=
      @step_grow_ok width height start bd o _ hinv1 hIN hv false c2 hc2in hc2vis
        (fun _ => huc1)
    refine ⟨c2, false, { s with heap := h2 }, s', ?_, hc2in, ?_, ?_, hsg⟩
    · unfold current_cell
      rw [hq]
      apply (bind_ok_iff _ _ _).mpr
      exact ⟨some (c2, h2), hfb, rfl⟩
    · exact hinv.nb3 c2 hc2in hc2vis
    · rw [possible_branches_length]
      dsimp only
      have := hinv.nb3 c2 hc2in hc2vis
      omega
  · have hccf := hinv.q_vis cc (by rw [hq]; exact List.mem_cons_self _ _)
    have hinv1 : Inv width height start { s with q := rest } :=
      hinv.with_q (fun c hc => hinv.q_vis c (by rw [hq]; exact List.mem_cons_of_mem _ hc))
    obtain ⟨s', bc, hsg, _, _, _, _, _, _, _⟩ :=
      @step_grow_ok width height start bd o _ hinv1 hIN hv true cc hccf.1 hccf.2
        (fun h => Bool.noConfusion h)
    refine ⟨cc, true, { s with q := rest }, s', ?_, hccf.1, ?_, ?_, hsg⟩
    · unfold current_cell
      rw [hq]
    · exact hinv.nb3 cc hccf.1 hccf.2
    · rw [possible_branches_length]
      dsimp only
      have := hinv.nb3 cc hccf.1 hccf.2
      omega

theorem C10_branch_safety_inst :
    ∃ cc ct s1 s2, current_cell 2
        { cells_visited := 1, rem := [2, 1, 1, 2], dist := [0, INF, INF, INF],
          walls := [2, 0, 0, 0], heap := [(0, 0, 0)], q := [(0, 0)], tick := 0 } =
        .ok (cc, ct, s1) ∧
      in_bounds 2 2 cc.1 cc.2 = true ∧
      unvisited_count 2 2 s1.dist cc.1 cc.2 ≤ 3 ∧
      (possible_branches 2 2 s1.dist cc.1 cc.2).length + 1 ≤ 4 ∧
      step_grow 2 2 defaultBranchDist okOrc ct cc s1 = .ok s2 := by
  obtain ⟨r, hr, hrlen, hrval⟩ := @init_rem_spec 2 2 (by decide) (by decide)
  have hreq : r = [2, 2, 2, 2] := by
    have hval : (some r : Option (List ℤ)) = some [2, 2, 2, 2] := by
      rw [← hr]
      rfl
    exact Option.some.inj hval
  subst hreq
  obtain ⟨start, s1, nbOut, hps, hinv, hcov, _, _, _, _, _, _, _⟩ :=
    @pick_start_spec 2 2 okOrc [2, 2, 2, 2] (by decide) (by decide)
      (fun _ => by decide) hrlen hrval
  have hps' : pick_start 2 2 okOrc
      { cells_visited := 0, rem := [2, 2, 2, 2],
        dist := List.replicate (2 * 2) INF,
        walls := List.replicate (2 * 2) 0,
        heap := [], q := [], tick := 0 } =
      .ok (((0 : ℤ), (0 : ℤ)),
        { cells_visited := 1, rem := [2, 1, 1, 2], dist := [0, INF, INF, INF],
          walls := [2, 0, 0, 0], heap := [(0, 0, 0)], q := [(0, 0)],
          tick := 0 }) := rfl
  rw [hps'] at hps
  have hinj := Except.ok.inj hps
  have hstart : start = ((0 : ℤ), (0 : ℤ)) := (congrArg Prod.fst hinj).symm
  have hs1 : s1 =
      { cells_visited := 1, rem := [2, 1, 1, 2], dist := [0, INF, INF, INF],
        walls := [2, 0, 0, 0], heap := [(0, 0, 0)], q := [(0, 0)],
        tick := 0 } := (congrArg Prod.snd hinj).symm
  rw [hstart] at hinv
  rw [hs1] at hinv hcov
  exact C10_branch_safety hinv hcov (by decide)
    (by unfold valid_weights; decide) (by decide)

/-- C10's counterexample: with the off-by-one start, a later restart hands
out a current cell whose `remaining_sides` bookkeeping no longer matches its
unvisited neighbours, and `random.sample` is called with `k = 1` on an empty
population — the claimed "neither call can fail" is false in general. -/
theorem C10_branch_cex :
    gen_maze_full 2 2 defaultBranchDist (-1) orc10 = .error .sampleLarger := rfl

end Pmaze
